import Mathlib

/-!
# bencode: a shallow embedding of the encoder, the decoder and the binder

The Go package has three parts: `marshalValue` (marshal.go) walks a value by
reflection and writes bencode bytes, `parseBencode` and its helpers
(unmarshal.go) turn bytes into a tree of `int64`, `string`, `[]interface{}`
and `map[string]interface{}`, and `assignValue` (unmarshal.go) binds such a
tree to a typed destination. `Marshal` and `Unmarshal` (bencode.go) are the
entry points.

Conventions of the embedding:
* a byte is a natural number below 256 and a Go `string` or `[]byte` is a list
  of bytes (`Bytes`);
* a Go call returns `Res`: a value, an `error` value, or a run-time panic
  (index or slice bounds out of range);
* recursion of the decoder is driven by a fuel argument; `parseBencode` supplies
  an amount of fuel that is never exhausted (`parseBencode_ne_fuel`), so
  `Res.fuel` is not an outcome of `parseBencode`;
* a Go map is an association list with distinct keys whose order carries no
  meaning; a nil slice and a nil map are the empty list and the empty map;
* `int` is 64 bits wide.
-/

namespace Bencode

/-- A Go string or byte slice: the list of its bytes. -/
abbrev Bytes := List Nat

/-- The bytes of an ASCII literal. -/
def ascii (s : String) : Bytes := s.toList.map Char.toNat

/-- Error values returned by the package and by strconv. -/
inductive GoError where
  /-- errors.New("empty data") -/
  | emptyData
  /-- errors.New("invalid integer") -/
  | invalidInteger
  /-- errors.New("invalid format") -/
  | invalidFormat
  /-- errors.New("invalid element") -/
  | invalidElement
  /-- errors.New("invalid string format") -/
  | invalidStringFormat
  /-- errors.New("string length exceeds data") -/
  | stringLengthExceedsData
  /-- strconv.NumError with Err = strconv.ErrSyntax -/
  | numInvalidSyntax
  /-- strconv.NumError with Err = strconv.ErrRange -/
  | numOutOfRange
  /-- errors.New("unsupported type") -/
  | unsupportedType
  /-- errors.New("must be a non-nil pointer") -/
  | mustBeNonNilPointer
  /-- errors.New("cannot assign non-map to struct") -/
  | nonMapToStruct
  /-- errors.New("cannot assign non-map to map") -/
  | nonMapToMap
  /-- errors.New("map key must be string") -/
  | mapKeyMustBeString
  /-- errors.New("cannot assign non-slice to slice") -/
  | nonSliceToSlice
  /-- fmt.Errorf("cannot convert %T to %v", src, dst.Type()) -/
  | cannotConvert
  deriving DecidableEq, Repr

/-- Outcome of a Go call. -/
inductive Res (α : Type) where
  /-- normal return with a nil error -/
  | ok (a : α)
  /-- return with a non-nil error -/
  | err (e : GoError)
  /-- run-time panic: index out of range or slice bounds out of range -/
  | panic
  /-- the fuel of the embedding ran out (no Go behaviour corresponds to it) -/
  | fuel
  deriving DecidableEq, Repr

/-! ## strconv and fmt -/

/-- Digits written by `%d` for an unsigned number, most significant first:
repeated division by ten, as fmt does; `k` bounds the number of digits. -/
def fmtDigits : Nat → Nat → Bytes → Bytes
  | 0, _, acc => acc
  | k + 1, n, acc =>
    if n < 10 then (48 + n) :: acc
    else fmtDigits k (n / 10) ((48 + n % 10) :: acc)

/-- The text of `fmt.Sprintf("%d", n)` for an unsigned `n`. -/
def formatUint (n : Nat) : Bytes := fmtDigits (n + 1) n []

/-- The text of `fmt.Sprintf("%d", n)` for a signed `n`. -/
def formatInt (n : Int) : Bytes :=
  if n < 0 then 45 :: formatUint n.natAbs else formatUint n.natAbs

/-- The digit loop of `strconv.ParseUint(s, 10, 64)`. -/
def parseUintLoop : Bytes → Nat → Except GoError Nat
  | [], n => .ok n
  | c :: cs, n =>
    if 48 ≤ c ∧ c ≤ 57 then
      if n ≥ (2 ^ 64 - 1) / 10 + 1 then .error .numOutOfRange
      else if n * 10 + (c - 48) > 2 ^ 64 - 1 then .error .numOutOfRange
      else parseUintLoop cs (n * 10 + (c - 48))
    else .error .numInvalidSyntax

/-- Model of `strconv.ParseUint(s, 10, 64)`. -/
def parseUint (s : Bytes) : Except GoError Nat :=
  match s with
  | [] => .error .numInvalidSyntax
  | _ => parseUintLoop s 0

/-- Model of `strconv.ParseInt(s, 10, 64)`: an optional sign, then `ParseUint`, then the
range check against `1 << 63`. -/
def parseInt (s : Bytes) : Except GoError Int :=
  match s with
  | [] => .error .numInvalidSyntax
  | c :: cs =>
    let neg := decide (c = 45)
    let body := if c = 43 ∨ c = 45 then cs else s
    match parseUint body with
    | .error e => .error e
    | .ok un =>
      if ¬ neg ∧ un ≥ 2 ^ 63 then .error .numOutOfRange
      else if neg ∧ un > 2 ^ 63 then .error .numOutOfRange
      else .ok (if neg then - (un : Int) else (un : Int))

/-- Model of `strconv.Atoi` on a 64-bit platform: the same results as
`ParseInt(s, 10, 64)`. -/
def atoi (s : Bytes) : Except GoError Int := parseInt s

/-- Model of `bytes.IndexByte`: the index of the first occurrence, `none` for -1. -/
def indexByte : Bytes → Nat → Option Nat
  | [], _ => none
  | b :: bs, c => if b = c then some 0 else (indexByte bs c).map (· + 1)

/-- Wrap-around of `int` arithmetic (64 bits, two's complement). -/
def wrapInt64 (x : Int) : Int := (x + 2 ^ 63) % 2 ^ 64 - 2 ^ 63

/-! ## The decoder (unmarshal.go) -/

/-- The decoded tree: `int64`, `string`, `[]interface{}` or
`map[string]interface{}`. -/
inductive Value where
  | int (n : Int)
  | str (s : Bytes)
  | list (xs : List Value)
  | dict (m : List (Bytes × Value))
  deriving Repr

/-- The Go statement `m[key] = x` on a string-keyed map held as an association
list: replace the binding of `key` if there is one, add it otherwise. -/
def assocSet {α : Type} : List (Bytes × α) → Bytes → α → List (Bytes × α)
  | [], key, x => [(key, x)]
  | (k, y) :: m, key, x => if k = key then (k, x) :: m else (k, y) :: assocSet m key x

/-- The Go expression `m[key]` (with its `ok` flag). -/
def assocGet {α : Type} : List (Bytes × α) → Bytes → Option α
  | [], _ => none
  | (k, y) :: m, key => if k = key then some y else assocGet m key

/-- Source: `parseString`. -/
def parseString (data : Bytes) : Res (Bytes × Bytes) :=
  match indexByte data 58 with
  | none => .err .invalidStringFormat
  | some colon =>
    match atoi (data.take colon) with
    | .error e => .err e
    | .ok length =>
      let stop := wrapInt64 ((colon : Int) + 1 + length)
      if stop > (data.length : Int) then .err .stringLengthExceedsData
      else if stop < (colon : Int) + 1 then .panic
      else .ok ((data.take stop.toNat).drop (colon + 1), data.drop stop.toNat)

mutual
/-- Source: `parseElement`. -/
def parseElement : Nat → Bytes → Res (Value × Bytes)
  | 0, _ => .fuel
  | _ + 1, [] => .panic
  | fuel + 1, c :: cs =>
    if c = 105 then
      match indexByte (c :: cs) 101 with
      | none => .err .invalidInteger
      | some stop =>
        match parseInt (((c :: cs).take stop).drop 1) with
        | .error e => .err e
        | .ok num => .ok (.int num, (c :: cs).drop (stop + 1))
    else if c = 108 then
      match parseList fuel (c :: cs) with
      | .ok (list, rest) => .ok (.list list, rest)
      | .err e => .err e
      | .panic => .panic
      | .fuel => .fuel
    else if c = 100 then
      match parseDict fuel (c :: cs) with
      | .ok (dict, rest) => .ok (.dict dict, rest)
      | .err e => .err e
      | .panic => .panic
      | .fuel => .fuel
    else if 48 ≤ c ∧ c ≤ 57 then
      match parseString (c :: cs) with
      | .ok (str, rest) => .ok (.str str, rest)
      | .err e => .err e
      | .panic => .panic
      | .fuel => .fuel
    else .err .invalidElement
/-- Source: `parseList`; the loop is `parseListLoop`. -/
def parseList : Nat → Bytes → Res (List Value × Bytes)
  | 0, _ => .fuel
  | _ + 1, [] => .panic
  | fuel + 1, _ :: data => parseListLoop fuel data []
/-- The `for` loop of `parseList` and the `data[1:]` that follows it. -/
def parseListLoop : Nat → Bytes → List Value → Res (List Value × Bytes)
  | 0, _, _ => .fuel
  | _ + 1, [], _ => .panic
  | fuel + 1, c :: cs, list =>
    if c = 101 then .ok (list, cs)
    else
      match parseElement fuel (c :: cs) with
      | .ok (item, rest) => parseListLoop fuel rest (list ++ [item])
      | .err e => .err e
      | .panic => .panic
      | .fuel => .fuel
/-- Source: `parseDict`; the loop is `parseDictLoop`. -/
def parseDict : Nat → Bytes → Res (List (Bytes × Value) × Bytes)
  | 0, _ => .fuel
  | _ + 1, [] => .panic
  | fuel + 1, _ :: data => parseDictLoop fuel data []
/-- The `for` loop of `parseDict` and the `data[1:]` that follows it. -/
def parseDictLoop : Nat → Bytes → List (Bytes × Value) → Res (List (Bytes × Value) × Bytes)
  | 0, _, _ => .fuel
  | _ + 1, [], _ => .panic
  | fuel + 1, c :: cs, dict =>
    if c = 101 then .ok (dict, cs)
    else
      match parseString (c :: cs) with
      | .ok (key, rest) =>
        match parseElement fuel rest with
        | .ok (val, rest) => parseDictLoop fuel rest (assocSet dict key val)
        | .err e => .err e
        | .panic => .panic
        | .fuel => .fuel
      | .err e => .err e
      | .panic => .panic
      | .fuel => .fuel
end

/-- The `for` loop of the `'l'` case of `parseBencode`: it stops at `'e'` or at
the end of the data and returns the list alone. -/
def parseBencodeList : Nat → Bytes → List Value → Res (List Value)
  | 0, _, _ => .fuel
  | _ + 1, [], list => .ok list
  | fuel + 1, c :: cs, list =>
    if c = 101 then .ok list
    else
      match parseElement fuel (c :: cs) with
      | .ok (item, rest) => parseBencodeList fuel rest (list ++ [item])
      | .err e => .err e
      | .panic => .panic
      | .fuel => .fuel

/-- The `for` loop of the `'d'` case of `parseBencode`. -/
def parseBencodeDict : Nat → Bytes → List (Bytes × Value) → Res (List (Bytes × Value))
  | 0, _, _ => .fuel
  | _ + 1, [], dict => .ok dict
  | fuel + 1, c :: cs, dict =>
    if c = 101 then .ok dict
    else
      match parseString (c :: cs) with
      | .ok (key, rest) =>
        match parseElement fuel rest with
        | .ok (val, rest) => parseBencodeDict fuel rest (assocSet dict key val)
        | .err e => .err e
        | .panic => .panic
        | .fuel => .fuel
      | .err e => .err e
      | .panic => .panic
      | .fuel => .fuel

/-- Fuel given to the loops of `parseBencode`: every call of the decoder
consumes at least one byte of input or is the single hop from `parseElement`
to `parseList` or `parseDict`, so three units per byte are enough. -/
def fuelFor (data : Bytes) : Nat := 3 * data.length + 3

/-- Source: `parseBencode`. -/
def parseBencode (data : Bytes) : Res Value :=
  match data with
  | [] => .err .emptyData
  | c :: cs =>
    if c = 105 then
      match indexByte data 101 with
      | none => .err .invalidInteger
      | some stop =>
        match parseInt ((data.take stop).drop 1) with
        | .error e => .err e
        | .ok num => .ok (.int num)
    else if c = 108 then
      match parseBencodeList (fuelFor data) cs [] with
      | .ok list => .ok (.list list)
      | .err e => .err e
      | .panic => .panic
      | .fuel => .fuel
    else if c = 100 then
      match parseBencodeDict (fuelFor data) cs [] with
      | .ok dict => .ok (.dict dict)
      | .err e => .err e
      | .panic => .panic
      | .fuel => .fuel
    else if 48 ≤ c ∧ c ≤ 57 then
      match parseString data with
      | .ok (str, _) => .ok (.str str)
      | .err e => .err e
      | .panic => .panic
      | .fuel => .fuel
    else .err .invalidFormat

/-! ## The encoder (marshal.go) -/

/-- The part of `reflect.StructField` that the package reads. -/
structure StructField where
  /-- the declared identifier, `field.Name` -/
  name : Bytes
  /-- the package path, `field.PkgPath`: empty exactly for exported fields -/
  pkgPath : Bytes
  /-- the result of `field.Tag.Get("bencode")`, empty when there is no such tag -/
  tag : Bytes
  deriving DecidableEq, Repr

/-- A Go value as `reflect` shows it: its kind and its contents.
`int` covers the kinds Int to Int64 (with the result of `v.Int()`), `uint` the
kinds Uint to Uintptr (with the result of `v.Uint()`), `seq` the kinds Slice and
Array, `map` lists the entries in the order in which `MapKeys` yields them,
`ptr` and `iface` hold `none` when nil, and `other` is every remaining kind
(Bool, the floating-point and complex kinds, Chan, Func, UnsafePointer and the
invalid `reflect.Value` of a nil `any`). -/
inductive GoValue where
  | int (n : Int)
  | uint (n : Nat)
  | str (s : Bytes)
  | seq (xs : List GoValue)
  | struct (fields : List (StructField × GoValue))
  | map (entries : List (GoValue × GoValue))
  | ptr (target : Option GoValue)
  | iface (dyn : Option GoValue)
  | other
  deriving Repr

/-- Model of `sort.Strings`: ascending lexicographic byte order. -/
def sortStrings (keys : List Bytes) : List Bytes := List.insertionSort (· ≤ ·) keys

/-- The text of `fmt.Sprintf("%d:%s", len(s), s)`. -/
def encodeString (s : Bytes) : Bytes := formatUint s.length ++ 58 :: s

/-- The key under which the struct case files a field: the tag when it is not
empty, the declared name otherwise. -/
def effectiveKey (f : StructField) : Bytes := if f.tag ≠ [] then f.tag else f.name

/-- A field that the struct case does not skip: exported (`PkgPath == ""`) and
not tagged `"-"`. -/
def fieldIncluded (f : StructField) : Bool := decide (f.pkgPath = []) && decide (f.tag ≠ [45])

/-- The first loop of the struct case: the map `fields` from effective key to
field, filled in declaration order. Each field is carried together with what
`marshalValue` returns for it. -/
def collectFields {α : Type} : List (StructField × α) → List (Bytes × α) → List (Bytes × α)
  | [], fields => fields
  | (f, x) :: rest, fields =>
    if fieldIncluded f then collectFields rest (assocSet fields (effectiveKey f) x)
    else collectFields rest fields

/-- The keys of kind String among the map keys, in `MapKeys` order (the loop
that fills `strKeys`). -/
def stringKeys {α : Type} : List (GoValue × α) → List Bytes
  | [] => []
  | (.str s, _) :: rest => s :: stringKeys rest
  | _ :: rest => stringKeys rest

/-- The Go expression `v.MapIndex(reflect.ValueOf(sk))`: the entry stored under
the string key `sk`. A key of kind String is taken to be of the type `string`
itself (for a named string type `MapIndex` would not accept the key and
panics: `mapIndexTyped` and `TypedValue.marshalValue` below carry that case). -/
def mapIndex {α : Type} : List (GoValue × α) → Bytes → Option α
  | [], _ => none
  | (.str s, x) :: rest, sk => if s = sk then some x else mapIndex rest sk
  | _ :: rest, sk => mapIndex rest sk

/-- The emitting loop of the struct and map cases, over the sorted keys: a key
whose value fails to encode is skipped, otherwise the key token and the value
bytes are written. `valueOf k` is the outcome of `marshalValue` on the value
stored under `k`. -/
def writeEntries (valueOf : Bytes → Option (Except GoError Bytes)) : List Bytes → Bytes
  | [] => []
  | k :: keys =>
    match valueOf k with
    | some (.ok valBytes) => encodeString k ++ valBytes ++ writeEntries valueOf keys
    | _ => writeEntries valueOf keys

/-- The loop of the Slice and Array case over the outcomes of `marshalValue` on
the elements: a failing element is skipped. -/
def writeElems : List (Except GoError Bytes) → Bytes
  | [] => []
  | .ok elem :: rest => elem ++ writeElems rest
  | .error _ :: rest => writeElems rest

mutual
/-- Source: `marshalValue`, on values whose maps with keys of kind String have
the key type `string` (`TypedValue.marshalValue` below is the function on all
values). `marshalValue` has no effects, so the struct and
map cases first take its outcome on every field or entry value
(`marshalFields`, `marshalEntries`) and then run the loops of the source on
these outcomes. -/
def marshalValue : GoValue → Except GoError Bytes
  | .int n => .ok (105 :: formatInt n ++ [101])
  | .uint n => .ok (105 :: formatUint n ++ [101])
  | .str s => .ok (encodeString s)
  | .seq xs => .ok (108 :: writeElems (marshalElems xs) ++ [101])
  | .struct fs =>
    let fields := collectFields (marshalFields fs) []
    let keys := sortStrings (fields.map Prod.fst)
    .ok (100 :: writeEntries (assocGet fields) keys ++ [101])
  | .map entries =>
    let vals := marshalEntries entries
    let strKeys := sortStrings (stringKeys vals)
    .ok (100 :: writeEntries (mapIndex vals) strKeys ++ [101])
  | .ptr none => .ok []
  | .ptr (some x) => marshalValue x
  | .iface none => .ok []
  | .iface (some x) => marshalValue x
  | .other => .error .unsupportedType
/-- Outcome of `marshalValue` on each element of a sequence. -/
def marshalElems : List GoValue → List (Except GoError Bytes)
  | [] => []
  | x :: xs => marshalValue x :: marshalElems xs
/-- Outcome of `marshalValue` on each field value of a struct. -/
def marshalFields : List (StructField × GoValue) → List (StructField × Except GoError Bytes)
  | [] => []
  | (f, x) :: rest => (f, marshalValue x) :: marshalFields rest
/-- Outcome of `marshalValue` on each entry value of a map. -/
def marshalEntries : List (GoValue × GoValue) → List (GoValue × Except GoError Bytes)
  | [] => []
  | (k, x) :: rest => (k, marshalValue x) :: marshalEntries rest
end

/-- Source: `Marshal`. The argument is the dynamic value of `v`
(`reflect.ValueOf(v)`); a nil `any` is `GoValue.other`. -/
def Marshal (v : GoValue) : Except GoError Bytes := marshalValue v

/-! ## The binder (unmarshal.go) and `Unmarshal` (bencode.go) -/

/-- The type of a destination, as far as `assignValue` inspects it.
`int` and `uint` carry their width in bits, `iface` is `interface{}`, `float` is
float32 or float64, and `other` stands for the kinds to which no decoded value
converts (Bool, the complex kinds, Chan, Func, UnsafePointer). Array types,
interface types with methods and named string types used as map keys are not
represented. -/
inductive GoType where
  | int (bits : Nat)
  | uint (bits : Nat)
  | string
  | float
  | slice (elem : GoType)
  | struct (fields : List (StructField × GoType))
  | map (key : GoType) (elem : GoType)
  | ptr (elem : GoType)
  | iface
  | other
  deriving Repr

mutual
/-- The zero value of a type (`reflect.New(t).Elem()`, `reflect.MakeSlice`
elements). A nil slice and a nil map are the empty sequence and the empty map. -/
def zeroValue : GoType → GoValue
  | .int _ => .int 0
  | .uint _ => .uint 0
  | .string => .str []
  | .float => .other
  | .slice _ => .seq []
  | .struct fields => .struct (zeroFields fields)
  | .map _ _ => .map []
  | .ptr _ => .ptr none
  | .iface => .iface none
  | .other => .other
/-- The zero values of the fields of a struct type. -/
def zeroFields : List (StructField × GoType) → List (StructField × GoValue)
  | [] => []
  | (f, t) :: rest => (f, zeroValue t) :: zeroFields rest
end

mutual
/-- A decoded tree as a Go value: what `reflect.ValueOf(src)` shows. The
elements of `[]interface{}` and the values of `map[string]interface{}` are of
kind Interface. -/
def toGo : Value → GoValue
  | .int n => .int n
  | .str s => .str s
  | .list xs => .seq (toGoElems xs)
  | .dict m => .map (toGoEntries m)
/-- The elements of a decoded list as Go values. -/
def toGoElems : List Value → List GoValue
  | [] => []
  | x :: xs => .iface (some (toGo x)) :: toGoElems xs
/-- The entries of a decoded dictionary as Go map entries. -/
def toGoEntries : List (Bytes × Value) → List (GoValue × GoValue)
  | [] => []
  | (k, x) :: m => (.str k, .iface (some (toGo x))) :: toGoEntries m
end

/-- Conversion of an `int64` to a signed integer type of the given width:
reduction modulo `2 ^ bits` in two's complement. -/
def convertInt (bits : Nat) (n : Int) : Int :=
  (n + 2 ^ (bits - 1)) % 2 ^ bits - 2 ^ (bits - 1)

/-- Conversion of an `int64` to an unsigned integer type of the given width. -/
def convertUint (bits : Nat) (n : Int) : Nat := (n % 2 ^ bits).toNat

/-- Conversion of an `int64` to `string`: the UTF-8 encoding of the code point,
and of U+FFFD when the number is not a valid code point. -/
def runeString (x : Int) : Bytes :=
  let r := x.toNat
  if x < 0 ∨ 1114111 < x ∨ (55296 ≤ x ∧ x ≤ 57343) then [239, 191, 189]
  else if r < 128 then [r]
  else if r < 2048 then [192 + r / 64, 128 + r % 64]
  else if r < 65536 then [224 + r / 4096, 128 + r / 64 % 64, 128 + r % 64]
  else [240 + r / 262144, 128 + r / 4096 % 64, 128 + r / 64 % 64, 128 + r % 64]

/-- The `default` case of `assignValue` for a destination of a scalar type:
`srcValue.Type().ConvertibleTo(dst.Type())` and `srcValue.Convert`. An `int64`
converts to the integer types, to the floating-point types and to `string`; a
`string` converts to `string`; `[]interface{}` and `map[string]interface{}`
convert to none of them. The content of a floating-point value is not
represented. -/
def convertScalar (t : GoType) (dst : GoValue) (src : Value) : GoValue × Option GoError :=
  match src, t with
  | .int n, .int bits => (.int (convertInt bits n), none)
  | .int n, .uint bits => (.uint (convertUint bits n), none)
  | .int n, .string => (.str (runeString n), none)
  | .int _, .float => (.other, none)
  | .str s, .string => (.str s, none)
  | _, _ => (dst, some .cannotConvert)

/-- The Go statement `dst.SetMapIndex(reflect.ValueOf(k), elem)` on the entries
of a string-keyed map. -/
def mapSet : List (GoValue × GoValue) → Bytes → GoValue → List (GoValue × GoValue)
  | [], key, elem => [(.str key, elem)]
  | (.str s, x) :: rest, key, elem =>
    if s = key then (.str s, elem) :: rest else (.str s, x) :: mapSet rest key elem
  | e :: rest, key, elem => e :: mapSet rest key elem

/-- The loop of the Slice case: bind every item to a fresh element; the first
failure aborts and the new slice is dropped. -/
def assignElems (assign : GoValue → Value → GoValue × Option GoError) (zero : GoValue) :
    List Value → Except GoError (List GoValue)
  | [] => .ok []
  | item :: rest =>
    match assign zero item with
    | (_, some e) => .error e
    | (x, none) =>
      match assignElems assign zero rest with
      | .ok xs => .ok (x :: xs)
      | .error e => .error e

/-- The loop of the Map case over the source entries: bind each value to a
fresh element and store it; the first failure aborts and keeps what was stored
so far. The source entries are visited in list order. -/
def assignEntries (assign : GoValue → Value → GoValue × Option GoError) (zero : GoValue) :
    List (Bytes × Value) → List (GoValue × GoValue) → List (GoValue × GoValue) × Option GoError
  | [], entries => (entries, none)
  | (k, v) :: rest, entries =>
    match assign zero v with
    | (_, some e) => (entries, some e)
    | (elem, none) => assignEntries assign zero rest (mapSet entries k elem)

mutual
/-- Source: `assignValue`. The destination is given by its type and its
current content; the result is its content after the call and the error
returned. In each `match` on the content, the last alternative stands for a
content that is not of the given type, which cannot occur. -/
def assignValue : GoType → GoValue → Value → GoValue × Option GoError
  | .struct ftypes, dst, src =>
    match src with
    | .dict srcMap =>
      match dst with
      | .struct fvals =>
        match assignFields ftypes fvals srcMap with
        | (fvals, e) => (.struct fvals, e)
      | _ => (dst, none)
    | _ => (dst, some .nonMapToStruct)
  | .map keyType elemType, dst, src =>
    match src with
    | .dict srcMap =>
      match keyType with
      | .string =>
        match dst with
        | .map entries =>
          match assignEntries (assignValue elemType) (zeroValue elemType) srcMap entries with
          | (entries, e) => (.map entries, e)
        | _ => (dst, none)
      | _ => (dst, some .mapKeyMustBeString)
    | _ => (dst, some .nonMapToMap)
  | .slice elemType, dst, src =>
    match src with
    | .list srcSlice =>
      match assignElems (assignValue elemType) (zeroValue elemType) srcSlice with
      | .ok slice => (.seq slice, none)
      | .error e => (dst, some e)
    | _ => (dst, some .nonSliceToSlice)
  | .ptr elemType, dst, src =>
    match dst with
    | .ptr (some x) =>
      match assignValue elemType x src with
      | (x, e) => (.ptr (some x), e)
    | _ =>
      match assignValue elemType (zeroValue elemType) src with
      | (x, e) => (.ptr (some x), e)
  | .iface, _, src => (.iface (some (toGo src)), none)
  | .int bits, dst, src => convertScalar (.int bits) dst src
  | .uint bits, dst, src => convertScalar (.uint bits) dst src
  | .string, dst, src => convertScalar .string dst src
  | .float, dst, src => convertScalar .float dst src
  | .other, dst, src => convertScalar .other dst src
/-- The loop of the Struct case over the fields of the destination, in
declaration order; `fvals` are the current contents of the fields. -/
def assignFields : List (StructField × GoType) → List (StructField × GoValue) →
    List (Bytes × Value) → List (StructField × GoValue) × Option GoError
  | (f, t) :: ftypes, (g, x) :: fvals, srcMap =>
    if f.pkgPath ≠ [] then
      match assignFields ftypes fvals srcMap with
      | (fvals, e) => ((g, x) :: fvals, e)
    else if f.tag = [45] then
      match assignFields ftypes fvals srcMap with
      | (fvals, e) => ((g, x) :: fvals, e)
    else
      match assocGet srcMap (effectiveKey f) with
      | some val =>
        match assignValue t x val with
        | (x, some e) => ((g, x) :: fvals, some e)
        | (x, none) =>
          match assignFields ftypes fvals srcMap with
          | (fvals, e) => ((g, x) :: fvals, e)
      | none =>
        match assignFields ftypes fvals srcMap with
        | (fvals, e) => ((g, x) :: fvals, e)
  | _, fvals, _ => (fvals, none)
end

/-- Outcome of a call that returns an `error` and may have written through a
pointer argument: the error and the argument as it is after the call. -/
inductive Call where
  /-- the call returned `err` (`none` is nil) and left the argument as `arg` -/
  | returned (err : Option GoError) (arg : GoValue)
  /-- run-time panic -/
  | panic
  /-- the fuel of the embedding ran out -/
  | fuel
  deriving Repr

/-- Source: `Unmarshal`. `v` is the dynamic value of the argument (a nil `any`
is `GoValue.other`) and `elemType` the type `v` points to when it is a
pointer. -/
def Unmarshal (data : Bytes) (elemType : GoType) (v : GoValue) : Call :=
  match v with
  | .ptr (some x) =>
    match parseBencode data with
    | .ok result =>
      match assignValue elemType x result with
      | (x, e) => .returned e (.ptr (some x))
    | .err e => .returned (some e) v
    | .panic => .panic
    | .fuel => .fuel
  | _ => .returned (some .mustBeNonNilPointer) v

/-! ## Definitions used to state the properties -/

deriving instance DecidableEq for Except

/-- Canonical decimal numeral of `k` in ASCII: the digits of `k` in base ten,
most significant first, and the single digit `0` for zero. -/
def decimal (k : Nat) : Bytes :=
  if k = 0 then [48] else (Nat.digits 10 k).reverse.map (48 + ·)

/-- The integer token of each byte of a byte sequence, concatenated. -/
def byteTokens : Bytes → Bytes
  | [] => []
  | b :: bs => 105 :: decimal b ++ 101 :: byteTokens bs


/-- The entries that the emitting loop of the struct and map cases writes, in
order: each written key with the value bytes written after it. -/
def writtenEntries (valueOf : Bytes → Option (Except GoError Bytes)) :
    List Bytes → List (Bytes × Bytes)
  | [] => []
  | k :: keys =>
    match valueOf k with
    | some (.ok valBytes) => (k, valBytes) :: writtenEntries valueOf keys
    | _ => writtenEntries valueOf keys

/-- The bytes of a sequence of dictionary entries: each key token followed by
the value bytes. -/
def joinEntries : List (Bytes × Bytes) → Bytes
  | [] => []
  | (k, valBytes) :: rest => encodeString k ++ valBytes ++ joinEntries rest

/-- The effective keys of the exported, non-excluded fields of a record, in
declaration order. -/
def includedKeys {α : Type} : List (StructField × α) → List Bytes
  | [] => []
  | (f, _) :: rest =>
    if fieldIncluded f then effectiveKey f :: includedKeys rest else includedKeys rest

/-- The last exported, non-excluded field declared with effective key `k`. -/
def lastField {α : Type} : List (StructField × α) → Bytes → Option α
  | [], _ => none
  | (f, x) :: rest, k =>
    match lastField rest k with
    | some y => some y
    | none => if fieldIncluded f = true ∧ effectiveKey f = k then some x else none


/-- The value reached by following non-nil pointers and non-nil
dynamically-typed wrappers. -/
def follow : GoValue → GoValue
  | .ptr (some x) => follow x
  | .iface (some x) => follow x
  | v => v

/-- The shapes signed integer, unsigned integer, string, sequence, record and
mapping. -/
def supportedShape : GoValue → Bool
  | .int _ => true
  | .uint _ => true
  | .str _ => true
  | .seq _ => true
  | .struct _ => true
  | .map _ => true
  | _ => false

/-- A nil pointer or a nil dynamically-typed wrapper. -/
def isNil : GoValue → Bool
  | .ptr none => true
  | .iface none => true
  | _ => false

mutual
/-- A decoded tree that a Go program can hold: every integer is an `int64` and
the keys of every dictionary are distinct. -/
def Value.valid : Value → Bool
  | .int n => decide (-(2 ^ 63) ≤ n ∧ n < 2 ^ 63)
  | .str _ => true
  | .list xs => validList xs
  | .dict m => decide ((m.map Prod.fst).Nodup) && validEntries m
/-- Validity of every element of a list. -/
def validList : List Value → Bool
  | [] => true
  | x :: xs => x.valid && validList xs
/-- Validity of every value of a dictionary. -/
def validEntries : List (Bytes × Value) → Bool
  | [] => true
  | (_, x) :: m => x.valid && validEntries m
end

mutual
/-- Equality of decoded trees in which a dictionary is a mapping from keys to
values: integers and strings are equal, lists are equal element by element, and
two dictionaries have the same number of entries and every key of the first is
bound in the second to an equal value. -/
def Value.sameAs : Value → Value → Bool
  | .int a, .int b => decide (a = b)
  | .str a, .str b => decide (a = b)
  | .list xs, .list ys => sameList xs ys
  | .dict m, .dict n => decide (m.length = n.length) && sameEntries m n
  | _, _ => false
/-- Equality of lists of trees, element by element. -/
def sameList : List Value → List Value → Bool
  | [], [] => true
  | x :: xs, y :: ys => x.sameAs y && sameList xs ys
  | _, _ => false
/-- Every entry of the first dictionary is bound in the second to an equal
value. -/
def sameEntries : List (Bytes × Value) → List (Bytes × Value) → Bool
  | [], _ => true
  | (k, x) :: m, n =>
    (match assocGet n k with
      | some y => x.sameAs y
      | none => false) && sameEntries m n
end

mutual
/-- The bencode text of a tree, dictionary entries in the order given. -/
def encode : Value → Bytes
  | .int n => 105 :: formatInt n ++ [101]
  | .str s => encodeString s
  | .list xs => 108 :: encodeList xs ++ [101]
  | .dict m => 100 :: encodeEntries m ++ [101]
/-- The concatenated text of the elements of a list. -/
def encodeList : List Value → Bytes
  | [] => []
  | x :: xs => encode x ++ encodeList xs
/-- The concatenated text of the entries of a dictionary. -/
def encodeEntries : List (Bytes × Value) → Bytes
  | [] => []
  | (k, x) :: m => encodeString k ++ encode x ++ encodeEntries m
end

/-- The entries of a dictionary in ascending key order. -/
def sortEntries (m : List (Bytes × Value)) : List (Bytes × Value) :=
  (sortStrings (m.map Prod.fst)).filterMap (fun k => (assocGet m k).map (fun x => (k, x)))

mutual
/-- The tree with the entries of every dictionary in ascending key order. -/
def canon : Value → Value
  | .int n => .int n
  | .str s => .str s
  | .list xs => .list (canonList xs)
  | .dict m => .dict (sortEntries (canonEntries m))
/-- Canonical form of every element of a list. -/
def canonList : List Value → List Value
  | [] => []
  | x :: xs => canon x :: canonList xs
/-- Canonical form of every value of a dictionary. -/
def canonEntries : List (Bytes × Value) → List (Bytes × Value)
  | [] => []
  | (k, x) :: m => (k, canon x) :: canonEntries m
end

/-- The bytes of a successful encoding, nothing for a failed one. -/
def okBytes : Except GoError Bytes → Option Bytes
  | .ok b => some b
  | .error _ => none


/-- A non-empty sequence of decimal digits (`DIGIT+` of the grammar). -/
def isDigits (ds : Bytes) : Bool :=
  !ds.isEmpty && ds.all (fun d => decide (48 ≤ d ∧ d ≤ 57))

/-- The number that a sequence of decimal digits denotes. -/
def digitsValue (ds : Bytes) : Nat := ds.foldl (fun a d => 10 * a + (d - 48)) 0

/-! ## The grammar of the wire format -/

/-- The body of an INTEGER: an optional `-` and then `DIGIT+`. With `lenient`
a `+` is admitted in place of the `-`. -/
def isIntBody (lenient : Bool) (s : Bytes) : Bool :=
  match s with
  | [] => false
  | c :: cs =>
    if c = 45 then isDigits cs
    else if c = 43 then lenient && isDigits cs
    else isDigits (c :: cs)

/-- A dictionary key: `STRING := DIGITS ':' <DIGITS raw bytes>`. With `lenient`
the digits may be preceded by `+` or `-`. -/
def IsKey (lenient : Bool) (k : Bytes) : Prop :=
  ∃ sign ds s, k = sign ++ ds ++ 58 :: s
    ∧ (sign = [] ∨ (lenient = true ∧ (sign = [43] ∨ sign = [45])))
    ∧ isDigits ds = true ∧ digitsValue ds = s.length

mutual
/-- The byte strings derivable from ELEMENT. With `lenient = false` this is the
grammar of the format: `INTEGER := 'i' '-'? DIGIT+ 'e'`,
`STRING := DIGITS ':' <DIGITS raw bytes>`, `LIST := 'l' ELEMENT* 'e'`,
`DICT := 'd' (STRING ELEMENT)* 'e'`. With `lenient = true` a sign `+` is
admitted in an integer and a sign in the length of a dictionary key. -/
inductive Element (lenient : Bool) : Bytes → Prop where
  | integer (body : Bytes) : isIntBody lenient body = true →
      Element lenient (105 :: body ++ [101])
  | string (ds s : Bytes) : isDigits ds = true → digitsValue ds = s.length →
      Element lenient (ds ++ 58 :: s)
  | list (items : Bytes) : Elements lenient items → Element lenient (108 :: items ++ [101])
  | dict (entries : Bytes) : Entries lenient entries →
      Element lenient (100 :: entries ++ [101])
/-- The byte strings derivable from `ELEMENT*`. -/
inductive Elements (lenient : Bool) : Bytes → Prop where
  | nil : Elements lenient []
  | cons (a b : Bytes) : Element lenient a → Elements lenient b → Elements lenient (a ++ b)
/-- The byte strings derivable from `(STRING ELEMENT)*`. -/
inductive Entries (lenient : Bool) : Bytes → Prop where
  | nil : Entries lenient []
  | cons (k a b : Bytes) : IsKey lenient k → Element lenient a → Entries lenient b →
      Entries lenient (k ++ a ++ b)
end


/-- The inputs that begin with a byte string derivable from ELEMENT. With
`lenient`, also the inputs that are a list or a dictionary which the end of the
input leaves without its closing `e`. -/
def BeginsWithElement (lenient : Bool) (data : Bytes) : Prop :=
  (∃ tok rest, data = tok ++ rest ∧ Element lenient tok)
    ∨ (lenient = true
        ∧ ((∃ items, data = 108 :: items ∧ Elements lenient items)
          ∨ (∃ entries, data = 100 :: entries ∧ Entries lenient entries)))

/-! ## Well-formed input -/

/-- A text of the wire format as a tree that keeps the spelling of every
numeral: the body of an integer, the length digits and the bytes of a string,
the elements of a list, and the entries of a dictionary, each with the length
digits of its key, its key and its value, in the order of the text. -/
inductive Wire where
  | int (body : Bytes)
  | str (ds s : Bytes)
  | list (xs : List Wire)
  | dict (m : List ((Bytes × Bytes) × Wire))

/-- The number that the body of an integer denotes. -/
def intBodyValue (body : Bytes) : Int :=
  match body with
  | [] => 0
  | c :: cs =>
    if c = 45 then -(digitsValue cs : Int)
    else if c = 43 then (digitsValue cs : Int)
    else (digitsValue (c :: cs) : Int)

mutual
/-- The bytes of a text. -/
def Wire.text : Wire → Bytes
  | .int body => 105 :: body ++ [101]
  | .str ds s => ds ++ 58 :: s
  | .list xs => 108 :: textList xs ++ [101]
  | .dict m => 100 :: textEntries m ++ [101]
/-- The bytes of the elements of a list. -/
def textList : List Wire → Bytes
  | [] => []
  | x :: xs => x.text ++ textList xs
/-- The bytes of the entries of a dictionary. -/
def textEntries : List ((Bytes × Bytes) × Wire) → Bytes
  | [] => []
  | ((ds, k), x) :: m => (ds ++ 58 :: k) ++ x.text ++ textEntries m
end

mutual
/-- A text derivable from ELEMENT of the grammar whose integers are `int64`:
an integer body is an optional `-` and digits, the digits before a colon denote
the number of bytes after it. -/
def Wire.wellFormed : Wire → Bool
  | .int body =>
    isIntBody false body
      && decide (-(2 ^ 63) ≤ intBodyValue body ∧ intBodyValue body < 2 ^ 63)
  | .str ds s => isDigits ds && decide (digitsValue ds = s.length)
  | .list xs => wellFormedList xs
  | .dict m => wellFormedEntries m
/-- Well-formedness of every element of a list. -/
def wellFormedList : List Wire → Bool
  | [] => true
  | x :: xs => x.wellFormed && wellFormedList xs
/-- Well-formedness of every entry of a dictionary. -/
def wellFormedEntries : List ((Bytes × Bytes) × Wire) → Bool
  | [] => true
  | ((ds, k), x) :: m =>
    isDigits ds && decide (digitsValue ds = k.length) && x.wellFormed && wellFormedEntries m
end

mutual
/-- The tree that a text denotes when every dictionary is read as a Go map
filled entry by entry: each key is bound once, to the value of the last entry
with that key. -/
def Wire.decoded : Wire → Value
  | .int body => .int (intBodyValue body)
  | .str _ s => .str s
  | .list xs => .list (decodedList xs)
  | .dict m => .dict (decodedEntries m [])
/-- The trees that the elements of a list denote. -/
def decodedList : List Wire → List Value
  | [] => []
  | x :: xs => x.decoded :: decodedList xs
/-- The map `acc` after the entries have been stored one after the other. -/
def decodedEntries : List ((Bytes × Bytes) × Wire) → List (Bytes × Value) →
    List (Bytes × Value)
  | [], acc => acc
  | ((_, k), x) :: m, acc => decodedEntries m (assocSet acc k x.decoded)
end

/-- The value of the last entry of a dictionary text whose key is `k`. -/
def lastWire : List ((Bytes × Bytes) × Wire) → Bytes → Option Wire
  | [], _ => none
  | ((_, k'), x) :: m, k =>
    match lastWire m k with
    | some y => some y
    | none => if k' = k then some x else none

/-! ## The encoder on values with their map key types -/

/-- A Go value as `reflect` shows it, with the key type of every map:
`GoValue` with one more field on `map`. `namedKey` is true when the key type of
the map is a defined string type other than `string` (as `K` in
`type K string`, `map[K]int`): its keys have the kind String, but a
`reflect.Value` of the type `string` is not assignable to it. The keys of a map
are given by kind and contents. Values are finite trees. -/
inductive TypedValue where
  | int (n : Int)
  | uint (n : Nat)
  | str (s : Bytes)
  | seq (xs : List TypedValue)
  | struct (fields : List (StructField × TypedValue))
  | map (namedKey : Bool) (entries : List (GoValue × TypedValue))
  | ptr (target : Option TypedValue)
  | iface (dyn : Option TypedValue)
  | other
  deriving Repr

/-- What a call of `marshalValue` or `Marshal` does: it returns, with bytes or
with an error, or a run-time panic ends it. -/
inductive Outcome where
  /-- the call returned -/
  | returned (r : Except GoError Bytes)
  /-- run-time panic of `reflect.Value.MapIndex` -/
  | panic
  deriving Repr

/-- The loop of the Slice and Array case over the outcomes of `marshalValue` on
the elements: a failing element is skipped, a panic ends the loop. The result
is `none` when the loop panics. -/
def writeElemsTyped : List Outcome → Option Bytes
  | [] => some []
  | .panic :: _ => none
  | .returned (.ok elem) :: rest => (writeElemsTyped rest).map (fun r => elem ++ r)
  | .returned (.error _) :: rest => writeElemsTyped rest

/-- The emitting loop of the struct and map cases over the sorted keys.
`valueOf k` is the outcome of the loop body up to `marshalValue` on the value
stored under `k`: a panic ends the loop, a key whose value fails to encode is
skipped, otherwise the key token and the value bytes are written. The result
is `none` when the loop panics. -/
def writeEntriesTyped (valueOf : Bytes → Option Outcome) : List Bytes → Option Bytes
  | [] => some []
  | k :: keys =>
    match valueOf k with
    | some .panic => none
    | some (.returned (.ok valBytes)) =>
      (writeEntriesTyped valueOf keys).map (fun r => encodeString k ++ valBytes ++ r)
    | _ => writeEntriesTyped valueOf keys

/-- The body of the map loop up to `marshalValue(val)`:
`v.MapIndex(reflect.ValueOf(sk))` panics when the key type of the map is not
`string` (`namedKey`), otherwise it yields the entry stored under `sk`. -/
def mapIndexTyped (namedKey : Bool) (vals : List (GoValue × Outcome)) (sk : Bytes) :
    Option Outcome :=
  if namedKey then some .panic else mapIndex vals sk

mutual
/-- Source: `marshalValue`, with the panic of `v.MapIndex` carried. As in
`marshalValue` above the struct and map cases first take the outcome of the
call on every field or entry value and then run the loops of the source on
these outcomes, so that the outcome of a value that no loop reaches is not
used. -/
def TypedValue.marshalValue : TypedValue → Outcome
  | .int n => .returned (.ok (105 :: formatInt n ++ [101]))
  | .uint n => .returned (.ok (105 :: formatUint n ++ [101]))
  | .str s => .returned (.ok (encodeString s))
  | .seq xs =>
    match writeElemsTyped (TypedValue.marshalElems xs) with
    | some body => .returned (.ok (108 :: body ++ [101]))
    | none => .panic
  | .struct fs =>
    let fields := collectFields (TypedValue.marshalFields fs) []
    let keys := sortStrings (fields.map Prod.fst)
    match writeEntriesTyped (assocGet fields) keys with
    | some body => .returned (.ok (100 :: body ++ [101]))
    | none => .panic
  | .map namedKey entries =>
    let vals := TypedValue.marshalEntries entries
    let strKeys := sortStrings (stringKeys vals)
    match writeEntriesTyped (mapIndexTyped namedKey vals) strKeys with
    | some body => .returned (.ok (100 :: body ++ [101]))
    | none => .panic
  | .ptr none => .returned (.ok [])
  | .ptr (some x) => TypedValue.marshalValue x
  | .iface none => .returned (.ok [])
  | .iface (some x) => TypedValue.marshalValue x
  | .other => .returned (.error .unsupportedType)
/-- Outcome of `marshalValue` on each element of a sequence. -/
def TypedValue.marshalElems : List TypedValue → List Outcome
  | [] => []
  | x :: xs => TypedValue.marshalValue x :: TypedValue.marshalElems xs
/-- Outcome of `marshalValue` on each field value of a struct. -/
def TypedValue.marshalFields : List (StructField × TypedValue) → List (StructField × Outcome)
  | [] => []
  | (f, x) :: rest => (f, TypedValue.marshalValue x) :: TypedValue.marshalFields rest
/-- Outcome of `marshalValue` on each entry value of a map. -/
def TypedValue.marshalEntries : List (GoValue × TypedValue) → List (GoValue × Outcome)
  | [] => []
  | (k, x) :: rest => (k, TypedValue.marshalValue x) :: TypedValue.marshalEntries rest
end

/-- Source: `Marshal`. The argument `v any` is `none` when it is the nil
interface value, for which `reflect.ValueOf` gives the invalid
`reflect.Value`, of kind Invalid; otherwise it is the dynamic value. -/
def TypedValue.Marshal : Option TypedValue → Outcome
  | none => TypedValue.marshalValue .other
  | some v => TypedValue.marshalValue v

mutual
/-- The value without the key types of its maps. -/
def TypedValue.erase : TypedValue → GoValue
  | .int n => .int n
  | .uint n => .uint n
  | .str s => .str s
  | .seq xs => .seq (TypedValue.eraseList xs)
  | .struct fs => .struct (TypedValue.eraseFields fs)
  | .map _ entries => .map (TypedValue.eraseEntries entries)
  | .ptr none => .ptr none
  | .ptr (some x) => .ptr (some (TypedValue.erase x))
  | .iface none => .iface none
  | .iface (some x) => .iface (some (TypedValue.erase x))
  | .other => .other
/-- The elements without key types. -/
def TypedValue.eraseList : List TypedValue → List GoValue
  | [] => []
  | x :: xs => TypedValue.erase x :: TypedValue.eraseList xs
/-- The fields without key types. -/
def TypedValue.eraseFields : List (StructField × TypedValue) → List (StructField × GoValue)
  | [] => []
  | (f, x) :: rest => (f, TypedValue.erase x) :: TypedValue.eraseFields rest
/-- The entries without key types. -/
def TypedValue.eraseEntries : List (GoValue × TypedValue) → List (GoValue × GoValue)
  | [] => []
  | (k, x) :: rest => (k, TypedValue.erase x) :: TypedValue.eraseEntries rest
end

mutual
/-- Every map in the value, at any depth, has the key type `string` or a key
type that is not of kind String. -/
def TypedValue.plainKeys : TypedValue → Bool
  | .seq xs => TypedValue.plainList xs
  | .struct fs => TypedValue.plainFields fs
  | .map namedKey entries => !namedKey && TypedValue.plainEntries entries
  | .ptr (some x) => TypedValue.plainKeys x
  | .iface (some x) => TypedValue.plainKeys x
  | _ => true
/-- Every element has plain keys. -/
def TypedValue.plainList : List TypedValue → Bool
  | [] => true
  | x :: xs => TypedValue.plainKeys x && TypedValue.plainList xs
/-- Every field value has plain keys. -/
def TypedValue.plainFields : List (StructField × TypedValue) → Bool
  | [] => true
  | (_, x) :: rest => TypedValue.plainKeys x && TypedValue.plainFields rest
/-- Every entry value has plain keys. -/
def TypedValue.plainEntries : List (GoValue × TypedValue) → Bool
  | [] => true
  | (_, x) :: rest => TypedValue.plainKeys x && TypedValue.plainEntries rest
end

/-! ## Formatting of numbers -/

theorem decimal_of_lt {k : Nat} (h : k < 10) : decimal k = [48 + k] := by
  unfold decimal
  split
  · subst_vars; rfl
  · rw [Nat.digits_of_lt 10 k (by assumption) h]; rfl

theorem decimal_of_ge {k : Nat} (h : 10 ≤ k) :
    decimal k = decimal (k / 10) ++ [48 + k % 10] := by
  have h1 : k ≠ 0 := by omega
  have h2 : k / 10 ≠ 0 := by omega
  unfold decimal
  rw [if_neg h1, if_neg h2, Nat.digits_def' (by decide) (by omega)]
  simp

theorem fmtDigits_eq (fuel : Nat) : ∀ (n : Nat) (acc : Bytes), n < fuel →
    fmtDigits fuel n acc = decimal n ++ acc := by
  induction fuel with
  | zero => intro n acc h; omega
  | succ k ih =>
    intro n acc h
    unfold fmtDigits
    split
    · rename_i h10; rw [decimal_of_lt h10]; rfl
    · rename_i h10
      rw [@decimal_of_ge n (by omega), ih _ _ (by omega)]
      simp

theorem formatUint_eq (n : Nat) : formatUint n = decimal n := by
  unfold formatUint
  rw [fmtDigits_eq _ _ _ (Nat.lt_succ_self n)]
  simp

theorem decimal_digit {k d : Nat} (h : d ∈ decimal k) : 48 ≤ d ∧ d ≤ 57 := by
  unfold decimal at h
  split at h
  · simp at h; omega
  · simp only [List.mem_map, List.mem_reverse] at h
    obtain ⟨a, ha, rfl⟩ := h
    have := @Nat.digits_lt_base 10 k a (by decide) ha
    omega

theorem decimal_ne_nil (k : Nat) : decimal k ≠ [] := by
  unfold decimal
  split
  · simp
  · rename_i h
    simp [Nat.digits_ne_nil_iff_ne_zero, h]

theorem decimal_value (k : Nat) :
    Nat.ofDigits 10 ((decimal k).reverse.map (· - 48)) = k := by
  unfold decimal
  split
  · subst_vars; simp
  · have : (List.map (fun x => x - 48) (List.map (fun x => 48 + x) (Nat.digits 10 k).reverse).reverse)
        = Nat.digits 10 k := by
      rw [← List.map_reverse, List.reverse_reverse, List.map_map]
      have : ((fun x => x - 48) ∘ fun x => 48 + x) = (id : Nat → Nat) := by
        funext x; simp
      rw [this, List.map_id]
    rw [this, Nat.ofDigits_digits]

theorem decimal_head_zero {k : Nat} (h : (decimal k).head? = some 48) : k = 0 := by
  by_contra hk
  unfold decimal at h
  rw [if_neg hk] at h
  have hne : Nat.digits 10 k ≠ [] := by simp [Nat.digits_ne_nil_iff_ne_zero, hk]
  have hl := Nat.getLast_digit_ne_zero 10 hk
  simp only [List.head?_map, List.head?_reverse] at h
  rw [List.getLast?_eq_getLast _ hne] at h
  simp at h
  exact hl h

/-! ## C4, C5, C6 -/

/-- C4. Integer formatting: for every signed integer `n`, `Marshal` succeeds and
returns `i`, then `-` exactly when `n < 0`, then the canonical decimal numeral
of `|n|`, then `e`. The numeral consists of decimal digits, is not empty, has
the value `|n|`, and starts with the digit `0` only for `n = 0`. In particular
`Marshal(0) = "i0e"` and `Marshal(-65535) = "i-65535e"`. -/
theorem marshal_int_format (n : Int) :
    Marshal (.int n)
        = .ok (105 :: ((if n < 0 then [45] else []) ++ decimal n.natAbs ++ [101]))
      ∧ (∀ d ∈ decimal n.natAbs, 48 ≤ d ∧ d ≤ 57)
      ∧ decimal n.natAbs ≠ []
      ∧ Nat.ofDigits 10 ((decimal n.natAbs).reverse.map (· - 48)) = n.natAbs
      ∧ ((decimal n.natAbs).head? = some 48 → n = 0)
      ∧ Marshal (.int 0) = .ok (ascii "i0e")
      ∧ Marshal (.int (-65535)) = .ok (ascii "i-65535e") := by
  refine ⟨?_, fun d hd => decimal_digit hd, decimal_ne_nil _, decimal_value _, ?_, by decide,
    by decide⟩
  · simp only [Marshal, marshalValue, formatInt, formatUint_eq]
    split <;> simp
  · intro h
    have := decimal_head_zero h
    omega

/-- C5. String framing: for every string `s`, `Marshal` succeeds and returns the
canonical decimal numeral of the byte length of `s`, then `:`, then the bytes of
`s` unchanged; the output has `len(s)` plus the number of digits plus one
bytes. In particular `Marshal("spam") = "4:spam"` and `Marshal("") = "0:"`. -/
theorem marshal_string_framing (s : Bytes) :
    Marshal (.str s) = .ok (decimal s.length ++ 58 :: s)
      ∧ (decimal s.length ++ 58 :: s).length = s.length + (decimal s.length).length + 1
      ∧ Marshal (.str (ascii "spam")) = .ok (ascii "4:spam")
      ∧ Marshal (.str []) = .ok (ascii "0:") := by
  refine ⟨?_, ?_, by decide, by decide⟩
  · simp [Marshal, marshalValue, encodeString, formatUint_eq]
  · simp only [List.length_append, List.length_cons]
    omega

theorem marshalElems_uint (b : Bytes) :
    writeElems (marshalElems (b.map GoValue.uint)) = byteTokens b := by
  induction b with
  | nil => simp [marshalElems, writeElems, byteTokens]
  | cons x xs ih =>
    simp only [List.map_cons, marshalElems, marshalValue, writeElems, byteTokens, ih,
      formatUint_eq]
    simp

/-- C6 as stated fails: the byte sequence with the single byte `a` is encoded as
the list `li97ee`, not as the byte string `1:a`. -/
theorem marshal_byte_sequence_counterexample :
    Marshal (.seq ([97].map GoValue.uint)) = .ok (ascii "li97ee")
      ∧ Marshal (.str [97]) = .ok (ascii "1:a")
      ∧ Marshal (.seq ([97].map GoValue.uint)) ≠ Marshal (.str [97]) := by
  decide

/-- C6, amended. A byte sequence is encoded like every other sequence: for
every byte sequence `b`, `Marshal` returns `l`, then the integer token
`i<decimal>e` of each byte in index order, then `e`; this is never the
encoding of the string with the same contents. -/
theorem marshal_byte_sequence_is_list (b : Bytes) :
    Marshal (.seq (b.map GoValue.uint)) = .ok (108 :: byteTokens b ++ [101])
      ∧ Marshal (.seq (b.map GoValue.uint)) ≠ Marshal (.str b) := by
  have h : Marshal (.seq (b.map GoValue.uint)) = .ok (108 :: byteTokens b ++ [101]) := by
    simp [Marshal, marshalValue, marshalElems_uint]
  refine ⟨h, ?_⟩
  rw [h]
  simp only [Marshal, marshalValue, encodeString, formatUint_eq]
  intro heq
  injection heq with heq
  have hd : (108 : Nat) ∈ decimal b.length := by
    cases hdec : decimal b.length with
    | nil => exact absurd hdec (decimal_ne_nil _)
    | cons d ds =>
      rw [hdec] at heq
      simp at heq
      simp [heq.1]
  have := decimal_digit hd
  omega

/-! ## Association lists, sorting and the emitting loop -/

theorem assocGet_assocSet {α : Type} (m : List (Bytes × α)) (key k : Bytes) (x : α) :
    assocGet (assocSet m key x) k = if key = k then some x else assocGet m k := by
  induction m with
  | nil => simp [assocSet, assocGet]
  | cons p m ih =>
    obtain ⟨k', y⟩ := p
    simp only [assocSet]
    by_cases h : k' = key
    · subst h
      simp only [if_true, assocGet]
      split <;> rfl
    · simp only [if_neg h, assocGet, ih]
      by_cases h2 : k' = k
      · subst h2; simp [h, Ne.symm h]
      · simp [h2]

theorem mem_keys_iff_assocGet {α : Type} (m : List (Bytes × α)) (k : Bytes) :
    k ∈ m.map Prod.fst ↔ ∃ y, assocGet m k = some y := by
  induction m with
  | nil => simp [assocGet]
  | cons p m ih =>
    obtain ⟨k', y⟩ := p
    simp only [List.map_cons, List.mem_cons, assocGet]
    by_cases h : k' = k
    · subst h; simp
    · simp [h, Ne.symm h, ih]

theorem assocGet_mem {α : Type} {m : List (Bytes × α)} {k : Bytes} {y : α}
    (h : assocGet m k = some y) : (k, y) ∈ m := by
  induction m with
  | nil => simp [assocGet] at h
  | cons p m ih =>
    obtain ⟨k', y'⟩ := p
    simp only [assocGet] at h
    by_cases hk : k' = k
    · subst hk; simp at h; subst h; simp
    · simp only [if_neg hk] at h
      exact List.mem_cons_of_mem _ (ih h)

theorem assocGet_of_mem {α : Type} {m : List (Bytes × α)} {k : Bytes} {y : α}
    (hn : (m.map Prod.fst).Nodup) (h : (k, y) ∈ m) : assocGet m k = some y := by
  induction m with
  | nil => simp at h
  | cons p m ih =>
    obtain ⟨k', y'⟩ := p
    simp only [List.map_cons, List.nodup_cons] at hn
    simp only [assocGet]
    rcases List.mem_cons.1 h with h | h
    · cases h; simp
    · have : k' ≠ k := by
        intro hk; subst hk
        exact hn.1 (List.mem_map_of_mem Prod.fst h)
      simp only [if_neg this]
      exact ih hn.2 h

theorem keys_assocSet {α : Type} (m : List (Bytes × α)) (key : Bytes) (x : α) :
    (assocSet m key x).map Prod.fst
      = if key ∈ m.map Prod.fst then m.map Prod.fst else m.map Prod.fst ++ [key] := by
  induction m with
  | nil => simp [assocSet]
  | cons p m ih =>
    obtain ⟨k', y⟩ := p
    simp only [assocSet]
    by_cases h : k' = key
    · subst h; simp
    · simp only [if_neg h, List.map_cons, ih, List.mem_cons]
      have h' : ¬ key = k' := fun e => h e.symm
      by_cases hm : key ∈ m.map Prod.fst
      · simp [hm]
      · simp [hm, h']

theorem nodup_keys_assocSet {α : Type} (m : List (Bytes × α)) (key : Bytes) (x : α)
    (h : (m.map Prod.fst).Nodup) : ((assocSet m key x).map Prod.fst).Nodup := by
  rw [keys_assocSet]
  split
  · exact h
  · rename_i hm
    rw [List.nodup_append]
    refine ⟨h, List.nodup_singleton _, ?_⟩
    intro a ha hb
    simp at hb
    subst hb
    exact hm ha

theorem nodup_keys_collectFields {α : Type} (fs : List (StructField × α)) :
    ∀ acc : List (Bytes × α), (acc.map Prod.fst).Nodup →
      ((collectFields fs acc).map Prod.fst).Nodup := by
  induction fs with
  | nil => intro acc h; simpa [collectFields] using h
  | cons p fs ih =>
    obtain ⟨f, x⟩ := p
    intro acc h
    simp only [collectFields]
    split
    · exact ih _ (nodup_keys_assocSet _ _ _ h)
    · exact ih _ h

theorem assocGet_collectFields {α : Type} (fs : List (StructField × α)) :
    ∀ (acc : List (Bytes × α)) (k : Bytes),
      assocGet (collectFields fs acc) k
        = match lastField fs k with
          | some y => some y
          | none => assocGet acc k := by
  induction fs with
  | nil => intro acc k; simp [collectFields, lastField]
  | cons p fs ih =>
    obtain ⟨f, x⟩ := p
    intro acc k
    simp only [collectFields, lastField]
    cases hinc : fieldIncluded f with
    | true =>
      simp only [if_true, ih, assocGet_assocSet, true_and]
      cases lastField fs k with
      | some y => rfl
      | none =>
        by_cases hk : effectiveKey f = k
        · simp [hk]
        · simp [hk]
    | false =>
      simp only [ih, Bool.false_eq_true, if_false, false_and]
      cases lastField fs k <;> rfl

theorem lastField_mem {α : Type} {fs : List (StructField × α)} {k : Bytes} {y : α}
    (h : lastField fs k = some y) :
    ∃ f, (f, y) ∈ fs ∧ fieldIncluded f = true ∧ effectiveKey f = k := by
  induction fs with
  | nil => simp [lastField] at h
  | cons p fs ih =>
    obtain ⟨f, x⟩ := p
    simp only [lastField] at h
    cases hl : lastField fs k with
    | some z =>
      rw [hl] at h
      cases h
      obtain ⟨g, hg, hg2⟩ := ih hl
      exact ⟨g, List.mem_cons_of_mem _ hg, hg2⟩
    | none =>
      rw [hl] at h
      simp only at h
      split at h
      · rename_i hc
        cases h
        exact ⟨f, List.mem_cons_self _ _, hc⟩
      · cases h

theorem lastField_isSome_iff {α : Type} (fs : List (StructField × α)) (k : Bytes) :
    (∃ y, lastField fs k = some y) ↔ k ∈ includedKeys fs := by
  induction fs with
  | nil => simp [lastField, includedKeys]
  | cons p fs ih =>
    obtain ⟨f, x⟩ := p
    simp only [lastField, includedKeys]
    cases hl : lastField fs k with
    | some z =>
      have : k ∈ includedKeys fs := ih.1 ⟨z, hl⟩
      by_cases hinc : fieldIncluded f = true <;> simp [hinc, this]
    | none =>
      have hn : k ∉ includedKeys fs := by
        intro hm
        obtain ⟨y, hy⟩ := ih.2 hm
        rw [hl] at hy; cases hy
      by_cases hinc : fieldIncluded f = true
      · by_cases hk : effectiveKey f = k
        · simp [hinc, hk]
        · have hk' : ¬ k = effectiveKey f := fun e => hk e.symm
          simp [hinc, hk, hk', hn]
      · simp [hinc, hn]

theorem lastField_of_mem {α : Type} {fs : List (StructField × α)} {f : StructField} {y : α}
    (hn : (includedKeys fs).Nodup) (hm : (f, y) ∈ fs) (hinc : fieldIncluded f = true) :
    lastField fs (effectiveKey f) = some y := by
  induction fs with
  | nil => simp at hm
  | cons p fs ih =>
    obtain ⟨g, x⟩ := p
    simp only [includedKeys] at hn
    simp only [lastField]
    rcases List.mem_cons.1 hm with h | h
    · cases h
      simp only [hinc, if_true, List.nodup_cons] at hn
      have : lastField fs (effectiveKey f) = none := by
        cases hl : lastField fs (effectiveKey f) with
        | none => rfl
        | some z => exact absurd ((lastField_isSome_iff fs _).1 ⟨z, hl⟩) hn.1
      simp [this, hinc]
    · have hn' : (includedKeys fs).Nodup := by
        split at hn
        · exact (List.nodup_cons.1 hn).2
        · exact hn
      rw [ih hn' h]

theorem keys_collectFields_iff {α : Type} (fs : List (StructField × α)) (k : Bytes) :
    k ∈ (collectFields fs []).map Prod.fst ↔ k ∈ includedKeys fs := by
  rw [mem_keys_iff_assocGet, ← lastField_isSome_iff]
  simp only [assocGet_collectFields, assocGet]
  cases lastField fs k <;> simp

theorem sortStrings_perm (keys : List Bytes) : (sortStrings keys).Perm keys :=
  List.perm_insertionSort _ _

theorem sortStrings_sorted (keys : List Bytes) : (sortStrings keys).Sorted (· ≤ ·) :=
  List.sorted_insertionSort _ _

theorem sortStrings_strict {keys : List Bytes} (h : keys.Nodup) :
    (sortStrings keys).Sorted (· < ·) :=
  (sortStrings_sorted keys).lt_of_le ((sortStrings_perm keys).nodup_iff.2 h)

theorem sortStrings_congr {ks ks' : List Bytes} (h : ks.Perm ks') :
    sortStrings ks = sortStrings ks' :=
  List.eq_of_perm_of_sorted
    (((sortStrings_perm ks).trans h).trans (sortStrings_perm ks').symm)
    (sortStrings_sorted ks) (sortStrings_sorted ks')

theorem writeEntries_eq_join (valueOf : Bytes → Option (Except GoError Bytes))
    (keys : List Bytes) :
    writeEntries valueOf keys = joinEntries (writtenEntries valueOf keys) := by
  induction keys with
  | nil => rfl
  | cons k keys ih =>
    simp only [writeEntries, writtenEntries]
    split <;> simp [joinEntries, ih]

theorem writtenEntries_keys_sublist (valueOf : Bytes → Option (Except GoError Bytes))
    (keys : List Bytes) :
    ((writtenEntries valueOf keys).map Prod.fst).Sublist keys := by
  induction keys with
  | nil => simp [writtenEntries]
  | cons k keys ih =>
    simp only [writtenEntries]
    split
    · simpa using ih
    · exact List.Sublist.cons _ ih

theorem mem_writtenEntries (valueOf : Bytes → Option (Except GoError Bytes))
    (keys : List Bytes) (k vb : Bytes) :
    (k, vb) ∈ writtenEntries valueOf keys ↔ k ∈ keys ∧ valueOf k = some (.ok vb) := by
  induction keys with
  | nil => simp [writtenEntries]
  | cons k' keys ih =>
    simp only [writtenEntries]
    split
    · rename_i vb' hv
      simp only [List.mem_cons, Prod.mk.injEq, ih]
      constructor
      · rintro (⟨rfl, rfl⟩ | ⟨h1, h2⟩)
        · exact ⟨Or.inl rfl, hv⟩
        · exact ⟨Or.inr h1, h2⟩
      · rintro ⟨h1 | h1, h2⟩
        · subst h1
          rw [hv] at h2
          cases h2
          exact Or.inl ⟨rfl, rfl⟩
        · exact Or.inr ⟨h1, h2⟩
    · rename_i hv
      simp only [List.mem_cons, ih]
      constructor
      · rintro ⟨h1, h2⟩; exact ⟨Or.inr h1, h2⟩
      · rintro ⟨h1 | h1, h2⟩
        · subst h1
          exact absurd h2 (hv vb)
        · exact ⟨h1, h2⟩

theorem writeEntries_congr {f g : Bytes → Option (Except GoError Bytes)} {keys : List Bytes}
    (h : ∀ k ∈ keys, f k = g k) : writeEntries f keys = writeEntries g keys := by
  induction keys with
  | nil => rfl
  | cons k keys ih =>
    simp only [writeEntries]
    rw [h k (List.mem_cons_self _ _), ih (fun k' hk' => h k' (List.mem_cons_of_mem _ hk'))]

/-! ## Records and mappings -/

theorem marshalFields_eq_map (fs : List (StructField × GoValue)) :
    marshalFields fs = fs.map (fun p => (p.1, marshalValue p.2)) := by
  induction fs with
  | nil => rfl
  | cons p fs ih => obtain ⟨f, x⟩ := p; simp [marshalFields, ih]

theorem marshalEntries_eq_map (es : List (GoValue × GoValue)) :
    marshalEntries es = es.map (fun p => (p.1, marshalValue p.2)) := by
  induction es with
  | nil => rfl
  | cons p es ih => obtain ⟨k, x⟩ := p; simp [marshalEntries, ih]

theorem marshalElems_eq_map (xs : List GoValue) : marshalElems xs = xs.map marshalValue := by
  induction xs with
  | nil => rfl
  | cons x xs ih => simp [marshalElems, ih]

theorem includedKeys_map {α β : Type} (g : α → β) (fs : List (StructField × α)) :
    includedKeys (fs.map (fun p => (p.1, g p.2))) = includedKeys fs := by
  induction fs with
  | nil => rfl
  | cons p fs ih => obtain ⟨f, x⟩ := p; simp [includedKeys, ih]

theorem includedKeys_eq_filterMap {α : Type} (fs : List (StructField × α)) :
    includedKeys fs
      = fs.filterMap (fun p => if fieldIncluded p.1 then some (effectiveKey p.1) else none) := by
  induction fs with
  | nil => rfl
  | cons p fs ih =>
    obtain ⟨f, x⟩ := p
    simp only [includedKeys, List.filterMap_cons, ih]
    cases fieldIncluded f <;> simp

theorem includedKeys_perm {α : Type} {fs fs' : List (StructField × α)} (h : fs.Perm fs') :
    (includedKeys fs).Perm (includedKeys fs') := by
  rw [includedKeys_eq_filterMap, includedKeys_eq_filterMap]
  exact h.filterMap _

theorem lastField_perm {α : Type} {fs fs' : List (StructField × α)} (h : fs.Perm fs')
    (hn : (includedKeys fs).Nodup) (k : Bytes) : lastField fs k = lastField fs' k := by
  have hn' : (includedKeys fs').Nodup := (includedKeys_perm h).nodup_iff.1 hn
  apply Option.ext
  intro y
  simp only [Option.mem_def]
  constructor
  · intro hy
    obtain ⟨f, hf, hinc, rfl⟩ := lastField_mem hy
    exact lastField_of_mem hn' (h.mem_iff.1 hf) hinc
  · intro hy
    obtain ⟨f, hf, hinc, rfl⟩ := lastField_mem hy
    exact lastField_of_mem hn (h.mem_iff.2 hf) hinc

theorem stringKeys_eq_filterMap {α : Type} (es : List (GoValue × α)) :
    stringKeys es
      = es.filterMap (fun p => match p.1 with
          | .str s => some s
          | _ => none) := by
  induction es with
  | nil => rfl
  | cons p es ih =>
    obtain ⟨k, x⟩ := p
    cases k <;> simp [stringKeys, List.filterMap_cons, ih]

theorem stringKeys_perm {α : Type} {es es' : List (GoValue × α)} (h : es.Perm es') :
    (stringKeys es).Perm (stringKeys es') := by
  rw [stringKeys_eq_filterMap, stringKeys_eq_filterMap]
  exact h.filterMap _

theorem stringKeys_map {α β : Type} (g : α → β) (es : List (GoValue × α)) :
    stringKeys (es.map (fun p => (p.1, g p.2))) = stringKeys es := by
  induction es with
  | nil => rfl
  | cons p es ih => obtain ⟨k, x⟩ := p; cases k <;> simp [stringKeys, ih]

theorem mapIndex_map {α β : Type} (g : α → β) (es : List (GoValue × α)) (k : Bytes) :
    mapIndex (es.map (fun p => (p.1, g p.2))) k = (mapIndex es k).map g := by
  induction es with
  | nil => rfl
  | cons p es ih =>
    obtain ⟨k', x⟩ := p
    cases k' <;> simp [mapIndex, ih]
    split <;> simp

theorem mapIndex_mem {α : Type} {es : List (GoValue × α)} {k : Bytes} {x : α}
    (h : mapIndex es k = some x) : (GoValue.str k, x) ∈ es := by
  induction es with
  | nil => simp [mapIndex] at h
  | cons p es ih =>
    obtain ⟨k', y⟩ := p
    cases k' <;> simp only [mapIndex] at h <;> try exact List.mem_cons_of_mem _ (ih h)
    rename_i s
    by_cases hs : s = k
    · subst hs; simp at h; subst h; exact List.mem_cons_self _ _
    · simp only [if_neg hs] at h
      exact List.mem_cons_of_mem _ (ih h)

theorem mem_stringKeys {α : Type} {es : List (GoValue × α)} {k : Bytes} {x : α}
    (h : (GoValue.str k, x) ∈ es) : k ∈ stringKeys es := by
  rw [stringKeys_eq_filterMap, List.mem_filterMap]
  exact ⟨_, h, rfl⟩

theorem mapIndex_of_mem {α : Type} {es : List (GoValue × α)} {k : Bytes} {x : α}
    (hn : (stringKeys es).Nodup) (h : (GoValue.str k, x) ∈ es) : mapIndex es k = some x := by
  induction es with
  | nil => simp at h
  | cons p es ih =>
    obtain ⟨k', y⟩ := p
    rcases List.mem_cons.1 h with h1 | h1
    · cases h1; simp [mapIndex]
    · cases k' <;> simp only [stringKeys] at hn <;> simp only [mapIndex] <;>
        try exact ih hn h1
      rename_i s
      rw [List.nodup_cons] at hn
      have : s ≠ k := by
        intro e; subst e
        exact hn.1 (mem_stringKeys h1)
      simp only [if_neg this]
      exact ih hn.2 h1

theorem mapIndex_perm {α : Type} {es es' : List (GoValue × α)} (h : es.Perm es')
    (hn : (stringKeys es).Nodup) (k : Bytes) : mapIndex es k = mapIndex es' k := by
  have hn' : (stringKeys es').Nodup := (stringKeys_perm h).nodup_iff.1 hn
  apply Option.ext
  intro y
  simp only [Option.mem_def]
  exact ⟨fun hy => mapIndex_of_mem hn' (h.mem_iff.1 (mapIndex_mem hy)),
    fun hy => mapIndex_of_mem hn (h.mem_iff.2 (mapIndex_mem hy))⟩

theorem marshal_struct_eq (fs : List (StructField × GoValue)) :
    Marshal (.struct fs)
      = .ok (100 :: joinEntries (writtenEntries (lastField (marshalFields fs))
          (sortStrings ((collectFields (marshalFields fs) []).map Prod.fst))) ++ [101]) := by
  have h : assocGet (collectFields (marshalFields fs) []) = lastField (marshalFields fs) := by
    funext k
    rw [assocGet_collectFields]
    cases lastField (marshalFields fs) k <;> rfl
  simp only [Marshal, marshalValue, writeEntries_eq_join, h]

theorem marshal_map_eq (es : List (GoValue × GoValue)) :
    Marshal (.map es)
      = .ok (100 :: joinEntries (writtenEntries (fun k => (mapIndex es k).map marshalValue)
          (sortStrings (stringKeys es))) ++ [101]) := by
  have h : mapIndex (es.map (fun p => (p.1, marshalValue p.2)))
      = fun k => (mapIndex es k).map marshalValue := by
    funext k
    rw [mapIndex_map]
  simp only [Marshal, marshalValue, writeEntries_eq_join, marshalEntries_eq_map, stringKeys_map,
    h]

theorem keys_collectFields_perm {α : Type} {fs fs' : List (StructField × α)} (h : fs.Perm fs') :
    ((collectFields fs []).map Prod.fst).Perm ((collectFields fs' []).map Prod.fst) := by
  apply (List.perm_ext_iff_of_nodup (nodup_keys_collectFields fs [] (by simp))
    (nodup_keys_collectFields fs' [] (by simp))).2
  intro k
  rw [keys_collectFields_iff, keys_collectFields_iff]
  exact (includedKeys_perm h).mem_iff

/-- C2. Canonical key order: the struct case and the map case write a
dictionary `d`, key token and value bytes per written entry, `e`, in which the
written keys are strictly ascending in lexicographic byte order, so that no key
is written twice. Every written entry is an exported, non-excluded field
(respectively a map entry with a string key) together with the encoding of its
value. The order of `fs` and of `entries` is arbitrary; the keys of a Go map
are distinct. -/
theorem marshal_keys_ascending (fs : List (StructField × GoValue))
    (entries : List (GoValue × GoValue)) (hkeys : (stringKeys entries).Nodup) :
    (∃ written : List (Bytes × Bytes),
        Marshal (.struct fs) = .ok (100 :: joinEntries written ++ [101])
        ∧ (written.map Prod.fst).Sorted (· < ·)
        ∧ ∀ p ∈ written, ∃ f x, (f, x) ∈ fs ∧ fieldIncluded f = true
            ∧ effectiveKey f = p.1 ∧ marshalValue x = .ok p.2)
      ∧ (∃ written : List (Bytes × Bytes),
        Marshal (.map entries) = .ok (100 :: joinEntries written ++ [101])
        ∧ (written.map Prod.fst).Sorted (· < ·)
        ∧ ∀ p ∈ written, ∃ x, (GoValue.str p.1, x) ∈ entries ∧ marshalValue x = .ok p.2) := by
  constructor
  · refine ⟨_, marshal_struct_eq fs, ?_, ?_⟩
    · exact List.Pairwise.sublist (writtenEntries_keys_sublist _ _)
        (sortStrings_strict (nodup_keys_collectFields _ [] (by simp)))
    · rintro ⟨k, vb⟩ hp
      obtain ⟨_, hv⟩ := (mem_writtenEntries _ _ _ _).1 hp
      obtain ⟨f, hf, hinc, hk⟩ := lastField_mem hv
      rw [marshalFields_eq_map, List.mem_map] at hf
      obtain ⟨⟨f', x⟩, hfx, heq⟩ := hf
      simp only [Prod.mk.injEq] at heq
      obtain ⟨rfl, hx⟩ := heq
      exact ⟨f', x, hfx, hinc, hk, hx⟩
  · refine ⟨_, marshal_map_eq entries, ?_, ?_⟩
    · exact List.Pairwise.sublist (writtenEntries_keys_sublist _ _) (sortStrings_strict hkeys)
    · rintro ⟨k, vb⟩ hp
      obtain ⟨_, hv⟩ := (mem_writtenEntries _ _ _ _).1 hp
      simp only [Option.map_eq_some'] at hv
      obtain ⟨x, hx, hm⟩ := hv
      exact ⟨x, mapIndex_mem hx, hm⟩

/-- C2, at the record and the mapping of the tests: keys `t2`, `t1` declared
and inserted in descending order. -/
theorem marshal_keys_ascending_witness :
    (stringKeys [(GoValue.str (ascii "t2"), GoValue.iface (some (.int 2))),
        (GoValue.str (ascii "t1"), GoValue.iface (some (.str (ascii "v1"))))]).Nodup
      ∧ ((∃ written : List (Bytes × Bytes),
          Marshal (.struct [(⟨ascii "T2", [], ascii "t2"⟩, .int 2),
              (⟨ascii "T1", [], ascii "t1"⟩, .str (ascii "v1"))])
            = .ok (100 :: joinEntries written ++ [101])
          ∧ (written.map Prod.fst).Sorted (· < ·)
          ∧ ∀ p ∈ written, ∃ f x,
              (f, x) ∈ [((⟨ascii "T2", [], ascii "t2"⟩ : StructField), GoValue.int 2),
                (⟨ascii "T1", [], ascii "t1"⟩, .str (ascii "v1"))]
              ∧ fieldIncluded f = true ∧ effectiveKey f = p.1 ∧ marshalValue x = .ok p.2)
        ∧ (∃ written : List (Bytes × Bytes),
          Marshal (.map [(GoValue.str (ascii "t2"), GoValue.iface (some (.int 2))),
              (GoValue.str (ascii "t1"), GoValue.iface (some (.str (ascii "v1"))))])
            = .ok (100 :: joinEntries written ++ [101])
          ∧ (written.map Prod.fst).Sorted (· < ·)
          ∧ ∀ p ∈ written, ∃ x,
              (GoValue.str p.1, x) ∈ [(GoValue.str (ascii "t2"), GoValue.iface (some (.int 2))),
                (GoValue.str (ascii "t1"), GoValue.iface (some (.str (ascii "v1"))))]
              ∧ marshalValue x = .ok p.2)) :=
  ⟨by decide, marshal_keys_ascending _ _ (by decide)⟩

theorem parseUintLoop_append (xs ys : Bytes) (n : Nat) :
    parseUintLoop (xs ++ ys) n
      = match parseUintLoop xs n with
        | .ok m => parseUintLoop ys m
        | .error e => .error e := by
  induction xs generalizing n with
  | nil => simp [parseUintLoop]
  | cons c cs ih =>
    simp only [List.cons_append, parseUintLoop]
    split
    · split
      · rfl
      · split
        · rfl
        · exact ih _
    · rfl

theorem parseUintLoop_decimal : ∀ k : Nat, k < 2 ^ 64 → parseUintLoop (decimal k) 0 = .ok k := by
  intro k
  induction k using Nat.strong_induction_on with
  | _ k ih =>
    intro hk
    by_cases h10 : k < 10
    · rw [decimal_of_lt h10]
      simp only [parseUintLoop]
      have h1 : 48 ≤ 48 + k ∧ 48 + k ≤ 57 := by omega
      rw [if_pos h1, if_neg (by norm_num), if_neg (by norm_num; omega)]
      simp
    · rw [decimal_of_ge (by omega), parseUintLoop_append, ih (k / 10) (by omega) (by omega)]
      simp only [parseUintLoop]
      have h1 : 48 ≤ 48 + k % 10 ∧ 48 + k % 10 ≤ 57 := by omega
      rw [if_pos h1, if_neg (by norm_num; omega), if_neg (by norm_num; omega)]
      congr 1
      omega

theorem decimal_cons (k : Nat) : ∃ d ds, decimal k = d :: ds ∧ 48 ≤ d ∧ d ≤ 57 := by
  cases h : decimal k with
  | nil => exact absurd h (decimal_ne_nil k)
  | cons d ds =>
    have := @decimal_digit k d (by rw [h]; exact List.mem_cons_self _ _)
    exact ⟨d, ds, rfl, this⟩

theorem parseUint_decimal {k : Nat} (hk : k < 2 ^ 64) : parseUint (decimal k) = .ok k := by
  obtain ⟨d, ds, h, _⟩ := decimal_cons k
  unfold parseUint
  rw [h]
  simp only
  rw [← h]
  exact parseUintLoop_decimal k hk

theorem parseInt_decimal {k : Nat} (hk : k < 2 ^ 63) : parseInt (decimal k) = .ok (k : Int) := by
  obtain ⟨d, ds, h, hd1, hd2⟩ := decimal_cons k
  unfold parseInt
  rw [h]
  simp only
  have h43 : ¬ (d = 43 ∨ d = 45) := by omega
  have h45 : ¬ d = 45 := by omega
  rw [if_neg h43, ← h, parseUint_decimal (by omega)]
  simp only [h45, decide_False]
  rw [if_neg (by simp; omega), if_neg (by simp)]
  simp

theorem parseInt_formatInt {n : Int} (h1 : -(2 ^ 63) ≤ n) (h2 : n < 2 ^ 63) :
    parseInt (formatInt n) = .ok n := by
  unfold formatInt
  rw [formatUint_eq]
  split
  · rename_i hneg
    have hu : parseUint (decimal n.natAbs) = .ok n.natAbs := parseUint_decimal (by omega)
    have hle : ¬ (n.natAbs > 2 ^ 63) := by omega
    simp only [parseInt, or_true, if_true, hu, decide_True, not_true_eq_false, false_and,
      if_false, true_and, hle]
    congr 1
    omega
  · rename_i hneg
    rw [parseInt_decimal (by omega)]
    congr 1
    omega

theorem indexByte_append {xs : Bytes} {c : Nat} (h : c ∉ xs) (rest : Bytes) :
    indexByte (xs ++ c :: rest) c = some xs.length := by
  induction xs with
  | nil => simp [indexByte]
  | cons x xs ih =>
    simp only [List.mem_cons, not_or] at h
    rw [List.cons_append]
    unfold indexByte
    rw [if_neg (fun e => h.1 e.symm), ih h.2]
    simp

theorem formatInt_no_e (n : Int) : 101 ∉ formatInt n := by
  unfold formatInt
  rw [formatUint_eq]
  split
  · intro h
    rcases List.mem_cons.1 h with h | h
    · omega
    · have := decimal_digit h; omega
  · intro h
    have := decimal_digit h; omega

theorem take_drop_middle (a s rest : Bytes) :
    ((a ++ (s ++ rest)).take (a.length + s.length)).drop a.length = s
      ∧ (a ++ (s ++ rest)).drop (a.length + s.length) = rest := by
  constructor
  · rw [← List.append_assoc, ← List.length_append, List.take_left', List.drop_left']
    · rfl
    · rfl
  · rw [← List.append_assoc, ← List.length_append, List.drop_left']
    rfl

theorem parseString_encodeString (s rest : Bytes)
    (hlen : (encodeString s ++ rest).length < 2 ^ 63) :
    parseString (encodeString s ++ rest) = .ok (s, rest) := by
  have hcolon : (58 : Nat) ∉ decimal s.length := by
    intro h
    have := decimal_digit h; omega
  have hdata : encodeString s ++ rest = decimal s.length ++ 58 :: (s ++ rest) := by
    simp [encodeString, formatUint_eq]
  rw [hdata] at hlen ⊢
  simp only [List.length_append, List.length_cons] at hlen
  unfold parseString
  rw [indexByte_append hcolon]
  simp only [List.take_left', atoi]
  rw [parseInt_decimal (by omega)]
  simp only
  have hw : wrapInt64 (((decimal s.length).length : Int) + 1 + (s.length : Int))
      = (((decimal s.length).length + 1 + s.length : Nat) : Int) := by
    unfold wrapInt64
    omega
  rw [hw]
  rw [if_neg (by simp only [List.length_append, List.length_cons]; omega),
    if_neg (by omega)]
  simp only [Int.toNat_ofNat]
  have hmid := take_drop_middle (decimal s.length ++ [58]) s rest
  simp only [List.length_append, List.length_singleton, List.append_assoc,
    List.singleton_append] at hmid
  rw [hmid.1, hmid.2]

theorem encodeString_cons (s : Bytes) :
    ∃ d ds, encodeString s = d :: ds ∧ 48 ≤ d ∧ d ≤ 57 := by
  obtain ⟨d, ds, h, hd⟩ := decimal_cons s.length
  exact ⟨d, ds ++ 58 :: s, by simp [encodeString, formatUint_eq, h], hd⟩

theorem int_token (n : Int) (rest : Bytes) :
    indexByte (105 :: (formatInt n ++ 101 :: rest)) 101 = some ((formatInt n).length + 1)
      ∧ ((105 :: (formatInt n ++ 101 :: rest)).take ((formatInt n).length + 1)).drop 1
          = formatInt n
      ∧ (105 :: (formatInt n ++ 101 :: rest)).drop ((formatInt n).length + 1 + 1) = rest := by
  refine ⟨?_, ?_, ?_⟩
  · have h : (101 : Nat) ∉ 105 :: formatInt n := by
      intro h
      rcases List.mem_cons.1 h with h | h
      · omega
      · exact formatInt_no_e n h
    have := indexByte_append h rest
    simpa using this
  · simp [List.take_left']
  · simp

theorem parseElement_int (fuel : Nat) (n : Int) (rest : Bytes)
    (h1 : -(2 ^ 63) ≤ n) (h2 : n < 2 ^ 63) :
    parseElement (fuel + 1) (105 :: (formatInt n ++ 101 :: rest)) = .ok (.int n, rest) := by
  obtain ⟨hi, ht, hd⟩ := int_token n rest
  simp only [parseElement, if_true, hi, ht, hd, parseInt_formatInt h1 h2]

theorem parseElement_string (fuel : Nat) (s rest : Bytes)
    (hlen : (encodeString s ++ rest).length < 2 ^ 63) :
    parseElement (fuel + 1) (encodeString s ++ rest) = .ok (.str s, rest) := by
  have hp := parseString_encodeString s rest hlen
  obtain ⟨d, ds, h, hd1, hd2⟩ := encodeString_cons s
  rw [h] at hp ⊢
  simp only [List.cons_append] at hp ⊢
  simp only [parseElement]
  rw [if_neg (by omega), if_neg (by omega), if_neg (by omega), if_pos ⟨hd1, hd2⟩, hp]

theorem encode_cons (w : Value) : ∃ c cs, encode w = c :: cs ∧ c ≠ 101 := by
  cases w with
  | int n => exact ⟨105, formatInt n ++ [101], by simp [encode], by omega⟩
  | str s =>
    obtain ⟨d, ds, h, hd1, hd2⟩ := encodeString_cons s
    exact ⟨d, ds, by simp [encode, h], by omega⟩
  | list xs => exact ⟨108, encodeList xs ++ [101], by simp [encode], by omega⟩
  | dict m => exact ⟨100, encodeEntries m ++ [101], by simp [encode], by omega⟩

theorem foldl_assocSet_append {α : Type} (m : List (Bytes × α)) :
    ∀ acc : List (Bytes × α), ((acc ++ m).map Prod.fst).Nodup →
      m.foldl (fun d p => assocSet d p.1 p.2) acc = acc ++ m := by
  induction m with
  | nil => intro acc _; simp
  | cons p m ih =>
    obtain ⟨k, x⟩ := p
    intro acc hn
    have hk : k ∉ acc.map Prod.fst := by
      intro hmem
      rw [List.map_append, List.nodup_append] at hn
      exact hn.2.2 hmem (by simp)
    have hset : assocSet acc k x = acc ++ [(k, x)] := by
      clear hn ih
      induction acc with
      | nil => rfl
      | cons q acc ih2 =>
        obtain ⟨k', y⟩ := q
        simp only [List.map_cons, List.mem_cons, not_or] at hk
        have hne : ¬ k' = k := fun e => hk.1 e.symm
        simp only [assocSet, if_neg hne, ih2 hk.2, List.cons_append]
    simp only [List.foldl_cons, hset]
    rw [ih (acc ++ [(k, x)]) (by simpa using hn)]
    simp

mutual
theorem parseElement_encode : ∀ (w : Value), w.valid = true → ∀ (fuel : Nat) (rest : Bytes),
    3 * (encode w).length ≤ fuel → (encode w ++ rest).length < 2 ^ 63 →
    parseElement fuel (encode w ++ rest) = .ok (w, rest)
  | .int n, hv, fuel, rest, hf, _ => by
    simp only [Value.valid, decide_eq_true_eq] at hv
    simp only [encode, List.length_cons, List.length_append] at hf
    obtain ⟨f, rfl⟩ : ∃ f, fuel = f + 1 := ⟨fuel - 1, by omega⟩
    have := parseElement_int f n rest hv.1 hv.2
    simpa [encode] using this
  | .str s, _, fuel, rest, hf, hl => by
    obtain ⟨d, ds, h, _⟩ := encodeString_cons s
    simp only [encode, h, List.length_cons] at hf
    obtain ⟨f, rfl⟩ : ∃ f, fuel = f + 1 := ⟨fuel - 1, by omega⟩
    exact parseElement_string f s rest hl
  | .list xs, hv, fuel, rest, hf, hl => by
    simp only [Value.valid] at hv
    simp only [encode, List.length_cons, List.length_append, List.length_singleton] at hf
    obtain ⟨f, rfl⟩ : ∃ f, fuel = f + 2 := ⟨fuel - 2, by omega⟩
    have hl' : (encodeList xs ++ 101 :: rest).length < 2 ^ 63 := by
      simp only [encode, List.length_cons, List.length_append, List.length_singleton] at hl
      simp only [List.length_cons, List.length_append]
      omega
    have := parseListLoop_encode xs hv f rest [] (by omega) hl'
    have hd : encode (.list xs) ++ rest = 108 :: (encodeList xs ++ 101 :: rest) := by
      simp [encode]
    rw [hd]
    simp [parseElement, parseList, this]
  | .dict m, hv, fuel, rest, hf, hl => by
    simp only [Value.valid, Bool.and_eq_true, decide_eq_true_eq] at hv
    simp only [encode, List.length_cons, List.length_append, List.length_singleton] at hf
    obtain ⟨f, rfl⟩ : ∃ f, fuel = f + 2 := ⟨fuel - 2, by omega⟩
    have hl' : (encodeEntries m ++ 101 :: rest).length < 2 ^ 63 := by
      simp only [encode, List.length_cons, List.length_append, List.length_singleton] at hl
      simp only [List.length_cons, List.length_append]
      omega
    have := parseDictLoop_encode m hv.2 f rest [] (by omega) hl'
    rw [foldl_assocSet_append m [] (by simpa using hv.1)] at this
    have hd : encode (.dict m) ++ rest = 100 :: (encodeEntries m ++ 101 :: rest) := by
      simp [encode]
    rw [hd]
    simp [parseElement, parseDict, this]
theorem parseListLoop_encode : ∀ (xs : List Value), validList xs = true →
    ∀ (fuel : Nat) (rest : Bytes) (acc : List Value),
    3 * (encodeList xs).length + 1 ≤ fuel → (encodeList xs ++ 101 :: rest).length < 2 ^ 63 →
    parseListLoop fuel (encodeList xs ++ 101 :: rest) acc = .ok (acc ++ xs, rest)
  | [], _, fuel, rest, acc, hf, _ => by
    obtain ⟨f, rfl⟩ : ∃ f, fuel = f + 1 := ⟨fuel - 1, by omega⟩
    simp [encodeList, parseListLoop]
  | x :: xs, hv, fuel, rest, acc, hf, hl => by
    simp only [validList, Bool.and_eq_true] at hv
    simp only [encodeList, List.length_append] at hf
    simp only [encodeList, List.append_assoc, List.length_append] at hl
    obtain ⟨f, rfl⟩ : ∃ f, fuel = f + 1 := ⟨fuel - 1, by omega⟩
    obtain ⟨c, cs, hc, hne⟩ := encode_cons x
    have hlen1 : 1 ≤ (encode x).length := by rw [hc]; simp
    have h1 := parseElement_encode x hv.1 f (encodeList xs ++ 101 :: rest) (by omega)
      (by simp only [List.length_append]; omega)
    have h2 := parseListLoop_encode xs hv.2 f rest (acc ++ [x]) (by omega)
      (by simp only [List.length_append]; omega)
    simp only [encodeList, List.append_assoc]
    rw [hc] at h1 ⊢
    simp only [List.cons_append] at h1 ⊢
    simp only [parseListLoop, if_neg hne, h1, h2]
    simp
theorem parseDictLoop_encode : ∀ (m : List (Bytes × Value)), validEntries m = true →
    ∀ (fuel : Nat) (rest : Bytes) (acc : List (Bytes × Value)),
    3 * (encodeEntries m).length + 1 ≤ fuel → (encodeEntries m ++ 101 :: rest).length < 2 ^ 63 →
    parseDictLoop fuel (encodeEntries m ++ 101 :: rest) acc
      = .ok (m.foldl (fun d p => assocSet d p.1 p.2) acc, rest)
  | [], _, fuel, rest, acc, hf, _ => by
    obtain ⟨f, rfl⟩ : ∃ f, fuel = f + 1 := ⟨fuel - 1, by omega⟩
    simp [encodeEntries, parseDictLoop]
  | (k, x) :: m, hv, fuel, rest, acc, hf, hl => by
    simp only [validEntries, Bool.and_eq_true] at hv
    simp only [encodeEntries, List.length_append] at hf
    simp only [encodeEntries, List.append_assoc, List.length_append] at hl
    obtain ⟨f, rfl⟩ : ∃ f, fuel = f + 1 := ⟨fuel - 1, by omega⟩
    obtain ⟨d, ds, hd, hd1, hd2⟩ := encodeString_cons k
    have hlen1 : 1 ≤ (encodeString k).length := by rw [hd]; simp
    have h0 := parseString_encodeString k (encode x ++ (encodeEntries m ++ 101 :: rest))
      (by simp only [List.length_append]; omega)
    have h1 := parseElement_encode x hv.1 f (encodeEntries m ++ 101 :: rest) (by omega)
      (by simp only [List.length_append]; omega)
    have h2 := parseDictLoop_encode m hv.2 f rest (assocSet acc k x) (by omega)
      (by simp only [List.length_append]; omega)
    simp only [encodeEntries, List.append_assoc]
    rw [hd] at h0 ⊢
    simp only [List.cons_append] at h0 ⊢
    simp only [parseDictLoop, if_neg (show d ≠ 101 by omega), h0, h1, h2]
    simp
end

theorem parseBencodeList_encode : ∀ (xs : List Value), validList xs = true →
    ∀ (fuel : Nat) (rest : Bytes) (acc : List Value),
    3 * (encodeList xs).length + 1 ≤ fuel → (encodeList xs ++ 101 :: rest).length < 2 ^ 63 →
    parseBencodeList fuel (encodeList xs ++ 101 :: rest) acc = .ok (acc ++ xs) := by
  intro xs
  induction xs with
  | nil =>
    intro _ fuel rest acc hf _
    obtain ⟨f, rfl⟩ : ∃ f, fuel = f + 1 := ⟨fuel - 1, by omega⟩
    simp [encodeList, parseBencodeList]
  | cons x xs ih =>
    intro hv fuel rest acc hf hl
    simp only [validList, Bool.and_eq_true] at hv
    simp only [encodeList, List.length_append] at hf
    simp only [encodeList, List.append_assoc, List.length_append] at hl
    obtain ⟨f, rfl⟩ : ∃ f, fuel = f + 1 := ⟨fuel - 1, by omega⟩
    obtain ⟨c, cs, hc, hne⟩ := encode_cons x
    have hlen1 : 1 ≤ (encode x).length := by rw [hc]; simp
    have h1 := parseElement_encode x hv.1 f (encodeList xs ++ 101 :: rest) (by omega)
      (by simp only [List.length_append]; omega)
    have h2 := ih hv.2 f rest (acc ++ [x]) (by omega)
      (by simp only [List.length_append]; omega)
    simp only [encodeList, List.append_assoc]
    rw [hc] at h1 ⊢
    simp only [List.cons_append] at h1 ⊢
    simp only [parseBencodeList, if_neg hne, h1, h2]
    simp

theorem parseBencodeDict_encode : ∀ (m : List (Bytes × Value)), validEntries m = true →
    ∀ (fuel : Nat) (rest : Bytes) (acc : List (Bytes × Value)),
    3 * (encodeEntries m).length + 1 ≤ fuel → (encodeEntries m ++ 101 :: rest).length < 2 ^ 63 →
    parseBencodeDict fuel (encodeEntries m ++ 101 :: rest) acc
      = .ok (m.foldl (fun d p => assocSet d p.1 p.2) acc) := by
  intro m
  induction m with
  | nil =>
    intro _ fuel rest acc hf _
    obtain ⟨f, rfl⟩ : ∃ f, fuel = f + 1 := ⟨fuel - 1, by omega⟩
    simp [encodeEntries, parseBencodeDict]
  | cons p m ih =>
    obtain ⟨k, x⟩ := p
    intro hv fuel rest acc hf hl
    simp only [validEntries, Bool.and_eq_true] at hv
    simp only [encodeEntries, List.length_append] at hf
    simp only [encodeEntries, List.append_assoc, List.length_append] at hl
    obtain ⟨f, rfl⟩ : ∃ f, fuel = f + 1 := ⟨fuel - 1, by omega⟩
    obtain ⟨d, ds, hd, hd1, hd2⟩ := encodeString_cons k
    have hlen1 : 1 ≤ (encodeString k).length := by rw [hd]; simp
    have h0 := parseString_encodeString k (encode x ++ (encodeEntries m ++ 101 :: rest))
      (by simp only [List.length_append]; omega)
    have h1 := parseElement_encode x hv.1 f (encodeEntries m ++ 101 :: rest) (by omega)
      (by simp only [List.length_append]; omega)
    have h2 := ih hv.2 f rest (assocSet acc k x) (by omega)
      (by simp only [List.length_append]; omega)
    simp only [encodeEntries, List.append_assoc]
    rw [hd] at h0 ⊢
    simp only [List.cons_append] at h0 ⊢
    simp only [parseBencodeDict, if_neg (show d ≠ 101 by omega), h0, h1, h2]
    simp

theorem parseBencode_encode (w : Value) (hv : w.valid = true)
    (hl : (encode w).length < 2 ^ 63) : parseBencode (encode w) = .ok w := by
  cases w with
  | int n =>
    simp only [Value.valid, decide_eq_true_eq] at hv
    obtain ⟨hi, ht, _⟩ := int_token n []
    have hd : encode (.int n) = 105 :: (formatInt n ++ [101]) := by simp [encode]
    rw [hd]
    simp only [parseBencode, if_true, hi, ht, parseInt_formatInt hv.1 hv.2]
  | str s =>
    have hp := parseString_encodeString s [] (by simpa [encode] using hl)
    obtain ⟨d, ds, h, hd1, hd2⟩ := encodeString_cons s
    simp only [encode]
    rw [List.append_nil] at hp
    rw [h] at hp ⊢
    simp only [parseBencode]
    rw [if_neg (by omega), if_neg (by omega), if_neg (by omega), if_pos ⟨hd1, hd2⟩, hp]
  | list xs =>
    simp only [Value.valid] at hv
    simp only [encode, List.length_cons, List.length_append, List.length_singleton] at hl
    have := parseBencodeList_encode xs hv (fuelFor (108 :: (encodeList xs ++ [101]))) [] []
      (by simp only [fuelFor, List.length_cons, List.length_append, List.length_singleton]; omega)
      (by simp only [List.length_cons, List.length_append, List.length_nil]; omega)
    have hd : encode (.list xs) = 108 :: (encodeList xs ++ [101]) := by simp [encode]
    rw [hd]
    simp [parseBencode, this]
  | dict m =>
    simp only [Value.valid, Bool.and_eq_true, decide_eq_true_eq] at hv
    simp only [encode, List.length_cons, List.length_append, List.length_singleton] at hl
    have := parseBencodeDict_encode m hv.2 (fuelFor (100 :: (encodeEntries m ++ [101]))) [] []
      (by simp only [fuelFor, List.length_cons, List.length_append, List.length_singleton]; omega)
      (by simp only [List.length_cons, List.length_append, List.length_nil]; omega)
    rw [foldl_assocSet_append m [] (by simpa using hv.1)] at this
    have hd : encode (.dict m) = 100 :: (encodeEntries m ++ [101]) := by simp [encode]
    rw [hd]
    simp [parseBencode, this]

/-! ## The encoder on decoded trees -/

theorem writeElems_ok (xs : List Value) :
    writeElems (xs.map (fun x => (Except.ok (encode x) : Except GoError Bytes)))
      = encodeList xs := by
  induction xs with
  | nil => rfl
  | cons x xs ih => simp [writeElems, encodeList, ih]

theorem stringKeys_ok (m : List (Bytes × Value)) :
    stringKeys (m.map (fun p => (GoValue.str p.1, (Except.ok (encode p.2) : Except GoError Bytes))))
      = m.map Prod.fst := by
  induction m with
  | nil => rfl
  | cons p m ih => obtain ⟨k, x⟩ := p; simp [stringKeys, ih]

theorem mapIndex_ok (m : List (Bytes × Value)) (k : Bytes) :
    mapIndex (m.map (fun p => (GoValue.str p.1, (Except.ok (encode p.2) : Except GoError Bytes)))) k
      = (assocGet m k).map (fun x => Except.ok (encode x)) := by
  induction m with
  | nil => rfl
  | cons p m ih =>
    obtain ⟨k', x⟩ := p
    simp only [List.map_cons, mapIndex, assocGet, ih]
    split <;> simp

theorem writeEntries_ok (m : List (Bytes × Value)) (keys : List Bytes) :
    writeEntries
        (mapIndex (m.map (fun p =>
          (GoValue.str p.1, (Except.ok (encode p.2) : Except GoError Bytes))))) keys
      = encodeEntries (keys.filterMap (fun k => (assocGet m k).map (fun x => (k, x)))) := by
  induction keys with
  | nil => rfl
  | cons k keys ih =>
    simp only [writeEntries, mapIndex_ok, List.filterMap_cons]
    cases h : assocGet m k with
    | none => simpa using ih
    | some x => simp [encodeEntries, ih]

mutual
theorem marshalValue_toGo : ∀ v : Value, marshalValue (toGo v) = .ok (encode (canon v))
  | .int n => by simp [toGo, marshalValue, canon, encode]
  | .str s => by simp [toGo, marshalValue, canon, encode]
  | .list xs => by
    simp only [toGo, marshalValue, canon, encode, marshalElems_toGoElems xs, writeElems_ok]
  | .dict m => by
    simp only [toGo, marshalValue, canon, encode, marshalEntries_toGoEntries m, stringKeys_ok,
      writeEntries_ok, sortEntries]
theorem marshalElems_toGoElems : ∀ xs : List Value,
    marshalElems (toGoElems xs)
      = (canonList xs).map (fun x => (Except.ok (encode x) : Except GoError Bytes))
  | [] => rfl
  | x :: xs => by
    simp only [toGoElems, marshalElems, marshalValue, canonList, List.map_cons,
      marshalValue_toGo x, marshalElems_toGoElems xs]
theorem marshalEntries_toGoEntries : ∀ m : List (Bytes × Value),
    marshalEntries (toGoEntries m)
      = (canonEntries m).map (fun p =>
          (GoValue.str p.1, (Except.ok (encode p.2) : Except GoError Bytes)))
  | [] => rfl
  | (k, x) :: m => by
    simp only [toGoEntries, marshalEntries, marshalValue, canonEntries, List.map_cons,
      marshalValue_toGo x, marshalEntries_toGoEntries m]
end

/-! ## The canonical form of a tree -/

theorem keys_canonEntries (m : List (Bytes × Value)) :
    (canonEntries m).map Prod.fst = m.map Prod.fst := by
  induction m with
  | nil => rfl
  | cons p m ih => obtain ⟨k, x⟩ := p; simp [canonEntries, ih]

theorem assocGet_canonEntries (m : List (Bytes × Value)) (k : Bytes) :
    assocGet (canonEntries m) k = (assocGet m k).map canon := by
  induction m with
  | nil => rfl
  | cons p m ih =>
    obtain ⟨k', x⟩ := p
    simp only [canonEntries, assocGet, ih]
    split <;> simp

theorem validEntries_iff (m : List (Bytes × Value)) :
    validEntries m = true ↔ ∀ p ∈ m, p.2.valid = true := by
  induction m with
  | nil => simp [validEntries]
  | cons p m ih => obtain ⟨k, x⟩ := p; simp [validEntries, ih]

theorem sortEntries_keys (m : List (Bytes × Value)) :
    (sortEntries m).map Prod.fst = sortStrings (m.map Prod.fst) := by
  unfold sortEntries
  have h : ∀ keys : List Bytes, (∀ k ∈ keys, k ∈ m.map Prod.fst) →
      (keys.filterMap (fun k => (assocGet m k).map (fun x => (k, x)))).map Prod.fst = keys := by
    intro keys
    induction keys with
    | nil => intro _; rfl
    | cons k keys ih =>
      intro hk
      obtain ⟨y, hy⟩ := (mem_keys_iff_assocGet m k).1 (hk k (List.mem_cons_self _ _))
      simp only [List.filterMap_cons, hy, Option.map_some', List.map_cons]
      rw [ih (fun k' hk' => hk k' (List.mem_cons_of_mem _ hk'))]
  exact h _ (fun k hk => (sortStrings_perm _).mem_iff.1 hk)

theorem mem_sortEntries {m : List (Bytes × Value)} {k : Bytes} {x : Value}
    (h : (k, x) ∈ sortEntries m) : assocGet m k = some x := by
  unfold sortEntries at h
  rw [List.mem_filterMap] at h
  obtain ⟨k', _, hk'⟩ := h
  cases hg : assocGet m k' with
  | none => rw [hg] at hk'; cases hk'
  | some y =>
    rw [hg] at hk'
    simp only [Option.map_some', Option.some.injEq, Prod.mk.injEq] at hk'
    obtain ⟨rfl, rfl⟩ := hk'
    exact hg

theorem sameEntries_of_forall (l m : List (Bytes × Value))
    (h : ∀ p ∈ l, ∃ x, assocGet m p.1 = some x ∧ p.2.sameAs x = true) :
    sameEntries l m = true := by
  induction l with
  | nil => rfl
  | cons p l ih =>
    obtain ⟨k, y⟩ := p
    obtain ⟨x, hx, hs⟩ := h (k, y) (List.mem_cons_self _ _)
    simp only [sameEntries, hx, hs, Bool.true_and]
    exact ih (fun q hq => h q (List.mem_cons_of_mem _ hq))

mutual
theorem canon_valid : ∀ v : Value, v.valid = true → (canon v).valid = true
  | .int n, h => by simpa [canon] using h
  | .str s, _ => by simp [canon, Value.valid]
  | .list xs, h => by
    simp only [Value.valid] at h
    simp only [canon, Value.valid]
    exact canonList_valid xs h
  | .dict m, h => by
    simp only [Value.valid, Bool.and_eq_true, decide_eq_true_eq] at h
    simp only [canon, Value.valid, Bool.and_eq_true, decide_eq_true_eq]
    constructor
    · rw [sortEntries_keys, keys_canonEntries]
      exact (sortStrings_perm _).nodup_iff.2 h.1
    · rw [validEntries_iff]
      rintro ⟨k, y⟩ hp
      have hy := mem_sortEntries hp
      exact (validEntries_iff _).1 (canonEntries_valid m h.2) (k, y) (assocGet_mem hy)
theorem canonList_valid : ∀ xs : List Value, validList xs = true → validList (canonList xs) = true
  | [], _ => rfl
  | x :: xs, h => by
    simp only [validList, Bool.and_eq_true] at h
    simp only [canonList, validList, Bool.and_eq_true]
    exact ⟨canon_valid x h.1, canonList_valid xs h.2⟩
theorem canonEntries_valid : ∀ m : List (Bytes × Value), validEntries m = true →
    validEntries (canonEntries m) = true
  | [], _ => rfl
  | (k, x) :: m, h => by
    simp only [validEntries, Bool.and_eq_true] at h
    simp only [canonEntries, validEntries, Bool.and_eq_true]
    exact ⟨canon_valid x h.1, canonEntries_valid m h.2⟩
end

mutual
theorem canon_sameAs : ∀ v : Value, v.valid = true → (canon v).sameAs v = true
  | .int n, _ => by simp [canon, Value.sameAs]
  | .str s, _ => by simp [canon, Value.sameAs]
  | .list xs, h => by
    simp only [Value.valid] at h
    simp only [canon, Value.sameAs]
    exact canonList_sameAs xs h
  | .dict m, h => by
    simp only [Value.valid, Bool.and_eq_true, decide_eq_true_eq] at h
    simp only [canon, Value.sameAs, Bool.and_eq_true, decide_eq_true_eq]
    constructor
    · have := congrArg List.length (sortEntries_keys (canonEntries m))
      rw [keys_canonEntries] at this
      simpa [(sortStrings_perm (m.map Prod.fst)).length_eq] using this
    · apply sameEntries_of_forall
      rintro ⟨k, y⟩ hp
      have hy := mem_sortEntries hp
      rw [assocGet_canonEntries] at hy
      cases hx : assocGet m k with
      | none => rw [hx] at hy; cases hy
      | some x =>
        rw [hx] at hy
        simp only [Option.map_some', Option.some.injEq] at hy
        subst hy
        exact ⟨x, rfl, canonEntries_sameAs m h.2 k x hx⟩
theorem canonList_sameAs : ∀ xs : List Value, validList xs = true →
    sameList (canonList xs) xs = true
  | [], _ => rfl
  | x :: xs, h => by
    simp only [validList, Bool.and_eq_true] at h
    simp only [canonList, sameList, Bool.and_eq_true]
    exact ⟨canon_sameAs x h.1, canonList_sameAs xs h.2⟩
theorem canonEntries_sameAs : ∀ m : List (Bytes × Value), validEntries m = true →
    ∀ (k : Bytes) (x : Value), assocGet m k = some x → (canon x).sameAs x = true
  | [], _, k, x, hx => by simp [assocGet] at hx
  | (k', x') :: m, h, k, x, hx => by
    simp only [validEntries, Bool.and_eq_true] at h
    simp only [assocGet] at hx
    by_cases hk : k' = k
    · rw [if_pos hk] at hx
      cases hx
      exact canon_sameAs x' h.1
    · rw [if_neg hk] at hx
      exact canonEntries_sameAs m h.2 k x hx
end

/-! ## The fuel of the decoder is never exhausted -/

theorem parseString_rest {data s rest : Bytes} (h : parseString data = .ok (s, rest)) :
    rest.length < data.length := by
  unfold parseString at h
  split at h
  · cases h
  · rename_i colon _
    split at h
    · cases h
    · rename_i length _
      simp only at h
      split at h
      · cases h
      · split at h
        · cases h
        · rename_i h1 h2
          injection h with h
          simp only [Prod.mk.injEq] at h
          rw [← h.2, List.length_drop]
          omega

theorem parseString_ne_fuel (data : Bytes) : parseString data ≠ .fuel := by
  unfold parseString
  split
  · simp
  · split
    · simp
    · simp only
      split
      · simp
      · split <;> simp

/-- Never out of fuel, and progress: with fuel for three calls per byte, no
function of the decoder runs out of fuel, and what it leaves is shorter than
what it was given. -/
theorem decoder_fuel (fuel : Nat) :
    (∀ data, 3 * data.length + 1 ≤ fuel →
        parseElement fuel data ≠ .fuel
          ∧ ∀ v rest, parseElement fuel data = .ok (v, rest) → rest.length < data.length)
      ∧ (∀ data, 3 * data.length ≤ fuel → 0 < fuel →
        parseList fuel data ≠ .fuel
          ∧ ∀ v rest, parseList fuel data = .ok (v, rest) → rest.length < data.length)
      ∧ (∀ data acc, 3 * data.length + 2 ≤ fuel →
        parseListLoop fuel data acc ≠ .fuel
          ∧ ∀ v rest, parseListLoop fuel data acc = .ok (v, rest) → rest.length < data.length)
      ∧ (∀ data, 3 * data.length ≤ fuel → 0 < fuel →
        parseDict fuel data ≠ .fuel
          ∧ ∀ v rest, parseDict fuel data = .ok (v, rest) → rest.length < data.length)
      ∧ (∀ data acc, 3 * data.length + 2 ≤ fuel →
        parseDictLoop fuel data acc ≠ .fuel
          ∧ ∀ v rest, parseDictLoop fuel data acc = .ok (v, rest) →
              rest.length < data.length) := by
  induction fuel with
  | zero =>
    refine ⟨?_, ?_, ?_, ?_, ?_⟩ <;> intros <;> omega
  | succ f ih =>
    obtain ⟨ihE, ihL, ihLL, ihD, ihDL⟩ := ih
    refine ⟨?_, ?_, ?_, ?_, ?_⟩
    · intro data hf
      cases data with
      | nil => simp [parseElement]
      | cons c cs =>
        simp only [List.length_cons] at hf
        simp only [parseElement]
        split
        · split
          · simp
          · split
            · simp
            · refine ⟨by simp, ?_⟩
              intro v rest h
              injection h with h
              simp only [Prod.mk.injEq] at h
              rw [← h.2, List.length_drop]
              simp only [List.length_cons]
              omega
        · split
          · obtain ⟨h1, h2⟩ := ihL (c :: cs) (by simp only [List.length_cons]; omega) (by omega)
            split
            · rename_i list rest' heq
              refine ⟨by simp, ?_⟩
              intro v rest h
              injection h with h
              simp only [Prod.mk.injEq] at h
              rw [← h.2]
              exact h2 _ _ heq
            · simp
            · simp
            · rename_i heq; exact absurd heq h1
          · split
            · obtain ⟨h1, h2⟩ := ihD (c :: cs) (by simp only [List.length_cons]; omega) (by omega)
              split
              · rename_i dict rest' heq
                refine ⟨by simp, ?_⟩
                intro v rest h
                injection h with h
                simp only [Prod.mk.injEq] at h
                rw [← h.2]
                exact h2 _ _ heq
              · simp
              · simp
              · rename_i heq; exact absurd heq h1
            · split
              · split
                · rename_i str rest' heq
                  refine ⟨by simp, ?_⟩
                  intro v rest h
                  injection h with h
                  simp only [Prod.mk.injEq] at h
                  rw [← h.2]
                  exact parseString_rest heq
                · simp
                · simp
                · rename_i heq
                  exact absurd heq (parseString_ne_fuel _)
              · simp
    · intro data hf _
      cases data with
      | nil => simp [parseList]
      | cons c cs =>
        simp only [List.length_cons] at hf
        simp only [parseList]
        obtain ⟨h1, h2⟩ := ihLL cs [] (by omega)
        refine ⟨h1, ?_⟩
        intro v rest h
        have := h2 v rest h
        simp only [List.length_cons]
        omega
    · intro data acc hf
      cases data with
      | nil => simp [parseListLoop]
      | cons c cs =>
        simp only [List.length_cons] at hf
        simp only [parseListLoop]
        split
        · refine ⟨by simp, ?_⟩
          intro v rest h
          injection h with h
          simp only [Prod.mk.injEq] at h
          rw [← h.2]
          simp
        · obtain ⟨h1, h2⟩ := ihE (c :: cs) (by simp only [List.length_cons]; omega)
          split
          · rename_i item rest' heq
            have hr := h2 _ _ heq
            simp only [List.length_cons] at hr
            obtain ⟨h3, h4⟩ := ihLL rest' (acc ++ [item]) (by omega)
            refine ⟨h3, ?_⟩
            intro v rest h
            have := h4 v rest h
            simp only [List.length_cons]
            omega
          · simp
          · simp
          · rename_i heq; exact absurd heq h1
    · intro data hf _
      cases data with
      | nil => simp [parseDict]
      | cons c cs =>
        simp only [List.length_cons] at hf
        simp only [parseDict]
        obtain ⟨h1, h2⟩ := ihDL cs [] (by omega)
        refine ⟨h1, ?_⟩
        intro v rest h
        have := h2 v rest h
        simp only [List.length_cons]
        omega
    · intro data acc hf
      cases data with
      | nil => simp [parseDictLoop]
      | cons c cs =>
        simp only [List.length_cons] at hf
        simp only [parseDictLoop]
        split
        · refine ⟨by simp, ?_⟩
          intro v rest h
          injection h with h
          simp only [Prod.mk.injEq] at h
          rw [← h.2]
          simp
        · split
          · rename_i key rest0 heq0
            have hr0 := parseString_rest heq0
            simp only [List.length_cons] at hr0
            obtain ⟨h1, h2⟩ := ihE rest0 (by omega)
            split
            · rename_i val rest' heq
              have hr := h2 _ _ heq
              obtain ⟨h3, h4⟩ := ihDL rest' (assocSet acc key val) (by omega)
              refine ⟨h3, ?_⟩
              intro v rest h
              have := h4 v rest h
              simp only [List.length_cons]
              omega
            · simp
            · simp
            · rename_i heq; exact absurd heq h1
          · simp
          · simp
          · rename_i heq
            exact absurd heq (parseString_ne_fuel _)

theorem parseBencodeList_ne_fuel (fuel : Nat) : ∀ (data : Bytes) (acc : List Value),
    3 * data.length + 2 ≤ fuel → parseBencodeList fuel data acc ≠ .fuel := by
  induction fuel with
  | zero => intros; omega
  | succ f ih =>
    intro data acc hf
    cases data with
    | nil => simp [parseBencodeList]
    | cons c cs =>
      simp only [List.length_cons] at hf
      simp only [parseBencodeList]
      split
      · simp
      · obtain ⟨h1, h2⟩ := (decoder_fuel f).1 (c :: cs) (by simp only [List.length_cons]; omega)
        split
        · rename_i item rest' heq
          have hr := h2 _ _ heq
          simp only [List.length_cons] at hr
          exact ih rest' _ (by omega)
        · simp
        · simp
        · rename_i heq; exact absurd heq h1

theorem parseBencodeDict_ne_fuel (fuel : Nat) : ∀ (data : Bytes) (acc : List (Bytes × Value)),
    3 * data.length + 2 ≤ fuel → parseBencodeDict fuel data acc ≠ .fuel := by
  induction fuel with
  | zero => intros; omega
  | succ f ih =>
    intro data acc hf
    cases data with
    | nil => simp [parseBencodeDict]
    | cons c cs =>
      simp only [List.length_cons] at hf
      simp only [parseBencodeDict]
      split
      · simp
      · split
        · rename_i key rest0 heq0
          have hr0 := parseString_rest heq0
          simp only [List.length_cons] at hr0
          obtain ⟨h1, h2⟩ := (decoder_fuel f).1 rest0 (by omega)
          split
          · rename_i val rest' heq
            have hr := h2 _ _ heq
            exact ih rest' _ (by omega)
          · simp
          · simp
          · rename_i heq; exact absurd heq h1
        · simp
        · simp
        · rename_i heq
          exact absurd heq (parseString_ne_fuel _)

/-- The decoder is defined on every input: `parseBencode` never runs out of
fuel, so its outcome is a value, an error or a panic. -/
theorem parseBencode_ne_fuel (data : Bytes) : parseBencode data ≠ .fuel := by
  unfold parseBencode
  split
  · simp
  · rename_i c cs
    split
    · split
      · simp
      · split <;> simp
    · split
      · have := parseBencodeList_ne_fuel (fuelFor (c :: cs)) cs []
          (by simp only [fuelFor, List.length_cons]; omega)
        split
        · simp
        · simp
        · simp
        · rename_i heq; exact absurd heq this
      · split
        · have := parseBencodeDict_ne_fuel (fuelFor (c :: cs)) cs []
            (by simp only [fuelFor, List.length_cons]; omega)
          split
          · simp
          · simp
          · simp
          · rename_i heq; exact absurd heq this
        · split
          · split
            · simp
            · simp
            · simp
            · rename_i heq; exact absurd heq (parseString_ne_fuel _)
          · simp

/-! ## C1 -/

/-- C1. Round trip: for every tree `v` of 64-bit integers, byte strings, lists
and string-keyed dictionaries with distinct keys, `marshalValue` on `v` (held as
`int64`, `string`, `[]interface{}` and `map[string]interface{}`) succeeds, and
`parseBencode` on the bytes it returns succeeds with a tree equal to `v`,
dictionaries being compared as mappings from keys to values; the decoded tree
again has distinct keys. The length condition holds for every Go byte slice. -/
theorem marshal_parse_roundtrip (v : Value) (hv : v.valid = true) :
    ∃ out, marshalValue (toGo v) = .ok out
      ∧ (out.length < 2 ^ 63 →
          ∃ w, parseBencode out = .ok w ∧ w.sameAs v = true ∧ w.valid = true) := by
  refine ⟨encode (canon v), marshalValue_toGo v, ?_⟩
  intro hlen
  exact ⟨canon v, parseBencode_encode (canon v) (canon_valid v hv) hlen, canon_sameAs v hv,
    canon_valid v hv⟩

/-- C1 at the dictionary `{"t2": 2, "t1": "v1", "l": [-1, ""]}`, entries given
in this order. -/
theorem marshal_parse_roundtrip_witness :
    (Value.dict [(ascii "t2", .int 2), (ascii "t1", .str (ascii "v1")),
        (ascii "l", .list [.int (-1), .str []])]).valid = true
      ∧ ∃ out, marshalValue (toGo (Value.dict [(ascii "t2", .int 2),
            (ascii "t1", .str (ascii "v1")), (ascii "l", .list [.int (-1), .str []])]))
          = .ok out
        ∧ (out.length < 2 ^ 63 →
            ∃ w, parseBencode out = .ok w
              ∧ w.sameAs (Value.dict [(ascii "t2", .int 2), (ascii "t1", .str (ascii "v1")),
                  (ascii "l", .list [.int (-1), .str []])]) = true
              ∧ w.valid = true) :=
  ⟨by decide, marshal_parse_roundtrip _ (by decide)⟩

/-- C3 as stated fails for a record in which two fields have the same effective
key: the field declared last wins, so exchanging the two declarations changes
the output. -/
theorem marshal_order_counterexample :
    List.Perm
        [((⟨ascii "A", [], ascii "x"⟩ : StructField), GoValue.int 1),
          (⟨ascii "B", [], ascii "x"⟩, GoValue.int 2)]
        [((⟨ascii "B", [], ascii "x"⟩ : StructField), GoValue.int 2),
          (⟨ascii "A", [], ascii "x"⟩, GoValue.int 1)]
      ∧ Marshal (.struct [(⟨ascii "A", [], ascii "x"⟩, .int 1),
          (⟨ascii "B", [], ascii "x"⟩, .int 2)]) = .ok (ascii "d1:xi2ee")
      ∧ Marshal (.struct [(⟨ascii "B", [], ascii "x"⟩, .int 2),
          (⟨ascii "A", [], ascii "x"⟩, .int 1)]) = .ok (ascii "d1:xi1ee")
      ∧ Marshal (.struct [(⟨ascii "A", [], ascii "x"⟩, .int 1),
          (⟨ascii "B", [], ascii "x"⟩, .int 2)])
        ≠ Marshal (.struct [(⟨ascii "B", [], ascii "x"⟩, .int 2),
          (⟨ascii "A", [], ascii "x"⟩, .int 1)]) :=
  ⟨List.Perm.swap _ _ _, by decide, by decide, by decide⟩

/-- C3, amended. Order independence: for every record whose exported,
non-excluded fields have pairwise distinct effective keys and every permutation
of its field declarations, and for every mapping (its keys are distinct) and
every order of its entries, `Marshal` produces exactly the same bytes. -/
theorem marshal_order_independent (fs fs' : List (StructField × GoValue))
    (entries entries' : List (GoValue × GoValue))
    (hperm : fs.Perm fs') (hdistinct : (includedKeys fs).Nodup)
    (hperm' : entries.Perm entries') (hkeys : (stringKeys entries).Nodup) :
    Marshal (.struct fs) = Marshal (.struct fs')
      ∧ Marshal (.map entries) = Marshal (.map entries') := by
  constructor
  · have hm : (marshalFields fs).Perm (marshalFields fs') := by
      rw [marshalFields_eq_map, marshalFields_eq_map]
      exact hperm.map _
    have hd : (includedKeys (marshalFields fs)).Nodup := by
      rw [marshalFields_eq_map, includedKeys_map]
      exact hdistinct
    have hl : lastField (marshalFields fs) = lastField (marshalFields fs') := by
      funext k
      exact lastField_perm hm hd k
    rw [marshal_struct_eq, marshal_struct_eq, hl,
      sortStrings_congr (keys_collectFields_perm hm)]
  · have hl : (fun k => (mapIndex entries k).map marshalValue)
        = fun k => (mapIndex entries' k).map marshalValue := by
      funext k
      rw [mapIndex_perm hperm' hkeys k]
    rw [marshal_map_eq, marshal_map_eq, hl, sortStrings_congr (stringKeys_perm hperm')]

/-- C3, amended, at a record and a mapping with the keys `t2` and `t1`. -/
theorem marshal_order_independent_witness :
    List.Perm
        [((⟨ascii "T2", [], ascii "t2"⟩ : StructField), GoValue.int 2),
          (⟨ascii "T1", [], ascii "t1"⟩, GoValue.str (ascii "v1"))]
        [((⟨ascii "T1", [], ascii "t1"⟩ : StructField), GoValue.str (ascii "v1")),
          (⟨ascii "T2", [], ascii "t2"⟩, GoValue.int 2)]
      ∧ (includedKeys [((⟨ascii "T2", [], ascii "t2"⟩ : StructField), GoValue.int 2),
          (⟨ascii "T1", [], ascii "t1"⟩, GoValue.str (ascii "v1"))]).Nodup
      ∧ List.Perm
        [(GoValue.str (ascii "t2"), GoValue.int 2), (GoValue.str (ascii "t1"), GoValue.int 1)]
        [(GoValue.str (ascii "t1"), GoValue.int 1), (GoValue.str (ascii "t2"), GoValue.int 2)]
      ∧ (stringKeys [(GoValue.str (ascii "t2"), GoValue.int 2),
          (GoValue.str (ascii "t1"), GoValue.int 1)]).Nodup
      ∧ (Marshal (.struct [(⟨ascii "T2", [], ascii "t2"⟩, .int 2),
            (⟨ascii "T1", [], ascii "t1"⟩, .str (ascii "v1"))])
          = Marshal (.struct [(⟨ascii "T1", [], ascii "t1"⟩, .str (ascii "v1")),
            (⟨ascii "T2", [], ascii "t2"⟩, .int 2)])
        ∧ Marshal (.map [(.str (ascii "t2"), .int 2), (.str (ascii "t1"), .int 1)])
          = Marshal (.map [(.str (ascii "t1"), .int 1), (.str (ascii "t2"), .int 2)])) :=
  ⟨List.Perm.swap _ _ _, by decide, List.Perm.swap _ _ _, by decide,
    marshal_order_independent _ _ _ _ (List.Perm.swap _ _ _) (by decide)
      (List.Perm.swap _ _ _) (by decide)⟩

theorem joinEntries_eq_nil {written : List (Bytes × Bytes)} (h : joinEntries written = []) :
    written = [] := by
  cases written with
  | nil => rfl
  | cons p rest =>
    obtain ⟨k, vb⟩ := p
    simp [joinEntries, encodeString] at h

/-- C7 as stated fails for a record in which two fields have the same effective
key and the one declared last does not encode: field `A` is exported, not
excluded, has the alias `x` and the encodable value 1, and yet the output is
the empty dictionary `de`, with no key `x`. -/
theorem marshal_struct_fields_counterexample :
    Marshal (.struct [(⟨ascii "A", [], ascii "x"⟩, .int 1),
        (⟨ascii "B", [], ascii "x"⟩, .other)]) = .ok (ascii "de")
      ∧ ¬ ∃ written : List (Bytes × Bytes),
        Marshal (.struct [(⟨ascii "A", [], ascii "x"⟩, .int 1),
            (⟨ascii "B", [], ascii "x"⟩, .other)])
          = .ok (100 :: joinEntries written ++ [101])
        ∧ ∀ k vb, (k, vb) ∈ written ↔
            ∃ f x, (f, x) ∈ [((⟨ascii "A", [], ascii "x"⟩ : StructField), GoValue.int 1),
                (⟨ascii "B", [], ascii "x"⟩, GoValue.other)]
              ∧ f.pkgPath = [] ∧ f.tag ≠ [45]
              ∧ k = (if f.tag = [] then f.name else f.tag) ∧ marshalValue x = .ok vb := by
  have hm : Marshal (.struct [(⟨ascii "A", [], ascii "x"⟩, .int 1),
      (⟨ascii "B", [], ascii "x"⟩, .other)]) = .ok (ascii "de") := by decide
  refine ⟨hm, ?_⟩
  rintro ⟨written, hw, hiff⟩
  rw [hm] at hw
  have hj : joinEntries written = [] := by
    have h1 : ascii "de" = 100 :: ([] : Bytes) ++ [101] := by decide
    rw [h1] at hw
    injection hw with hw
    injection hw with _ hw
    exact (List.append_cancel_right hw).symm
  have hnil := joinEntries_eq_nil hj
  have hmem : (ascii "x", ascii "i1e") ∈ written :=
    (hiff (ascii "x") (ascii "i1e")).2
      ⟨⟨ascii "A", [], ascii "x"⟩, .int 1, List.mem_cons_self _ _, rfl, by decide, by decide,
        by decide⟩
  rw [hnil] at hmem
  cases hmem

/-- C7, amended. Field alias and exclusion, for every record whose exported,
non-excluded fields have pairwise distinct effective keys: the output is a
dictionary whose entries are exactly the fields that are exported (empty
package path), not tagged with the exclusion marker `-` and whose value encodes
without error, each under its alias when it has one and under its declared name
otherwise, followed by the encoding of its value. Fields tagged `-` and
unexported fields contribute nothing. -/
theorem marshal_struct_fields (fs : List (StructField × GoValue))
    (hdistinct : (includedKeys fs).Nodup) :
    ∃ written : List (Bytes × Bytes),
      Marshal (.struct fs) = .ok (100 :: joinEntries written ++ [101])
      ∧ ∀ k vb, (k, vb) ∈ written ↔
          ∃ f x, (f, x) ∈ fs ∧ f.pkgPath = [] ∧ f.tag ≠ [45]
            ∧ k = (if f.tag = [] then f.name else f.tag) ∧ marshalValue x = .ok vb := by
  refine ⟨_, marshal_struct_eq fs, ?_⟩
  have hd : (includedKeys (marshalFields fs)).Nodup := by
    rw [marshalFields_eq_map, includedKeys_map]
    exact hdistinct
  have hkey : ∀ f : StructField, effectiveKey f = (if f.tag = [] then f.name else f.tag) := by
    intro f
    unfold effectiveKey
    by_cases h : f.tag = [] <;> simp [h]
  have hinc : ∀ f : StructField, fieldIncluded f = true ↔ (f.pkgPath = [] ∧ f.tag ≠ [45]) := by
    intro f
    simp [fieldIncluded]
  intro k vb
  rw [mem_writtenEntries]
  constructor
  · rintro ⟨_, hv⟩
    obtain ⟨f, hf, hi, hk⟩ := lastField_mem hv
    rw [marshalFields_eq_map, List.mem_map] at hf
    obtain ⟨⟨f', x⟩, hfx, heq⟩ := hf
    simp only [Prod.mk.injEq] at heq
    obtain ⟨rfl, hx⟩ := heq
    exact ⟨f', x, hfx, ((hinc f').1 hi).1, ((hinc f').1 hi).2, by rw [← hk, hkey], hx⟩
  · rintro ⟨f, x, hfx, hp, ht, hk, hx⟩
    have hi : fieldIncluded f = true := (hinc f).2 ⟨hp, ht⟩
    have hmem : (f, (Except.ok vb : Except GoError Bytes)) ∈ marshalFields fs := by
      rw [marshalFields_eq_map, List.mem_map]
      exact ⟨(f, x), hfx, by simp [hx]⟩
    have hl := lastField_of_mem hd hmem hi
    rw [← hkey] at hk
    subst hk
    refine ⟨?_, hl⟩
    rw [List.Perm.mem_iff (sortStrings_perm _), keys_collectFields_iff,
      ← lastField_isSome_iff]
    exact ⟨_, hl⟩

/-- C7, amended, at a record with an alias, an excluded field, an unexported
field and a field without tag. -/
theorem marshal_struct_fields_witness :
    (includedKeys [((⟨ascii "Announce", [], ascii "announce"⟩ : StructField),
          GoValue.str (ascii "https://tracker")),
        (⟨ascii "Created", [], ascii "-"⟩, GoValue.int 12345),
        (⟨ascii "secret", ascii "main", []⟩, GoValue.int 7),
        (⟨ascii "Size", [], []⟩, GoValue.int 1024)]).Nodup
      ∧ ∃ written : List (Bytes × Bytes),
        Marshal (.struct [(⟨ascii "Announce", [], ascii "announce"⟩, .str (ascii "https://tracker")),
            (⟨ascii "Created", [], ascii "-"⟩, .int 12345),
            (⟨ascii "secret", ascii "main", []⟩, .int 7),
            (⟨ascii "Size", [], []⟩, .int 1024)])
          = .ok (100 :: joinEntries written ++ [101])
        ∧ ∀ k vb, (k, vb) ∈ written ↔
            ∃ f x, (f, x) ∈ [((⟨ascii "Announce", [], ascii "announce"⟩ : StructField),
                  GoValue.str (ascii "https://tracker")),
                (⟨ascii "Created", [], ascii "-"⟩, GoValue.int 12345),
                (⟨ascii "secret", ascii "main", []⟩, GoValue.int 7),
                (⟨ascii "Size", [], []⟩, GoValue.int 1024)]
              ∧ f.pkgPath = [] ∧ f.tag ≠ [45]
              ∧ k = (if f.tag = [] then f.name else f.tag) ∧ marshalValue x = .ok vb :=
  ⟨by decide, marshal_struct_fields _ (by decide)⟩

/-! ## Pointers, wrappers and unsupported shapes -/

theorem marshalValue_follow : ∀ v : GoValue, marshalValue (follow v) = marshalValue v
  | .ptr (some x) => by
    simp only [follow, marshalValue]
    exact marshalValue_follow x
  | .iface (some x) => by
    simp only [follow, marshalValue]
    exact marshalValue_follow x
  | .ptr none => rfl
  | .iface none => rfl
  | .int _ => rfl
  | .uint _ => rfl
  | .str _ => rfl
  | .seq _ => rfl
  | .struct _ => rfl
  | .map _ => rfl
  | .other => rfl

theorem follow_cases : ∀ v : GoValue,
    supportedShape (follow v) = true ∨ isNil (follow v) = true ∨ follow v = .other
  | .ptr (some x) => by
    simp only [follow]
    exact follow_cases x
  | .iface (some x) => by
    simp only [follow]
    exact follow_cases x
  | .ptr none => Or.inr (Or.inl rfl)
  | .iface none => Or.inr (Or.inl rfl)
  | .int _ => Or.inl rfl
  | .uint _ => Or.inl rfl
  | .str _ => Or.inl rfl
  | .seq _ => Or.inl rfl
  | .struct _ => Or.inl rfl
  | .map _ => Or.inl rfl
  | .other => Or.inr (Or.inr rfl)

theorem marshalValue_supported {w : GoValue} (h : supportedShape w = true) :
    ∃ out, marshalValue w = .ok out := by
  cases w <;> simp [supportedShape] at h <;> simp [marshalValue]

theorem marshalValue_nil {w : GoValue} (h : isNil w = true) : marshalValue w = .ok [] := by
  cases w <;> simp [isNil] at h
  · rename_i t; cases t <;> simp [isNil] at h; rfl
  · rename_i t; cases t <;> simp [isNil] at h; rfl

/-! ## Unmarshal -/

/-- C9. Destination check comes first: for every byte input, if the argument of
`Unmarshal` is not a non-nil pointer, `Unmarshal` returns the error "must be a
non-nil pointer" and leaves the argument as it is; the outcome is the same for
every input, so it is never a parse error. -/
theorem unmarshal_destination_check (data : Bytes) (elemType : GoType) (v : GoValue)
    (h : ∀ x, v ≠ .ptr (some x)) :
    Unmarshal data elemType v = .returned (some .mustBeNonNilPointer) v
      ∧ ∀ data', Unmarshal data' elemType v = Unmarshal data elemType v := by
  have key : ∀ d, Unmarshal d elemType v = .returned (some .mustBeNonNilPointer) v := by
    intro d
    unfold Unmarshal
    split
    · rename_i x; exact absurd rfl (h x)
    · rfl
  exact ⟨key data, fun d => by rw [key d, key data]⟩

/-- C9 at a nil pointer and the malformed input `5:ab`. -/
theorem unmarshal_destination_check_witness :
    (∀ x, GoValue.ptr none ≠ .ptr (some x))
      ∧ (Unmarshal (ascii "5:ab") (.int 64) (.ptr none)
          = .returned (some .mustBeNonNilPointer) (.ptr none)
        ∧ ∀ data', Unmarshal data' (.int 64) (.ptr none)
            = Unmarshal (ascii "5:ab") (.int 64) (.ptr none)) :=
  ⟨(fun _ h => by cases h),
    unmarshal_destination_check (ascii "5:ab") (.int 64) (.ptr none) (fun _ h => by cases h)⟩

/-- C10. Input errors are atomic: for a destination `x` reached through a
non-nil pointer and every byte input on which the parser reports an error,
`Unmarshal` returns that error and the destination holds the value it held
before. Empty input fails with "empty data", and a leading byte that is not
`i`, `l`, `d` or a digit fails with "invalid format". Whatever the argument `v`
is, on such an input `Unmarshal` returns an error and leaves `v` as it was. -/
theorem unmarshal_input_error_atomic (data : Bytes) (elemType : GoType) (x : GoValue)
    (e : GoError) (h : parseBencode data = .err e) :
    Unmarshal data elemType (.ptr (some x)) = .returned (some e) (.ptr (some x))
      ∧ Unmarshal [] elemType (.ptr (some x)) = .returned (some .emptyData) (.ptr (some x))
      ∧ (∀ c cs, c ≠ 105 → c ≠ 108 → c ≠ 100 → ¬ (48 ≤ c ∧ c ≤ 57) →
          Unmarshal (c :: cs) elemType (.ptr (some x))
            = .returned (some .invalidFormat) (.ptr (some x)))
      ∧ ∀ v, ∃ e', Unmarshal data elemType v = .returned (some e') v := by
  refine ⟨?_, rfl, ?_, ?_⟩
  · simp only [Unmarshal, h]
  · intro c cs h1 h2 h3 h4
    have : parseBencode (c :: cs) = .err .invalidFormat := by
      simp only [parseBencode, if_neg h1, if_neg h2, if_neg h3, if_neg h4]
    simp only [Unmarshal, this]
  · intro v
    unfold Unmarshal
    split
    · exact ⟨e, by simp only [h]⟩
    · exact ⟨_, rfl⟩

/-- C10 at the truncated string `5:ab` and an integer destination holding 7. -/
theorem unmarshal_input_error_atomic_witness :
    parseBencode (ascii "5:ab") = .err .stringLengthExceedsData
      ∧ (Unmarshal (ascii "5:ab") (.int 64) (.ptr (some (.int 7)))
          = .returned (some .stringLengthExceedsData) (.ptr (some (.int 7)))
        ∧ Unmarshal [] (.int 64) (.ptr (some (.int 7)))
          = .returned (some .emptyData) (.ptr (some (.int 7)))
        ∧ (∀ c cs, c ≠ 105 → c ≠ 108 → c ≠ 100 → ¬ (48 ≤ c ∧ c ≤ 57) →
            Unmarshal (c :: cs) (.int 64) (.ptr (some (.int 7)))
              = .returned (some .invalidFormat) (.ptr (some (.int 7))))
        ∧ ∀ v, ∃ e', Unmarshal (ascii "5:ab") (.int 64) v = .returned (some e') v) :=
  ⟨rfl, unmarshal_input_error_atomic (ascii "5:ab") (.int 64) (.int 7)
    .stringLengthExceedsData rfl⟩

/-! ## C18, C20, C15, C16 -/

theorem writeElems_eq_join (rs : List (Except GoError Bytes)) :
    writeElems rs = (rs.filterMap okBytes).flatten := by
  induction rs with
  | nil => rfl
  | cons r rs ih =>
    cases r with
    | ok b => simp [writeElems, okBytes, ih]
    | error e => simp [writeElems, okBytes, ih]

/-- C18. Sequence encoding with silent omission: for every sequence `xs`,
`Marshal` succeeds and returns `l`, then the concatenation, in index order, of
the encodings of exactly those elements whose own encoding succeeds, then `e`.
For `["hello", "world"]` the result is `l5:hello5:worlde`, and an element of an
unsupported kind between two integers leaves `li1ei2ee`. -/
theorem marshal_sequence (xs : List GoValue) :
    Marshal (.seq xs)
        = .ok (108 :: (xs.filterMap (fun x => okBytes (marshalValue x))).flatten ++ [101])
      ∧ Marshal (.seq [.str (ascii "hello"), .str (ascii "world")])
        = .ok (ascii "l5:hello5:worlde")
      ∧ Marshal (.seq [.int 1, .other, .int 2]) = .ok (ascii "li1ei2ee") := by
  refine ⟨?_, by decide, by decide⟩
  simp only [Marshal, marshalValue, writeElems_eq_join, marshalElems_eq_map,
    List.filterMap_map]
  rfl

theorem parseBencode_int_token (body : Bytes) (h : 101 ∉ body) :
    parseBencode (105 :: body ++ [101])
      = match parseInt body with
        | .error e => .err e
        | .ok num => .ok (.int num) := by
  have hi : indexByte (105 :: (body ++ [101])) 101 = some (body.length + 1) := by
    have h' : (101 : Nat) ∉ 105 :: body := by
      intro hm
      rcases List.mem_cons.1 hm with hm | hm
      · omega
      · exact h hm
    have := indexByte_append h' []
    simpa using this
  have ht : ((105 :: (body ++ [101])).take (body.length + 1)).drop 1 = body := by
    simp [List.take_left']
  simp only [parseBencode, List.cons_append, if_true, hi, ht]

/-- C20. Large unsigned integers do not round trip: for every unsigned 64-bit
value `u`, `Marshal` succeeds and returns `i`, the decimal numeral of `u`, `e`;
when `u ≥ 2^63` `parseBencode` fails on that output with the out-of-range error
of `strconv.ParseInt`, and when `u < 2^63` it returns the Integer `u`. -/
theorem marshal_large_unsigned (u : Nat) (hu : u < 2 ^ 64) :
    Marshal (.uint u) = .ok (105 :: decimal u ++ [101])
      ∧ (2 ^ 63 ≤ u → parseBencode (105 :: decimal u ++ [101]) = .err .numOutOfRange)
      ∧ (u < 2 ^ 63 → parseBencode (105 :: decimal u ++ [101]) = .ok (.int u)) := by
  have he : (101 : Nat) ∉ decimal u := by
    intro h
    have := decimal_digit h
    omega
  refine ⟨by simp [Marshal, marshalValue, formatUint_eq], ?_, ?_⟩
  · intro h63
    rw [parseBencode_int_token _ he]
    obtain ⟨d, ds, h, hd1, hd2⟩ := decimal_cons u
    have hp : parseInt (decimal u) = .error .numOutOfRange := by
      unfold parseInt
      rw [h]
      simp only
      have h43 : ¬ (d = 43 ∨ d = 45) := by omega
      have h45 : ¬ d = 45 := by omega
      rw [if_neg h43, ← h, parseUint_decimal hu]
      simp only [h45, decide_False]
      rw [if_pos (by simp; omega)]
    rw [hp]
  · intro h63
    rw [parseBencode_int_token _ he, parseInt_decimal h63]

/-- C20 at the largest unsigned value and at `2^63`. -/
theorem marshal_large_unsigned_witness :
    2 ^ 63 < 2 ^ 64
      ∧ (Marshal (.uint (2 ^ 63)) = .ok (105 :: decimal (2 ^ 63) ++ [101])
        ∧ (2 ^ 63 ≤ 2 ^ 63 →
            parseBencode (105 :: decimal (2 ^ 63) ++ [101]) = .err .numOutOfRange)
        ∧ (2 ^ 63 < 2 ^ 63 →
            parseBencode (105 :: decimal (2 ^ 63) ++ [101]) = .ok (.int ((2 ^ 63 : Nat) : Int)))) :=
  ⟨by decide, marshal_large_unsigned (2 ^ 63) (by decide)⟩

/-- C15. Integer scalar binding: for every decoded Integer `n` and every signed
integer destination of width `w` in {8, 16, 32, 64}, `assignValue` returns no
error and stores `n` converted to width `w`: `n` itself when it fits in `w`
bits, and in every case the number of `w` bits in two's complement that is
congruent to `n` modulo `2^w`. Decoding `i1e` into such a destination stores 1. -/
theorem assign_int_scalar (w : Nat) (hw : w = 8 ∨ w = 16 ∨ w = 32 ∨ w = 64) (n : Int)
    (dst : GoValue) :
    assignValue (.int w) dst (.int n) = (.int (convertInt w n), none)
      ∧ (-(2 ^ (w - 1)) ≤ n ∧ n < 2 ^ (w - 1) → convertInt w n = n)
      ∧ -(2 ^ (w - 1)) ≤ convertInt w n ∧ convertInt w n < 2 ^ (w - 1)
      ∧ (convertInt w n - n) % 2 ^ w = 0
      ∧ Unmarshal (ascii "i1e") (.int w) (.ptr (some dst))
          = .returned none (.ptr (some (.int 1))) := by
  have hp : parseBencode (ascii "i1e") = .ok (.int 1) := rfl
  refine ⟨rfl, ?_, ?_, ?_, ?_, ?_⟩
  · rintro ⟨h1, h2⟩
    unfold convertInt
    rcases hw with rfl | rfl | rfl | rfl <;> norm_num at h1 h2 ⊢ <;> omega
  · unfold convertInt
    rcases hw with rfl | rfl | rfl | rfl <;> norm_num <;> omega
  · unfold convertInt
    rcases hw with rfl | rfl | rfl | rfl <;> norm_num <;> omega
  · unfold convertInt
    rcases hw with rfl | rfl | rfl | rfl <;> norm_num <;> omega
  · have h1 : convertInt w 1 = 1 := by
      unfold convertInt
      rcases hw with rfl | rfl | rfl | rfl <;> norm_num
    simp only [Unmarshal, hp, assignValue, convertScalar, h1]

/-- C15 at width 8 and the Integer 300, which is stored as 44. -/
theorem assign_int_scalar_witness :
    (8 = 8 ∨ 8 = 16 ∨ 8 = 32 ∨ 8 = 64)
      ∧ assignValue (.int 8) (.int 0) (.int 300) = (.int 44, none)
      ∧ (assignValue (.int 8) (.int 0) (.int 300) = (.int (convertInt 8 300), none)
        ∧ (-(2 ^ (8 - 1)) ≤ (300 : Int) ∧ (300 : Int) < 2 ^ (8 - 1) → convertInt 8 300 = 300)
        ∧ -(2 ^ (8 - 1)) ≤ convertInt 8 300 ∧ convertInt 8 300 < 2 ^ (8 - 1)
        ∧ (convertInt 8 300 - 300) % 2 ^ 8 = 0
        ∧ Unmarshal (ascii "i1e") (.int 8) (.ptr (some (.int 0)))
            = .returned none (.ptr (some (.int 1)))) :=
  ⟨Or.inl rfl, rfl, assign_int_scalar 8 (Or.inl rfl) 300 (.int 0)⟩

/-- C16 fails on the code: `parseBencode` panics on an input that ends inside a
nested list (`parseList` slices `data[1:]` of empty data), on one that ends
right after a dictionary key (`parseElement` reads `data[0]` of empty data),
on a dictionary key with a negative length prefix and on a length prefix whose
end offset overflows (`parseString` slices with a start above the end). -/
theorem decoder_panics :
    parseBencode (ascii "ll") = .panic
      ∧ parseBencode (ascii "d1:a") = .panic
      ∧ parseBencode (ascii "d-1:a") = .panic
      ∧ parseBencode (ascii "9223372036854775807:") = .panic :=
  ⟨rfl, rfl, rfl, rfl⟩

/-! ## C19 -/

theorem parseBencode_encode_append (w : Value) (hv : w.valid = true) (t : Bytes)
    (hl : (encode w ++ t).length < 2 ^ 63) : parseBencode (encode w ++ t) = .ok w := by
  cases w with
  | int n =>
    simp only [Value.valid, decide_eq_true_eq] at hv
    obtain ⟨hi, ht, _⟩ := int_token n t
    have hd : encode (.int n) ++ t = 105 :: (formatInt n ++ 101 :: t) := by simp [encode]
    rw [hd]
    simp only [parseBencode, if_true, hi, ht, parseInt_formatInt hv.1 hv.2]
  | str s =>
    have hp := parseString_encodeString s t (by simpa [encode] using hl)
    obtain ⟨d, ds, h, hd1, hd2⟩ := encodeString_cons s
    simp only [encode]
    rw [h] at hp ⊢
    simp only [List.cons_append] at hp ⊢
    simp only [parseBencode]
    rw [if_neg (by omega), if_neg (by omega), if_neg (by omega), if_pos ⟨hd1, hd2⟩, hp]
  | list xs =>
    simp only [Value.valid] at hv
    have hd : encode (.list xs) ++ t = 108 :: (encodeList xs ++ 101 :: t) := by simp [encode]
    rw [hd] at hl ⊢
    simp only [List.length_cons, List.length_append] at hl
    have := parseBencodeList_encode xs hv (fuelFor (108 :: (encodeList xs ++ 101 :: t))) t []
      (by simp only [fuelFor, List.length_cons, List.length_append]; omega)
      (by simp only [List.length_cons, List.length_append]; omega)
    simp [parseBencode, this]
  | dict m =>
    simp only [Value.valid, Bool.and_eq_true, decide_eq_true_eq] at hv
    have hd : encode (.dict m) ++ t = 100 :: (encodeEntries m ++ 101 :: t) := by simp [encode]
    rw [hd] at hl ⊢
    simp only [List.length_cons, List.length_append] at hl
    have := parseBencodeDict_encode m hv.2 (fuelFor (100 :: (encodeEntries m ++ 101 :: t))) t []
      (by simp only [fuelFor, List.length_cons, List.length_append]; omega)
      (by simp only [List.length_cons, List.length_append]; omega)
    rw [foldl_assocSet_append m [] (by simpa using hv.1)] at this
    simp [parseBencode, this]

/-- C19. Trailing bytes are ignored at top level: for every tree `v` of 64-bit
integers, byte strings, lists and string-keyed dictionaries with distinct keys
and every byte sequence `t`, `parseBencode` on the encoding of `v` followed by
`t` succeeds and returns the value it returns on the encoding alone. The length
condition holds for every Go byte slice. -/
theorem parse_ignores_trailing (v : Value) (hv : v.valid = true) (t : Bytes) :
    ∃ out, marshalValue (toGo v) = .ok out
      ∧ ((out ++ t).length < 2 ^ 63 →
          ∃ w, parseBencode (out ++ t) = .ok w ∧ parseBencode out = .ok w) := by
  refine ⟨encode (canon v), marshalValue_toGo v, ?_⟩
  intro hlen
  have hlen' : (encode (canon v)).length < 2 ^ 63 := by
    simp only [List.length_append] at hlen
    omega
  exact ⟨canon v, parseBencode_encode_append (canon v) (canon_valid v hv) t hlen,
    parseBencode_encode (canon v) (canon_valid v hv) hlen'⟩

/-- C19 at the list `[1, "a"]` followed by the bytes `xyz`: the encoding is
`li1e1:ae`, and `li1e1:aexyz` decodes to the same list. -/
theorem parse_ignores_trailing_witness :
    (Value.list [.int 1, .str (ascii "a")]).valid = true
      ∧ marshalValue (toGo (Value.list [.int 1, .str (ascii "a")])) = .ok (ascii "li1e1:ae")
      ∧ (ascii "li1e1:ae" ++ ascii "xyz").length < 2 ^ 63
      ∧ parseBencode (ascii "li1e1:ae" ++ ascii "xyz") = .ok (.list [.int 1, .str (ascii "a")])
      ∧ parseBencode (ascii "li1e1:ae") = .ok (.list [.int 1, .str (ascii "a")])
      ∧ ∃ out, marshalValue (toGo (Value.list [.int 1, .str (ascii "a")])) = .ok out
        ∧ ((out ++ ascii "xyz").length < 2 ^ 63 →
            ∃ w, parseBencode (out ++ ascii "xyz") = .ok w ∧ parseBencode out = .ok w) :=
  ⟨by decide, rfl, by decide, rfl, rfl, parse_ignores_trailing _ (by decide) (ascii "xyz")⟩

/-! ## Length prefixes and C11 -/

theorem foldl_digits_ge (ds : Bytes) : ∀ a : Nat,
    a ≤ ds.foldl (fun a d => 10 * a + (d - 48)) a := by
  induction ds with
  | nil => intro a; simp
  | cons d ds ih =>
    intro a
    simp only [List.foldl_cons]
    have := ih (10 * a + (d - 48))
    omega

theorem parseUintLoop_digits (ds : Bytes) (hd : ∀ d ∈ ds, 48 ≤ d ∧ d ≤ 57) : ∀ a : Nat,
    a < 2 ^ 64 →
    parseUintLoop ds a
      = if ds.foldl (fun a d => 10 * a + (d - 48)) a < 2 ^ 64
        then .ok (ds.foldl (fun a d => 10 * a + (d - 48)) a)
        else .error .numOutOfRange := by
  induction ds with
  | nil =>
    intro a ha
    simp only [parseUintLoop, List.foldl_nil, if_pos ha]
  | cons d ds ih =>
    intro a ha
    have hd' := hd d (List.mem_cons_self _ _)
    have hge := foldl_digits_ge ds (10 * a + (d - 48))
    simp only [parseUintLoop, List.foldl_cons]
    rw [if_pos hd']
    split
    · rename_i hcut
      rw [if_neg]
      norm_num at hcut
      omega
    · rename_i hcut
      norm_num at hcut
      split
      · rename_i hover
        rw [if_neg]
        omega
      · rename_i hover
        rw [show a * 10 + (d - 48) = 10 * a + (d - 48) by omega]
        exact ih (fun x hx => hd x (List.mem_cons_of_mem _ hx)) _ (by omega)

theorem isDigits_iff (ds : Bytes) :
    isDigits ds = true ↔ ds ≠ [] ∧ ∀ d ∈ ds, 48 ≤ d ∧ d ≤ 57 := by
  cases ds with
  | nil => simp [isDigits]
  | cons d ds => simp [isDigits]

theorem parseInt_digits {ds : Bytes} (hd : isDigits ds = true) :
    parseInt ds
      = if digitsValue ds < 2 ^ 63 then .ok (digitsValue ds : Int)
        else .error .numOutOfRange := by
  obtain ⟨hne, hall⟩ := (isDigits_iff ds).1 hd
  cases hds : ds with
  | nil => exact absurd hds hne
  | cons d cs =>
    have hd1 := hall d (by rw [hds]; exact List.mem_cons_self _ _)
    have hu : parseUint (d :: cs)
        = if digitsValue (d :: cs) < 2 ^ 64 then .ok (digitsValue (d :: cs))
          else .error .numOutOfRange := by
      unfold parseUint
      simp only
      rw [← hds]
      exact parseUintLoop_digits ds hall 0 (by norm_num)
    unfold parseInt
    simp only
    have h43 : ¬ (d = 43 ∨ d = 45) := by omega
    have h45 : ¬ d = 45 := by omega
    rw [if_neg h43, hu]
    by_cases h64 : digitsValue (d :: cs) < 2 ^ 64
    · rw [if_pos h64]
      simp only [h45, decide_False]
      by_cases h63 : digitsValue (d :: cs) < 2 ^ 63
      · rw [if_pos h63, if_neg (by simp; omega), if_neg (by simp)]
        simp
      · rw [if_neg h63, if_pos (by simp; omega)]
    · rw [if_neg h64, if_neg (by omega)]

theorem digits_head {ds : Bytes} (hd : isDigits ds = true) :
    ∃ d cs, ds = d :: cs ∧ 48 ≤ d ∧ d ≤ 57 := by
  obtain ⟨hne, hall⟩ := (isDigits_iff ds).1 hd
  cases ds with
  | nil => exact absurd rfl hne
  | cons d cs => exact ⟨d, cs, rfl, hall d (List.mem_cons_self _ _)⟩

/-- The outcome of `parseString` on digits, a colon and fewer bytes than the
digits announce. -/
theorem parseString_truncated {ds rest : Bytes} (hd : isDigits ds = true)
    (hshort : rest.length < digitsValue ds) :
    (ds.length + 1 + digitsValue ds < 2 ^ 63 →
        parseString (ds ++ 58 :: rest) = .err .stringLengthExceedsData)
      ∧ (2 ^ 63 ≤ digitsValue ds → parseString (ds ++ 58 :: rest) = .err .numOutOfRange) := by
  obtain ⟨_, hall⟩ := (isDigits_iff ds).1 hd
  have hcolon : (58 : Nat) ∉ ds := by
    intro h
    have := hall 58 h
    omega
  constructor
  · intro hfit
    unfold parseString
    rw [indexByte_append hcolon]
    simp only [List.take_left', atoi]
    rw [parseInt_digits hd, if_pos (by omega)]
    simp only
    have hw : wrapInt64 ((ds.length : Int) + 1 + (digitsValue ds : Int))
        = ((ds.length + 1 + digitsValue ds : Nat) : Int) := by
      unfold wrapInt64
      omega
    rw [hw, if_pos (by simp only [List.length_append, List.length_cons]; omega)]
  · intro hbig
    unfold parseString
    rw [indexByte_append hcolon]
    simp only [List.take_left', atoi]
    rw [parseInt_digits hd, if_neg (by omega)]

/-- An error of `parseString` on data that starts with a digit is the outcome
of every decoder function that reaches this data as an element or as a
dictionary key. -/
theorem string_error_propagates {data : Bytes} {e : GoError}
    (hhead : ∃ d cs, data = d :: cs ∧ 48 ≤ d ∧ d ≤ 57)
    (hS : parseString data = .err e) :
    parseBencode data = .err e
      ∧ (∀ fuel, parseElement (fuel + 1) data = .err e)
      ∧ (∀ fuel acc, parseListLoop (fuel + 2) data acc = .err e)
      ∧ (∀ fuel acc, parseDictLoop (fuel + 1) data acc = .err e)
      ∧ parseBencode (108 :: data) = .err e
      ∧ parseBencode (100 :: data) = .err e := by
  obtain ⟨d, cs, rfl, hd1, hd2⟩ := hhead
  have hE : ∀ fuel, parseElement (fuel + 1) (d :: cs) = .err e := by
    intro fuel
    simp only [parseElement]
    rw [if_neg (by omega), if_neg (by omega), if_neg (by omega), if_pos ⟨hd1, hd2⟩, hS]
  refine ⟨?_, hE, ?_, ?_, ?_, ?_⟩
  · simp only [parseBencode]
    rw [if_neg (by omega), if_neg (by omega), if_neg (by omega), if_pos ⟨hd1, hd2⟩, hS]
  · intro fuel acc
    simp only [parseListLoop]
    rw [if_neg (by omega), hE]
  · intro fuel acc
    simp only [parseDictLoop]
    rw [if_neg (by omega), hS]
  · have hL : ∀ fuel acc, parseBencodeList (fuel + 2) (d :: cs) acc = .err e := by
      intro fuel acc
      simp only [parseBencodeList]
      rw [if_neg (by omega), hE]
    have hf : fuelFor (108 :: d :: cs) = (3 * (cs.length + 1 + 1) + 1) + 2 := rfl
    simp only [parseBencode, hf, hL]
    simp
  · have hD : ∀ fuel acc, parseBencodeDict (fuel + 1) (d :: cs) acc = .err e := by
      intro fuel acc
      simp only [parseBencodeDict]
      rw [if_neg (by omega), hS]
    have hf : fuelFor (100 :: d :: cs) = (3 * (cs.length + 1 + 1) + 2) + 1 := rfl
    simp only [parseBencode, hf, hD]
    simp

/-- C11 as stated fails for a declared length of `2^63` or more: the length
prefix `9223372036854775808` is followed by no byte at all, and decoding fails
with the out-of-range error of `strconv.Atoi`, not with "string length exceeds
data". -/
theorem truncated_string_counterexample :
    isDigits (ascii "9223372036854775808") = true
      ∧ ([] : Bytes).length < digitsValue (ascii "9223372036854775808")
      ∧ parseBencode (ascii "9223372036854775808" ++ 58 :: []) = .err .numOutOfRange
      ∧ parseBencode (ascii "9223372036854775808" ++ 58 :: [])
          ≠ .err .stringLengthExceedsData := by
  refine ⟨by decide, by decide, rfl, ?_⟩
  intro h
  have h2 : parseBencode (ascii "9223372036854775808" ++ 58 :: []) = .err .numOutOfRange := rfl
  rw [h2] at h
  cases h

/-- C11, amended. Truncated strings are rejected: for every input made of
decimal digits that denote `n`, a colon and fewer than `n` bytes, decoding fails
with "string length exceeds data" when the end offset (number of digits + 1 +
`n`) is below `2^63`, and with the out-of-range error of `strconv.Atoi` when
`n ≥ 2^63`. This is the outcome for a top-level string, for a string that the
decoder reaches as an element of a list or as a dictionary value
(`parseElement`, `parseListLoop`), for a dictionary key (`parseDictLoop`), and
for the first element of a top-level list and the first key of a top-level
dictionary. -/
theorem truncated_string_rejected (ds rest : Bytes) (hd : isDigits ds = true)
    (hshort : rest.length < digitsValue ds) :
    (ds.length + 1 + digitsValue ds < 2 ^ 63 →
        parseBencode (ds ++ 58 :: rest) = .err .stringLengthExceedsData
          ∧ (∀ fuel, parseElement (fuel + 1) (ds ++ 58 :: rest) = .err .stringLengthExceedsData)
          ∧ (∀ fuel acc, parseListLoop (fuel + 2) (ds ++ 58 :: rest) acc
              = .err .stringLengthExceedsData)
          ∧ (∀ fuel acc, parseDictLoop (fuel + 1) (ds ++ 58 :: rest) acc
              = .err .stringLengthExceedsData)
          ∧ parseBencode (108 :: (ds ++ 58 :: rest)) = .err .stringLengthExceedsData
          ∧ parseBencode (100 :: (ds ++ 58 :: rest)) = .err .stringLengthExceedsData)
      ∧ (2 ^ 63 ≤ digitsValue ds →
        parseBencode (ds ++ 58 :: rest) = .err .numOutOfRange
          ∧ parseBencode (108 :: (ds ++ 58 :: rest)) = .err .numOutOfRange
          ∧ parseBencode (100 :: (ds ++ 58 :: rest)) = .err .numOutOfRange) := by
  have hhead : ∃ d cs, ds ++ 58 :: rest = d :: cs ∧ 48 ≤ d ∧ d ≤ 57 := by
    obtain ⟨d, cs, h, hd12⟩ := digits_head hd
    exact ⟨d, cs ++ 58 :: rest, by simp [h], hd12⟩
  obtain ⟨h1, h2⟩ := parseString_truncated hd hshort
  constructor
  · intro hfit
    exact string_error_propagates hhead (h1 hfit)
  · intro hbig
    have := string_error_propagates hhead (h2 hbig)
    exact ⟨this.1, this.2.2.2.2.1, this.2.2.2.2.2⟩

/-- C11, amended, at `5:ab`. -/
theorem truncated_string_rejected_witness :
    isDigits (ascii "5") = true
      ∧ (ascii "ab").length < digitsValue (ascii "5")
      ∧ parseBencode (ascii "5:ab") = .err .stringLengthExceedsData
      ∧ parseBencode (ascii "l5:ab") = .err .stringLengthExceedsData
      ∧ parseBencode (ascii "d5:ab") = .err .stringLengthExceedsData :=
  ⟨by decide, by decide,
    ((truncated_string_rejected (ascii "5") (ascii "ab") (by decide) (by decide)).1
      (by decide)).1,
    ((truncated_string_rejected (ascii "5") (ascii "ab") (by decide) (by decide)).1
      (by decide)).2.2.2.2.1,
    ((truncated_string_rejected (ascii "5") (ascii "ab") (by decide) (by decide)).1
      (by decide)).2.2.2.2.2⟩

/-! ## C14 -/

theorem assignFields_frame (ftypes : List (StructField × GoType)) :
    ∀ (fvals : List (StructField × GoValue)) (srcMap : List (Bytes × Value)) (i : Nat)
      (f : StructField) (t : GoType), ftypes[i]? = some (f, t) →
      (f.pkgPath ≠ [] ∨ f.tag = [45] ∨ assocGet srcMap (effectiveKey f) = none) →
      (assignFields ftypes fvals srcMap).1[i]? = fvals[i]? := by
  induction ftypes with
  | nil => intro fvals srcMap i f t h; simp at h
  | cons ft ftypes ih =>
    obtain ⟨f0, t0⟩ := ft
    intro fvals srcMap i f t h hskip
    cases fvals with
    | nil => simp [assignFields]
    | cons gx fvals =>
      obtain ⟨g, x⟩ := gx
      cases i with
      | zero =>
        simp only [List.getElem?_cons_zero, Option.some.injEq, Prod.mk.injEq] at h
        obtain ⟨rfl, rfl⟩ := h
        simp only [assignFields]
        split
        · simp
        · split
          · simp
          · rename_i h1 h2
            rcases hskip with h3 | h3 | h3
            · exact absurd h3 (by simpa using h1)
            · exact absurd h3 h2
            · simp [h3]
      | succ j =>
        simp only [List.getElem?_cons_succ] at h ⊢
        have := ih fvals srcMap j f t h hskip
        simp only [assignFields]
        split
        · simpa using this
        · split
          · simpa using this
          · split
            · split
              · simp
              · simpa using this
            · simpa using this

theorem assignFields_error (ftypes : List (StructField × GoType)) :
    ∀ (fvals : List (StructField × GoValue)) (srcMap : List (Bytes × Value)) (e : GoError),
      (assignFields ftypes fvals srcMap).2 = some e →
      ∃ (i : Nat) (f : StructField) (t : GoType) (g : StructField) (x : GoValue) (val : Value),
        ftypes[i]? = some (f, t) ∧ fvals[i]? = some (g, x)
        ∧ f.pkgPath = [] ∧ f.tag ≠ [45] ∧ assocGet srcMap (effectiveKey f) = some val
        ∧ (assignValue t x val).2 = some e := by
  induction ftypes with
  | nil => intro fvals srcMap e h; simp [assignFields] at h
  | cons ft ftypes ih =>
    obtain ⟨f0, t0⟩ := ft
    intro fvals srcMap e h
    cases fvals with
    | nil => simp [assignFields] at h
    | cons gx fvals =>
      obtain ⟨g, x⟩ := gx
      have lift : (assignFields ftypes fvals srcMap).2 = some e →
          ∃ (i : Nat) (f : StructField) (t : GoType) (g' : StructField) (x' : GoValue) (val : Value),
            ((f0, t0) :: ftypes)[i]? = some (f, t)
            ∧ ((g, x) :: fvals)[i]? = some (g', x')
            ∧ f.pkgPath = [] ∧ f.tag ≠ [45] ∧ assocGet srcMap (effectiveKey f) = some val
            ∧ (assignValue t x' val).2 = some e := by
        intro h'
        obtain ⟨i, f, t, g', x', val, h1, h2, h3⟩ := ih fvals srcMap e h'
        exact ⟨i + 1, f, t, g', x', val, by simpa using h1, by simpa using h2, h3⟩
      simp only [assignFields] at h
      split at h
      · exact lift (by simpa using h)
      · split at h
        · exact lift (by simpa using h)
        · rename_i h1 h2
          split at h
          · rename_i val hval
            split at h
            · rename_i x' e' hres
              simp only [Option.some.injEq] at h
              subst h
              exact ⟨0, f0, t0, g, x, val, by simp, by simp, by simpa using h1, h2, hval,
                by rw [hres]⟩
            · exact lift (by simpa using h)
          · exact lift (by simpa using h)

/-- C14. Record binding leaves unmatched fields alone: binding a Dictionary to a
record destination changes no field that is unexported, excluded or whose
effective key is missing from the Dictionary, whether the bind succeeds or not
(fields are taken by position); it fails only with the error of binding a
field whose key is present, so a missing key is never the cause of a failure,
and when every key is missing it succeeds and changes nothing. Binding a value
that is not a Dictionary fails with "cannot assign non-map to struct" and
changes nothing. -/
theorem assign_struct_frame (ftypes : List (StructField × GoType))
    (fvals : List (StructField × GoValue)) (srcMap : List (Bytes × Value)) :
    (∃ fvals' err,
        assignValue (.struct ftypes) (.struct fvals) (.dict srcMap) = (.struct fvals', err)
        ∧ (∀ (i : Nat) f t, ftypes[i]? = some (f, t) →
            (f.pkgPath ≠ [] ∨ f.tag = [45] ∨ assocGet srcMap (effectiveKey f) = none) →
            fvals'[i]? = fvals[i]?)
        ∧ (∀ e, err = some e →
            ∃ (i : Nat) (f : StructField) (t : GoType) (g : StructField) (x : GoValue) (val : Value),
        ftypes[i]? = some (f, t) ∧ fvals[i]? = some (g, x)
              ∧ f.pkgPath = [] ∧ f.tag ≠ [45] ∧ assocGet srcMap (effectiveKey f) = some val
              ∧ (assignValue t x val).2 = some e))
      ∧ ((∀ f t, (f, t) ∈ ftypes → assocGet srcMap (effectiveKey f) = none) →
          assignValue (.struct ftypes) (.struct fvals) (.dict srcMap) = (.struct fvals, none))
      ∧ (∀ dst src, (∀ m, src ≠ .dict m) →
          assignValue (.struct ftypes) dst src = (dst, some .nonMapToStruct)) := by
  have hres : assignValue (.struct ftypes) (.struct fvals) (.dict srcMap)
      = (.struct (assignFields ftypes fvals srcMap).1, (assignFields ftypes fvals srcMap).2) := by
    simp only [assignValue]
  refine ⟨⟨_, _, hres, fun i f t h hs => assignFields_frame ftypes fvals srcMap i f t h hs,
    fun e he => assignFields_error ftypes fvals srcMap e he⟩, ?_, ?_⟩
  · intro hmiss
    have hnone : (assignFields ftypes fvals srcMap).2 = none := by
      cases h : (assignFields ftypes fvals srcMap).2 with
      | none => rfl
      | some e =>
        obtain ⟨i, f, t, g, x, val, h1, _, _, _, h5, _⟩ := assignFields_error _ _ _ e h
        have hm : (f, t) ∈ ftypes := List.getElem?_mem h1
        rw [hmiss f t hm] at h5
        cases h5
    have hsame : (assignFields ftypes fvals srcMap).1 = fvals := by
      have key : ∀ (ftypes : List (StructField × GoType)) (fvals : List (StructField × GoValue)),
          (∀ f t, (f, t) ∈ ftypes → assocGet srcMap (effectiveKey f) = none) →
          (assignFields ftypes fvals srcMap).1 = fvals := by
        intro ftypes
        induction ftypes with
        | nil => intro fvals _; simp [assignFields]
        | cons ft ftypes ih =>
          obtain ⟨f0, t0⟩ := ft
          intro fvals hm
          cases fvals with
          | nil => simp [assignFields]
          | cons gx fvals =>
            obtain ⟨g, x⟩ := gx
            have h0 := hm f0 t0 (List.mem_cons_self _ _)
            have ih' := ih fvals (fun f t h => hm f t (List.mem_cons_of_mem _ h))
            simp only [assignFields, h0]
            split
            · simp [ih']
            · split <;> simp [ih']
      exact key ftypes fvals hmiss
    rw [hres, hnone, hsame]
  · intro dst src hsrc
    cases src with
    | dict m => exact absurd rfl (hsrc m)
    | int n => simp only [assignValue]
    | str s => simp only [assignValue]
    | list xs => simp only [assignValue]

/-! ## C17 -/

theorem joinEntries_append (pre post : List (Bytes × Bytes)) :
    joinEntries (pre ++ post) = joinEntries pre ++ joinEntries post := by
  induction pre with
  | nil => rfl
  | cons p pre ih => obtain ⟨k, vb⟩ := p; simp [joinEntries, ih]

theorem lastField_map {α β : Type} (g : α → β) (fs : List (StructField × α)) (k : Bytes) :
    lastField (fs.map (fun p => (p.1, g p.2))) k = (lastField fs k).map g := by
  induction fs with
  | nil => rfl
  | cons p fs ih =>
    obtain ⟨f, x⟩ := p
    simp only [List.map_cons, lastField, ih]
    cases lastField fs k with
    | some y => rfl
    | none =>
      simp only [Option.map_none']
      split <;> rfl

/-- What the struct case writes: the entries, in ascending key order, are
exactly the keys under which the record has a field that encodes, each with the
encoding of the field declared last under that key. -/
theorem struct_written (fs : List (StructField × GoValue)) :
    ∃ written : List (Bytes × Bytes),
      Marshal (.struct fs) = .ok (100 :: joinEntries written ++ [101])
      ∧ (written.map Prod.fst).Sorted (· < ·)
      ∧ ∀ k vb, (k, vb) ∈ written ↔ ∃ x, lastField fs k = some x ∧ marshalValue x = .ok vb := by
  refine ⟨_, marshal_struct_eq fs, ?_, ?_⟩
  · exact List.Pairwise.sublist (writtenEntries_keys_sublist _ _)
      (sortStrings_strict (nodup_keys_collectFields _ [] (by simp)))
  · intro k vb
    rw [mem_writtenEntries, marshalFields_eq_map, lastField_map]
    constructor
    · rintro ⟨_, hv⟩
      simpa [Option.map_eq_some'] using hv
    · intro hx
      have hv : (lastField fs k).map marshalValue = some (.ok vb) := by
        simpa [Option.map_eq_some'] using hx
      refine ⟨?_, hv⟩
      rw [List.Perm.mem_iff (sortStrings_perm _), keys_collectFields_iff,
        ← lastField_isSome_iff, lastField_map]
      exact ⟨_, hv⟩

/-- What the map case writes: the entries, in ascending key order, are exactly
the string keys whose value encodes, each with the encoding of its value. -/
theorem map_written (entries : List (GoValue × GoValue)) (hkeys : (stringKeys entries).Nodup) :
    ∃ written : List (Bytes × Bytes),
      Marshal (.map entries) = .ok (100 :: joinEntries written ++ [101])
      ∧ (written.map Prod.fst).Sorted (· < ·)
      ∧ ∀ k vb, (k, vb) ∈ written ↔
          ∃ x, (GoValue.str k, x) ∈ entries ∧ marshalValue x = .ok vb := by
  refine ⟨_, marshal_map_eq entries, ?_, ?_⟩
  · exact List.Pairwise.sublist (writtenEntries_keys_sublist _ _) (sortStrings_strict hkeys)
  · intro k vb
    rw [mem_writtenEntries]
    constructor
    · rintro ⟨_, hv⟩
      simp only [Option.map_eq_some'] at hv
      obtain ⟨x, hx, hm⟩ := hv
      exact ⟨x, mapIndex_mem hx, hm⟩
    · rintro ⟨x, hx, hm⟩
      refine ⟨?_, ?_⟩
      · rw [List.Perm.mem_iff (sortStrings_perm _)]
        exact mem_stringKeys hx
      · rw [mapIndex_of_mem hkeys hx]
        simp [hm]

theorem writeElems_nil_elem (xs ys : List GoValue) (z : GoValue) (hz : isNil z = true) :
    writeElems (marshalElems (xs ++ z :: ys)) = writeElems (marshalElems (xs ++ ys)) := by
  induction xs with
  | nil => simp [marshalElems, marshalValue_nil hz, writeElems]
  | cons x xs ih =>
    simp only [List.cons_append, marshalElems]
    cases marshalValue x with
    | ok b => simp only [writeElems, List.append_eq, ih]
    | error e => simp only [writeElems, List.append_eq, ih]

/-- C17. Nil optional emits zero bytes. The entries of the dictionary that
`Marshal` writes for a record are, per key, the exported, non-excluded field
declared last under that key, and for a mapping its string-keyed entries. For
every record with an entry `k` whose value is a nil pointer or nil wrapper, and
every mapping with such an entry `k'`, `Marshal` succeeds and the output is
`d`, the entries written before, the key token of the entry, the entries
written after, `e`: the key token is followed immediately by the key token of
the next written entry, or by the closing `e` when there is none. The written
entries are in ascending key order and each is an entry of the source with the
encoding of its value. A nil element of a sequence contributes no bytes. -/
theorem marshal_nil_entry (fs : List (StructField × GoValue)) (k : Bytes) (v : GoValue)
    (hentry : lastField fs k = some v) (hnil : isNil v = true)
    (entries : List (GoValue × GoValue)) (k' : Bytes) (v' : GoValue)
    (hkeys : (stringKeys entries).Nodup) (hentry' : (GoValue.str k', v') ∈ entries)
    (hnil' : isNil v' = true)
    (xs ys : List GoValue) (z : GoValue) (hz : isNil z = true) :
    (∃ pre post : List (Bytes × Bytes),
        Marshal (.struct fs)
          = .ok (100 :: (joinEntries pre ++ encodeString k ++ joinEntries post) ++ [101])
        ∧ ((pre ++ (k, []) :: post).map Prod.fst).Sorted (· < ·)
        ∧ ∀ p ∈ pre ++ post, ∃ x, lastField fs p.1 = some x ∧ marshalValue x = .ok p.2)
      ∧ (∃ pre post : List (Bytes × Bytes),
        Marshal (.map entries)
          = .ok (100 :: (joinEntries pre ++ encodeString k' ++ joinEntries post) ++ [101])
        ∧ ((pre ++ (k', []) :: post).map Prod.fst).Sorted (· < ·)
        ∧ ∀ p ∈ pre ++ post, ∃ x, (GoValue.str p.1, x) ∈ entries ∧ marshalValue x = .ok p.2)
      ∧ Marshal (.seq (xs ++ z :: ys)) = Marshal (.seq (xs ++ ys)) := by
  refine ⟨?_, ?_, ?_⟩
  · obtain ⟨written, hw, hs, hiff⟩ := struct_written fs
    have hm : (k, []) ∈ written := (hiff k []).2 ⟨v, hentry, marshalValue_nil hnil⟩
    obtain ⟨pre, post, rfl⟩ := List.append_of_mem hm
    refine ⟨pre, post, ?_, hs, ?_⟩
    · rw [hw, joinEntries_append]
      simp [joinEntries]
    · rintro ⟨k2, vb2⟩ hp
      apply (hiff k2 vb2).1
      rcases List.mem_append.1 hp with h | h
      · exact List.mem_append_left _ h
      · exact List.mem_append_right _ (List.mem_cons_of_mem _ h)
  · obtain ⟨written, hw, hs, hiff⟩ := map_written entries hkeys
    have hm : (k', []) ∈ written := (hiff k' []).2 ⟨v', hentry', marshalValue_nil hnil'⟩
    obtain ⟨pre, post, rfl⟩ := List.append_of_mem hm
    refine ⟨pre, post, ?_, hs, ?_⟩
    · rw [hw, joinEntries_append]
      simp [joinEntries]
    · rintro ⟨k2, vb2⟩ hp
      apply (hiff k2 vb2).1
      rcases List.mem_append.1 hp with h | h
      · exact List.mem_append_left _ h
      · exact List.mem_append_right _ (List.mem_cons_of_mem _ h)
  · simp only [Marshal, marshalValue, writeElems_nil_elem xs ys z hz]

/-- C17 at the record `{A *int "a" = nil; B int "b" = 1}`, the mapping
`{"t1": nil, "t2": 2}` and the sequence `[1, nil, 2]`; the outputs are
`d1:a1:bi1ee`, `d2:t12:t2i2ee` and `li1ei2ee`. -/
theorem marshal_nil_entry_witness :
    lastField [((⟨ascii "A", [], ascii "a"⟩ : StructField), GoValue.ptr none),
        (⟨ascii "B", [], ascii "b"⟩, GoValue.int 1)] (ascii "a") = some (GoValue.ptr none)
      ∧ (stringKeys [(GoValue.str (ascii "t1"), GoValue.iface none),
          (GoValue.str (ascii "t2"), GoValue.int 2)]).Nodup
      ∧ Marshal (.struct [(⟨ascii "A", [], ascii "a"⟩, .ptr none),
        (⟨ascii "B", [], ascii "b"⟩, .int 1)]) = .ok (ascii "d1:a1:bi1ee")
      ∧ Marshal (.map [(.str (ascii "t1"), .iface none), (.str (ascii "t2"), .int 2)])
        = .ok (ascii "d2:t12:t2i2ee")
      ∧ ((∃ pre post : List (Bytes × Bytes),
          Marshal (.struct [(⟨ascii "A", [], ascii "a"⟩, .ptr none),
              (⟨ascii "B", [], ascii "b"⟩, .int 1)])
            = .ok (100 :: (joinEntries pre ++ encodeString (ascii "a") ++ joinEntries post)
                ++ [101])
          ∧ ((pre ++ (ascii "a", []) :: post).map Prod.fst).Sorted (· < ·)
          ∧ ∀ p ∈ pre ++ post, ∃ x,
              lastField [((⟨ascii "A", [], ascii "a"⟩ : StructField), GoValue.ptr none),
                (⟨ascii "B", [], ascii "b"⟩, GoValue.int 1)] p.1 = some x
              ∧ marshalValue x = .ok p.2)
        ∧ (∃ pre post : List (Bytes × Bytes),
          Marshal (.map [(.str (ascii "t1"), .iface none), (.str (ascii "t2"), .int 2)])
            = .ok (100 :: (joinEntries pre ++ encodeString (ascii "t1") ++ joinEntries post)
                ++ [101])
          ∧ ((pre ++ (ascii "t1", []) :: post).map Prod.fst).Sorted (· < ·)
          ∧ ∀ p ∈ pre ++ post, ∃ x,
              (GoValue.str p.1, x) ∈ [(GoValue.str (ascii "t1"), GoValue.iface none),
                (GoValue.str (ascii "t2"), GoValue.int 2)]
              ∧ marshalValue x = .ok p.2)
        ∧ Marshal (.seq ([.int 1] ++ .ptr none :: [.int 2]))
            = Marshal (.seq ([.int 1] ++ [.int 2]))) :=
  ⟨rfl, by decide, by decide, by decide,
    marshal_nil_entry [(⟨ascii "A", [], ascii "a"⟩, .ptr none),
        (⟨ascii "B", [], ascii "b"⟩, .int 1)] (ascii "a") (.ptr none) rfl rfl
      [(.str (ascii "t1"), .iface none), (.str (ascii "t2"), .int 2)] (ascii "t1") (.iface none)
      (by decide) (List.mem_cons_self _ _) rfl [.int 1] [.int 2] (.ptr none) rfl⟩

/-! ## Decoding well-formed input, and C13 -/

theorem parseUint_digits {ds : Bytes} (hd : isDigits ds = true) :
    parseUint ds
      = if digitsValue ds < 2 ^ 64 then .ok (digitsValue ds) else .error .numOutOfRange := by
  obtain ⟨hne, hall⟩ := (isDigits_iff ds).1 hd
  cases hds : ds with
  | nil => exact absurd hds hne
  | cons d cs =>
    unfold parseUint
    simp only
    rw [← hds]
    exact parseUintLoop_digits ds hall 0 (by norm_num)

theorem parseInt_body {body : Bytes} (hb : isIntBody false body = true)
    (h1 : -(2 ^ 63) ≤ intBodyValue body) (h2 : intBodyValue body < 2 ^ 63) :
    parseInt body = .ok (intBodyValue body) := by
  cases body with
  | nil => simp [isIntBody] at hb
  | cons c cs =>
    simp only [isIntBody] at hb
    simp only [intBodyValue] at h1 h2 ⊢
    by_cases h45 : c = 45
    · subst h45
      simp only [if_true] at hb h1 h2 ⊢
      have hu := parseUint_digits hb
      rw [if_pos (by omega)] at hu
      have hle : ¬ (digitsValue cs > 2 ^ 63) := by omega
      simp only [parseInt, or_true, if_true, hu, decide_True, not_true_eq_false, false_and,
        if_false, true_and, hle]
    · rw [if_neg h45] at hb h1 h2 ⊢
      by_cases h43 : c = 43
      · subst h43
        simp at hb
      · rw [if_neg h43] at hb h1 h2 ⊢
        rw [parseInt_digits hb, if_pos (by omega)]

theorem body_no_e {body : Bytes} (hb : isIntBody false body = true) : 101 ∉ body := by
  cases body with
  | nil => simp
  | cons c cs =>
    simp only [isIntBody] at hb
    by_cases h45 : c = 45
    · subst h45
      simp only [if_true] at hb
      obtain ⟨_, hall⟩ := (isDigits_iff cs).1 hb
      intro h
      rcases List.mem_cons.1 h with h | h
      · omega
      · have := hall 101 h; omega
    · rw [if_neg h45] at hb
      by_cases h43 : c = 43
      · subst h43
        simp at hb
      · rw [if_neg h43] at hb
        obtain ⟨_, hall⟩ := (isDigits_iff (c :: cs)).1 hb
        intro h
        have := hall 101 h
        omega

theorem body_token {body : Bytes} (hb : isIntBody false body = true) (rest : Bytes) :
    indexByte (105 :: (body ++ 101 :: rest)) 101 = some (body.length + 1)
      ∧ ((105 :: (body ++ 101 :: rest)).take (body.length + 1)).drop 1 = body
      ∧ (105 :: (body ++ 101 :: rest)).drop (body.length + 1 + 1) = rest := by
  refine ⟨?_, ?_, ?_⟩
  · have h : (101 : Nat) ∉ 105 :: body := by
      intro h
      rcases List.mem_cons.1 h with h | h
      · omega
      · exact body_no_e hb h
    have := indexByte_append h rest
    simpa using this
  · simp [List.take_left']
  · simp

theorem parseString_text {ds s : Bytes} (hd : isDigits ds = true)
    (hv : digitsValue ds = s.length) (rest : Bytes)
    (hlen : (ds ++ 58 :: (s ++ rest)).length < 2 ^ 63) :
    parseString (ds ++ 58 :: (s ++ rest)) = .ok (s, rest) := by
  obtain ⟨_, hall⟩ := (isDigits_iff ds).1 hd
  have hcolon : (58 : Nat) ∉ ds := by
    intro h
    have := hall 58 h
    omega
  simp only [List.length_append, List.length_cons] at hlen
  unfold parseString
  rw [indexByte_append hcolon]
  simp only [List.take_left', atoi]
  rw [parseInt_digits hd, if_pos (by omega)]
  simp only
  have hw : wrapInt64 ((ds.length : Int) + 1 + (digitsValue ds : Int))
      = ((ds.length + 1 + s.length : Nat) : Int) := by
    unfold wrapInt64
    omega
  rw [hw]
  rw [if_neg (by simp only [List.length_append, List.length_cons]; omega),
    if_neg (by omega)]
  simp only [Int.toNat_ofNat]
  have hmid := take_drop_middle (ds ++ [58]) s rest
  simp only [List.length_append, List.length_singleton, List.append_assoc,
    List.singleton_append] at hmid
  rw [hmid.1, hmid.2]

theorem text_cons (w : Wire) (hw : w.wellFormed = true) :
    ∃ c cs, w.text = c :: cs ∧ c ≠ 101 := by
  cases w with
  | int body => exact ⟨105, body ++ [101], by simp [Wire.text], by omega⟩
  | str ds s =>
    simp only [Wire.wellFormed, Bool.and_eq_true] at hw
    obtain ⟨d, cs, h, hd1, hd2⟩ := digits_head hw.1
    exact ⟨d, cs ++ 58 :: s, by simp [Wire.text, h], by omega⟩
  | list xs => exact ⟨108, textList xs ++ [101], by simp [Wire.text], by omega⟩
  | dict m => exact ⟨100, textEntries m ++ [101], by simp [Wire.text], by omega⟩

mutual
theorem parseElement_text : ∀ (w : Wire), w.wellFormed = true → ∀ (fuel : Nat) (rest : Bytes),
    3 * w.text.length ≤ fuel → (w.text ++ rest).length < 2 ^ 63 →
    parseElement fuel (w.text ++ rest) = .ok (w.decoded, rest)
  | .int body, hv, fuel, rest, hf, _ => by
    simp only [Wire.wellFormed, Bool.and_eq_true, decide_eq_true_eq] at hv
    simp only [Wire.text, List.length_cons, List.length_append] at hf
    obtain ⟨f, rfl⟩ : ∃ f, fuel = f + 1 := ⟨fuel - 1, by omega⟩
    obtain ⟨hi, ht, hd⟩ := body_token hv.1 rest
    have hdata : Wire.text (.int body) ++ rest = 105 :: (body ++ 101 :: rest) := by
      simp [Wire.text]
    rw [hdata]
    simp only [parseElement, if_true, hi, ht, hd, parseInt_body hv.1 hv.2.1 hv.2.2,
      Wire.decoded]
  | .str ds s, hv, fuel, rest, hf, hl => by
    simp only [Wire.wellFormed, Bool.and_eq_true, decide_eq_true_eq] at hv
    obtain ⟨d, cs, h, hd1, hd2⟩ := digits_head hv.1
    have hdata : Wire.text (.str ds s) ++ rest = ds ++ 58 :: (s ++ rest) := by
      simp [Wire.text]
    rw [hdata] at hl ⊢
    have hp := parseString_text hv.1 hv.2 rest hl
    simp only [Wire.text, h, List.length_cons, List.cons_append] at hf
    obtain ⟨f, rfl⟩ : ∃ f, fuel = f + 1 := ⟨fuel - 1, by omega⟩
    rw [h] at hp ⊢
    simp only [List.cons_append] at hp ⊢
    simp only [parseElement]
    rw [if_neg (by omega), if_neg (by omega), if_neg (by omega), if_pos ⟨hd1, hd2⟩, hp]
    rfl
  | .list xs, hv, fuel, rest, hf, hl => by
    simp only [Wire.wellFormed] at hv
    simp only [Wire.text, List.length_cons, List.length_append, List.length_singleton] at hf
    obtain ⟨f, rfl⟩ : ∃ f, fuel = f + 2 := ⟨fuel - 2, by omega⟩
    have hl' : (textList xs ++ 101 :: rest).length < 2 ^ 63 := by
      simp only [Wire.text, List.length_cons, List.length_append, List.length_singleton] at hl
      simp only [List.length_cons, List.length_append]
      omega
    have := parseListLoop_text xs hv f rest [] (by omega) hl'
    have hd : Wire.text (.list xs) ++ rest = 108 :: (textList xs ++ 101 :: rest) := by
      simp [Wire.text]
    rw [hd]
    simp [parseElement, parseList, this, Wire.decoded]
  | .dict m, hv, fuel, rest, hf, hl => by
    simp only [Wire.wellFormed] at hv
    simp only [Wire.text, List.length_cons, List.length_append, List.length_singleton] at hf
    obtain ⟨f, rfl⟩ : ∃ f, fuel = f + 2 := ⟨fuel - 2, by omega⟩
    have hl' : (textEntries m ++ 101 :: rest).length < 2 ^ 63 := by
      simp only [Wire.text, List.length_cons, List.length_append, List.length_singleton] at hl
      simp only [List.length_cons, List.length_append]
      omega
    have := parseDictLoop_text m hv f rest [] (by omega) hl'
    have hd : Wire.text (.dict m) ++ rest = 100 :: (textEntries m ++ 101 :: rest) := by
      simp [Wire.text]
    rw [hd]
    simp [parseElement, parseDict, this, Wire.decoded]
theorem parseListLoop_text : ∀ (xs : List Wire), wellFormedList xs = true →
    ∀ (fuel : Nat) (rest : Bytes) (acc : List Value),
    3 * (textList xs).length + 1 ≤ fuel → (textList xs ++ 101 :: rest).length < 2 ^ 63 →
    parseListLoop fuel (textList xs ++ 101 :: rest) acc = .ok (acc ++ decodedList xs, rest)
  | [], _, fuel, rest, acc, hf, _ => by
    obtain ⟨f, rfl⟩ : ∃ f, fuel = f + 1 := ⟨fuel - 1, by omega⟩
    simp [textList, parseListLoop, decodedList]
  | x :: xs, hv, fuel, rest, acc, hf, hl => by
    simp only [wellFormedList, Bool.and_eq_true] at hv
    simp only [textList, List.length_append] at hf
    simp only [textList, List.append_assoc, List.length_append] at hl
    obtain ⟨f, rfl⟩ : ∃ f, fuel = f + 1 := ⟨fuel - 1, by omega⟩
    obtain ⟨c, cs, hc, hne⟩ := text_cons x hv.1
    have hlen1 : 1 ≤ x.text.length := by rw [hc]; simp
    have h1 := parseElement_text x hv.1 f (textList xs ++ 101 :: rest) (by omega)
      (by simp only [List.length_append]; omega)
    have h2 := parseListLoop_text xs hv.2 f rest (acc ++ [x.decoded]) (by omega)
      (by simp only [List.length_append]; omega)
    simp only [textList, List.append_assoc]
    rw [hc] at h1 ⊢
    simp only [List.cons_append] at h1 ⊢
    simp only [parseListLoop, if_neg hne, h1, h2, decodedList]
    simp
theorem parseDictLoop_text : ∀ (m : List ((Bytes × Bytes) × Wire)),
    wellFormedEntries m = true →
    ∀ (fuel : Nat) (rest : Bytes) (acc : List (Bytes × Value)),
    3 * (textEntries m).length + 1 ≤ fuel → (textEntries m ++ 101 :: rest).length < 2 ^ 63 →
    parseDictLoop fuel (textEntries m ++ 101 :: rest) acc = .ok (decodedEntries m acc, rest)
  | [], _, fuel, rest, acc, hf, _ => by
    obtain ⟨f, rfl⟩ : ∃ f, fuel = f + 1 := ⟨fuel - 1, by omega⟩
    simp [textEntries, parseDictLoop, decodedEntries]
  | ((ds, k), x) :: m, hv, fuel, rest, acc, hf, hl => by
    simp only [wellFormedEntries, Bool.and_eq_true, decide_eq_true_eq] at hv
    obtain ⟨⟨⟨hds, hdv⟩, hx⟩, hm⟩ := hv
    simp only [textEntries, List.length_append, List.length_cons] at hf
    simp only [textEntries, List.append_assoc, List.length_append, List.length_cons,
      List.cons_append] at hl
    obtain ⟨f, rfl⟩ : ∃ f, fuel = f + 1 := ⟨fuel - 1, by omega⟩
    obtain ⟨d, cs, hd, hd1, hd2⟩ := digits_head hds
    have h0 := parseString_text hds hdv (x.text ++ (textEntries m ++ 101 :: rest))
      (by simp only [List.length_append, List.length_cons]; omega)
    have h1 := parseElement_text x hx f (textEntries m ++ 101 :: rest) (by omega)
      (by simp only [List.length_append, List.length_cons]; omega)
    have h2 := parseDictLoop_text m hm f rest (assocSet acc k x.decoded) (by omega)
      (by simp only [List.length_append, List.length_cons]; omega)
    have hdata : textEntries (((ds, k), x) :: m) ++ 101 :: rest
        = ds ++ 58 :: (k ++ (x.text ++ (textEntries m ++ 101 :: rest))) := by
      simp [textEntries]
    rw [hdata]
    rw [hd] at h0 ⊢
    simp only [List.cons_append] at h0 ⊢
    simp only [parseDictLoop, if_neg (show d ≠ 101 by omega), h0, h1, h2, decodedEntries]
end

theorem parseBencodeList_text : ∀ (xs : List Wire), wellFormedList xs = true →
    ∀ (fuel : Nat) (rest : Bytes) (acc : List Value),
    3 * (textList xs).length + 1 ≤ fuel → (textList xs ++ 101 :: rest).length < 2 ^ 63 →
    parseBencodeList fuel (textList xs ++ 101 :: rest) acc = .ok (acc ++ decodedList xs) := by
  intro xs
  induction xs with
  | nil =>
    intro _ fuel rest acc hf _
    obtain ⟨f, rfl⟩ : ∃ f, fuel = f + 1 := ⟨fuel - 1, by omega⟩
    simp [textList, parseBencodeList, decodedList]
  | cons x xs ih =>
    intro hv fuel rest acc hf hl
    simp only [wellFormedList, Bool.and_eq_true] at hv
    simp only [textList, List.length_append] at hf
    simp only [textList, List.append_assoc, List.length_append] at hl
    obtain ⟨f, rfl⟩ : ∃ f, fuel = f + 1 := ⟨fuel - 1, by omega⟩
    obtain ⟨c, cs, hc, hne⟩ := text_cons x hv.1
    have hlen1 : 1 ≤ x.text.length := by rw [hc]; simp
    have h1 := parseElement_text x hv.1 f (textList xs ++ 101 :: rest) (by omega)
      (by simp only [List.length_append]; omega)
    have h2 := ih hv.2 f rest (acc ++ [x.decoded]) (by omega)
      (by simp only [List.length_append]; omega)
    simp only [textList, List.append_assoc]
    rw [hc] at h1 ⊢
    simp only [List.cons_append] at h1 ⊢
    simp only [parseBencodeList, if_neg hne, h1, h2, decodedList]
    simp

theorem parseBencodeDict_text : ∀ (m : List ((Bytes × Bytes) × Wire)),
    wellFormedEntries m = true →
    ∀ (fuel : Nat) (rest : Bytes) (acc : List (Bytes × Value)),
    3 * (textEntries m).length + 1 ≤ fuel → (textEntries m ++ 101 :: rest).length < 2 ^ 63 →
    parseBencodeDict fuel (textEntries m ++ 101 :: rest) acc = .ok (decodedEntries m acc) := by
  intro m
  induction m with
  | nil =>
    intro _ fuel rest acc hf _
    obtain ⟨f, rfl⟩ : ∃ f, fuel = f + 1 := ⟨fuel - 1, by omega⟩
    simp [textEntries, parseBencodeDict, decodedEntries]
  | cons p m ih =>
    obtain ⟨⟨ds, k⟩, x⟩ := p
    intro hv fuel rest acc hf hl
    simp only [wellFormedEntries, Bool.and_eq_true, decide_eq_true_eq] at hv
    obtain ⟨⟨⟨hds, hdv⟩, hx⟩, hm⟩ := hv
    simp only [textEntries, List.length_append, List.length_cons] at hf
    simp only [textEntries, List.append_assoc, List.length_append, List.length_cons,
      List.cons_append] at hl
    obtain ⟨f, rfl⟩ : ∃ f, fuel = f + 1 := ⟨fuel - 1, by omega⟩
    obtain ⟨d, cs, hd, hd1, hd2⟩ := digits_head hds
    have h0 := parseString_text hds hdv (x.text ++ (textEntries m ++ 101 :: rest))
      (by simp only [List.length_append, List.length_cons]; omega)
    have h1 := parseElement_text x hx f (textEntries m ++ 101 :: rest) (by omega)
      (by simp only [List.length_append, List.length_cons]; omega)
    have h2 := ih hm f rest (assocSet acc k x.decoded) (by omega)
      (by simp only [List.length_append, List.length_cons]; omega)
    have hdata : textEntries (((ds, k), x) :: m) ++ 101 :: rest
        = ds ++ 58 :: (k ++ (x.text ++ (textEntries m ++ 101 :: rest))) := by
      simp [textEntries]
    rw [hdata]
    rw [hd] at h0 ⊢
    simp only [List.cons_append] at h0 ⊢
    simp only [parseBencodeDict, if_neg (show d ≠ 101 by omega), h0, h1, h2, decodedEntries]

theorem parseBencode_text (w : Wire) (hv : w.wellFormed = true)
    (hl : w.text.length < 2 ^ 63) : parseBencode w.text = .ok w.decoded := by
  cases w with
  | int body =>
    simp only [Wire.wellFormed, Bool.and_eq_true, decide_eq_true_eq] at hv
    obtain ⟨hi, ht, _⟩ := body_token hv.1 []
    have hd : Wire.text (.int body) = 105 :: (body ++ [101]) := by simp [Wire.text]
    rw [hd]
    simp only [parseBencode, if_true, hi, ht, parseInt_body hv.1 hv.2.1 hv.2.2, Wire.decoded]
  | str ds s =>
    simp only [Wire.wellFormed, Bool.and_eq_true, decide_eq_true_eq] at hv
    obtain ⟨d, cs, h, hd1, hd2⟩ := digits_head hv.1
    have hp := parseString_text hv.1 hv.2 [] (by simpa [Wire.text] using hl)
    simp only [Wire.text, Wire.decoded]
    rw [List.append_nil] at hp
    rw [h] at hp ⊢
    simp only [List.cons_append] at hp ⊢
    simp only [parseBencode]
    rw [if_neg (by omega), if_neg (by omega), if_neg (by omega), if_pos ⟨hd1, hd2⟩, hp]
  | list xs =>
    simp only [Wire.wellFormed] at hv
    simp only [Wire.text, List.length_cons, List.length_append, List.length_singleton] at hl
    have := parseBencodeList_text xs hv (fuelFor (108 :: (textList xs ++ [101]))) [] []
      (by simp only [fuelFor, List.length_cons, List.length_append, List.length_singleton]; omega)
      (by simp only [List.length_cons, List.length_append, List.length_nil]; omega)
    have hd : Wire.text (.list xs) = 108 :: (textList xs ++ [101]) := by simp [Wire.text]
    rw [hd]
    simp [parseBencode, this, Wire.decoded]
  | dict m =>
    simp only [Wire.wellFormed] at hv
    simp only [Wire.text, List.length_cons, List.length_append, List.length_singleton] at hl
    have := parseBencodeDict_text m hv (fuelFor (100 :: (textEntries m ++ [101]))) [] []
      (by simp only [fuelFor, List.length_cons, List.length_append, List.length_singleton]; omega)
      (by simp only [List.length_cons, List.length_append, List.length_nil]; omega)
    have hd : Wire.text (.dict m) = 100 :: (textEntries m ++ [101]) := by simp [Wire.text]
    rw [hd]
    simp [parseBencode, this, Wire.decoded]

theorem nodup_keys_decodedEntries (m : List ((Bytes × Bytes) × Wire)) :
    ∀ acc : List (Bytes × Value), (acc.map Prod.fst).Nodup →
      ((decodedEntries m acc).map Prod.fst).Nodup := by
  induction m with
  | nil => intro acc h; simpa [decodedEntries] using h
  | cons p m ih =>
    obtain ⟨⟨ds, k⟩, x⟩ := p
    intro acc h
    simp only [decodedEntries]
    exact ih _ (nodup_keys_assocSet _ _ _ h)

theorem assocGet_decodedEntries (m : List ((Bytes × Bytes) × Wire)) :
    ∀ (acc : List (Bytes × Value)) (k : Bytes),
      assocGet (decodedEntries m acc) k
        = match lastWire m k with
          | some x => some x.decoded
          | none => assocGet acc k := by
  induction m with
  | nil => intro acc k; simp [decodedEntries, lastWire]
  | cons p m ih =>
    obtain ⟨⟨ds, k0⟩, x0⟩ := p
    intro acc k
    simp only [decodedEntries, ih, lastWire, assocGet_assocSet]
    cases lastWire m k with
    | some x => rfl
    | none =>
      simp only
      split <;> rfl

theorem lastWire_isSome_iff (m : List ((Bytes × Bytes) × Wire)) (k : Bytes) :
    (∃ x, lastWire m k = some x) ↔ k ∈ m.map (fun p => p.1.2) := by
  induction m with
  | nil => simp [lastWire]
  | cons p m ih =>
    obtain ⟨⟨ds, k0⟩, x0⟩ := p
    simp only [lastWire, List.map_cons, List.mem_cons]
    cases hl : lastWire m k with
    | some y =>
      have : k ∈ m.map (fun p => p.1.2) := ih.1 ⟨y, hl⟩
      simp [this]
    | none =>
      have hn : k ∉ m.map (fun p => p.1.2) := by
        intro hm
        obtain ⟨y, hy⟩ := ih.2 hm
        rw [hl] at hy; cases hy
      by_cases hk : k0 = k
      · simp [hk]
      · have hk' : ¬ k = k0 := fun e => hk e.symm
        simp [hk, hk', hn]

theorem lastWire_mem {m : List ((Bytes × Bytes) × Wire)} {k : Bytes} {x : Wire}
    (h : lastWire m k = some x) : ∃ ds, ((ds, k), x) ∈ m := by
  induction m with
  | nil => simp [lastWire] at h
  | cons p m ih =>
    obtain ⟨⟨ds0, k0⟩, x0⟩ := p
    simp only [lastWire] at h
    cases hl : lastWire m k with
    | some y =>
      rw [hl] at h
      cases h
      obtain ⟨ds, hm⟩ := ih hl
      exact ⟨ds, List.mem_cons_of_mem _ hm⟩
    | none =>
      rw [hl] at h
      simp only at h
      split at h
      · rename_i hk
        cases h
        subst hk
        exact ⟨ds0, List.mem_cons_self _ _⟩
      · cases h

theorem wellFormedEntries_mem {m : List ((Bytes × Bytes) × Wire)} {ds k : Bytes} {x : Wire}
    (hwf : wellFormedEntries m = true) (h : ((ds, k), x) ∈ m) :
    x.wellFormed = true ∧ x.text.length ≤ (textEntries m).length := by
  induction m with
  | nil => simp at h
  | cons p m ih =>
    obtain ⟨⟨ds0, k0⟩, x0⟩ := p
    simp only [wellFormedEntries, Bool.and_eq_true] at hwf
    simp only [textEntries, List.length_append]
    rcases List.mem_cons.1 h with h | h
    · cases h
      exact ⟨hwf.1.2, by omega⟩
    · have := ih hwf.2 h
      exact ⟨this.1, by omega⟩

/-- C13. Duplicate keys: for every well-formed dictionary input, whose entries
`m` may repeat keys, decoding succeeds and yields a mapping `d` that contains
every key of `m` exactly once, bound to the value decoded from the last entry of
`m` with that key. The same mapping is the result for the dictionary at top
level and for the dictionary met as an element inside a list or a dictionary
(`parseElement`). The input is shorter than `2^63` bytes. -/
theorem decode_duplicate_keys (m : List ((Bytes × Bytes) × Wire))
    (hwf : wellFormedEntries m = true) (hlen : (Wire.text (.dict m)).length < 2 ^ 63) :
    ∃ d, parseBencode (Wire.text (.dict m)) = .ok (.dict d)
      ∧ (d.map Prod.fst).Nodup
      ∧ (∀ k, k ∈ d.map Prod.fst ↔ k ∈ m.map (fun p => p.1.2))
      ∧ (∀ k x, lastWire m k = some x →
          ∃ y, assocGet d k = some y ∧ parseBencode x.text = .ok y)
      ∧ ∀ fuel rest, 3 * (Wire.text (.dict m)).length ≤ fuel →
          (Wire.text (.dict m) ++ rest).length < 2 ^ 63 →
          parseElement fuel (Wire.text (.dict m) ++ rest) = .ok (.dict d, rest) := by
  have hv : (Wire.dict m).wellFormed = true := by simpa [Wire.wellFormed] using hwf
  refine ⟨decodedEntries m [], ?_, nodup_keys_decodedEntries m [] (by simp), ?_, ?_, ?_⟩
  · simpa [Wire.decoded] using parseBencode_text (.dict m) hv hlen
  · intro k
    rw [mem_keys_iff_assocGet, assocGet_decodedEntries, ← lastWire_isSome_iff]
    cases lastWire m k with
    | some x => simp
    | none => simp [assocGet]
  · intro k x hx
    refine ⟨x.decoded, by rw [assocGet_decodedEntries, hx], ?_⟩
    obtain ⟨ds, hmem⟩ := lastWire_mem hx
    obtain ⟨hx1, hx2⟩ := wellFormedEntries_mem hwf hmem
    simp only [Wire.text, List.length_cons, List.length_append, List.length_singleton] at hlen
    exact parseBencode_text x hx1 (by omega)
  · intro fuel rest hf hl
    simpa [Wire.decoded] using parseElement_text (.dict m) hv fuel rest hf hl

/-- C13 at the text `d1:ai1e1:bi2e01:ai3ee`, which decodes to
`{"a": 3, "b": 2}`. -/
theorem decode_duplicate_keys_witness :
    wellFormedEntries [((ascii "1", ascii "a"), .int (ascii "1")),
        ((ascii "1", ascii "b"), .int (ascii "2")),
        ((ascii "01", ascii "a"), .int (ascii "3"))] = true
      ∧ Wire.text (.dict [((ascii "1", ascii "a"), .int (ascii "1")),
          ((ascii "1", ascii "b"), .int (ascii "2")),
          ((ascii "01", ascii "a"), .int (ascii "3"))]) = ascii "d1:ai1e1:bi2e01:ai3ee"
      ∧ parseBencode (ascii "d1:ai1e1:bi2e01:ai3ee")
          = .ok (.dict [(ascii "a", .int 3), (ascii "b", .int 2)])
      ∧ ∃ d, parseBencode (Wire.text (.dict [((ascii "1", ascii "a"), .int (ascii "1")),
            ((ascii "1", ascii "b"), .int (ascii "2")),
            ((ascii "01", ascii "a"), .int (ascii "3"))])) = .ok (.dict d)
        ∧ (d.map Prod.fst).Nodup
        ∧ (∀ k, k ∈ d.map Prod.fst
            ↔ k ∈ [((ascii "1", ascii "a"), Wire.int (ascii "1")),
                ((ascii "1", ascii "b"), .int (ascii "2")),
                ((ascii "01", ascii "a"), .int (ascii "3"))].map (fun p => p.1.2))
        ∧ (∀ k x, lastWire [((ascii "1", ascii "a"), .int (ascii "1")),
              ((ascii "1", ascii "b"), .int (ascii "2")),
              ((ascii "01", ascii "a"), .int (ascii "3"))] k = some x →
            ∃ y, assocGet d k = some y ∧ parseBencode x.text = .ok y)
        ∧ ∀ fuel rest,
            3 * (Wire.text (.dict [((ascii "1", ascii "a"), .int (ascii "1")),
              ((ascii "1", ascii "b"), .int (ascii "2")),
              ((ascii "01", ascii "a"), .int (ascii "3"))])).length ≤ fuel →
            (Wire.text (.dict [((ascii "1", ascii "a"), .int (ascii "1")),
              ((ascii "1", ascii "b"), .int (ascii "2")),
              ((ascii "01", ascii "a"), .int (ascii "3"))]) ++ rest).length < 2 ^ 63 →
            parseElement fuel (Wire.text (.dict [((ascii "1", ascii "a"), .int (ascii "1")),
              ((ascii "1", ascii "b"), .int (ascii "2")),
              ((ascii "01", ascii "a"), .int (ascii "3"))]) ++ rest) = .ok (.dict d, rest) :=
  ⟨by decide, by decide, rfl, decode_duplicate_keys _ (by decide) (by decide)⟩

/-! ## What the decoder accepts, and C12 -/

theorem parseUintLoop_ok_digits (ds : Bytes) : ∀ (a n : Nat),
    parseUintLoop ds a = .ok n → ∀ d ∈ ds, 48 ≤ d ∧ d ≤ 57 := by
  induction ds with
  | nil => intro a n _ d hd; cases hd
  | cons c cs ih =>
    intro a n h d hd
    simp only [parseUintLoop] at h
    split at h
    · rename_i hc
      split at h
      · cases h
      · split at h
        · cases h
        · rcases List.mem_cons.1 hd with rfl | hd
          · exact hc
          · exact ih _ _ h d hd
    · cases h

theorem parseUint_ok {s : Bytes} {n : Nat} (h : parseUint s = .ok n) :
    isDigits s = true ∧ n = digitsValue s := by
  unfold parseUint at h
  split at h
  · cases h
  · rename_i hne
    have hall := parseUintLoop_ok_digits s 0 n h
    have hd : isDigits s = true := (isDigits_iff s).2 ⟨fun e => hne e, hall⟩
    refine ⟨hd, ?_⟩
    rw [parseUintLoop_digits s hall 0 (by norm_num)] at h
    split at h
    · injection h with h
      exact h.symm
    · cases h

/-- What `strconv.ParseInt` accepts: an optional sign and digits, with the
number they denote. -/
theorem parseInt_ok {s : Bytes} {n : Int} (h : parseInt s = .ok n) :
    ∃ sign ds, s = sign ++ ds ∧ (sign = [] ∨ sign = [43] ∨ sign = [45])
      ∧ isDigits ds = true
      ∧ n = (if sign = [45] then -(digitsValue ds : Int) else (digitsValue ds : Int)) := by
  unfold parseInt at h
  split at h
  · cases h
  · rename_i c cs
    simp only at h
    split at h
    · cases h
    · rename_i un hu
      split at h
      · cases h
      · split at h
        · cases h
        · injection h with h
          by_cases h45 : c = 45
          · subst h45
            simp only [or_true, if_true] at hu
            obtain ⟨hd, hn⟩ := parseUint_ok hu
            refine ⟨[45], cs, rfl, Or.inr (Or.inr rfl), hd, ?_⟩
            simp only [decide_True, if_true] at h
            simp [← h, hn]
          · by_cases h43 : c = 43
            · subst h43
              simp only [true_or, if_true] at hu
              obtain ⟨hd, hn⟩ := parseUint_ok hu
              refine ⟨[43], cs, rfl, Or.inr (Or.inl rfl), hd, ?_⟩
              simp only [h45, decide_False] at h
              simp [← h, hn]
            · have hno : ¬ (c = 43 ∨ c = 45) := by omega
              rw [if_neg hno] at hu
              obtain ⟨hd, hn⟩ := parseUint_ok hu
              refine ⟨[], c :: cs, rfl, Or.inl rfl, hd, ?_⟩
              simp only [h45, decide_False] at h
              simp [← h, hn]

theorem parseInt_ok_body {s : Bytes} {n : Int} (h : parseInt s = .ok n) :
    isIntBody true s = true := by
  obtain ⟨sign, ds, rfl, hs, hd, _⟩ := parseInt_ok h
  obtain ⟨d, cs, rfl, hd1, hd2⟩ := digits_head hd
  rcases hs with rfl | rfl | rfl
  · simp only [List.nil_append, isIntBody]
    rw [if_neg (by omega), if_neg (by omega)]
    exact hd
  · simp only [List.singleton_append, isIntBody]
    simpa using hd
  · simp only [List.singleton_append, isIntBody]
    simpa using hd

theorem indexByte_some {data : Bytes} {c i : Nat} (h : indexByte data c = some i) :
    data = data.take i ++ c :: data.drop (i + 1) ∧ c ∉ data.take i := by
  induction data generalizing i with
  | nil => simp [indexByte] at h
  | cons b bs ih =>
    simp only [indexByte] at h
    split at h
    · rename_i hb
      injection h with h
      subst h
      subst hb
      simp
    · rename_i hb
      simp only [Option.map_eq_some'] at h
      obtain ⟨j, hj, rfl⟩ := h
      obtain ⟨h1, h2⟩ := ih hj
      constructor
      · simp only [List.take_succ_cons, List.drop_succ_cons, List.cons_append]
        rw [← h1]
      · simp only [List.take_succ_cons, List.mem_cons, not_or]
        exact ⟨fun e => hb e.symm, h2⟩

theorem parseInt_range {s : Bytes} {n : Int} (h : parseInt s = .ok n) :
    -(2 ^ 63) ≤ n ∧ n < 2 ^ 63 := by
  unfold parseInt at h
  split at h
  · cases h
  · simp only at h
    split at h
    · cases h
    · split at h
      · cases h
      · split at h
        · cases h
        · rename_i h1 h2
          injection h with h
          subst h
          split
          · rename_i hneg
            simp [hneg] at h2
            omega
          · rename_i hneg
            simp [hneg] at h1
            omega

/-- What `parseString` accepts: an optional sign, digits, a colon and as many
bytes as the digits denote; the bytes are the string and what follows is the
rest. -/
theorem parseString_ok {data s rest : Bytes} (h : parseString data = .ok (s, rest)) :
    ∃ sign ds, data = sign ++ ds ++ 58 :: (s ++ rest)
      ∧ (sign = [] ∨ sign = [43] ∨ sign = [45])
      ∧ isDigits ds = true ∧ digitsValue ds = s.length := by
  unfold parseString at h
  split at h
  · cases h
  · rename_i colon hcolon
    obtain ⟨hdata, _⟩ := indexByte_some hcolon
    split at h
    · cases h
    · rename_i length hatoi
      obtain ⟨sign, ds, hpre, hsign, hd, hlen⟩ := parseInt_ok hatoi
      simp only at h
      split at h
      · cases h
      · split at h
        · cases h
        · rename_i h1 h2
          injection h with h
          simp only [Prod.mk.injEq] at h
          obtain ⟨hs, hr⟩ := h
          have hstop : wrapInt64 ((colon : Int) + 1 + length) = (colon : Int) + 1 + length
              ∧ 0 ≤ length := by
            have hb := parseInt_range hatoi
            unfold wrapInt64 at h1 h2 ⊢
            constructor <;> omega
          obtain ⟨hw, hnn⟩ := hstop
          rw [hw] at h1 h2 hs hr
          have hneg : ¬ sign = [45] ∨ digitsValue ds = 0 := by
            by_cases hsg : sign = [45]
            · right
              rw [if_pos hsg] at hlen
              omega
            · exact Or.inl hsg
          have hval : length = (digitsValue ds : Int) := by
            rcases hneg with hsg | hz
            · rw [if_neg hsg] at hlen; exact hlen
            · split at hlen <;> omega
          have hto : ((colon : Int) + 1 + length).toNat = colon + 1 + digitsValue ds := by
            rw [hval]; omega
          rw [hto] at hs hr
          have hle : colon + 1 + digitsValue ds ≤ data.length := by
            rw [hval] at h1; omega
          have e1 : s = (data.drop (colon + 1)).take (digitsValue ds) := by
            rw [← hs, List.drop_take]
            congr 1
            omega
          have e2 : rest = (data.drop (colon + 1)).drop (digitsValue ds) := by
            rw [← hr, List.drop_drop]
          have hsplit : data.drop (colon + 1) = s ++ rest := by
            rw [e1, e2, List.take_append_drop]
          refine ⟨sign, ds, ?_, hsign, hd, ?_⟩
          · rw [← hpre, ← hsplit]
            exact hdata
          · rw [← hs, List.length_drop, List.length_take]
            omega

theorem string_token {c : Nat} {cs str rest : Bytes} (hc : 48 ≤ c ∧ c ≤ 57)
    (h : parseString (c :: cs) = .ok (str, rest)) :
    ∃ tok, c :: cs = tok ++ rest ∧ Element true tok := by
  obtain ⟨sign, ds, hdata, hsign, hd, hv⟩ := parseString_ok h
  have hs : sign = [] := by
    rcases hsign with rfl | rfl | rfl
    · rfl
    · simp only [List.singleton_append, List.cons_append, List.cons.injEq] at hdata
      omega
    · simp only [List.singleton_append, List.cons_append, List.cons.injEq] at hdata
      omega
  subst hs
  refine ⟨ds ++ 58 :: str, ?_, Element.string ds str hd hv⟩
  rw [hdata]
  simp

theorem key_token {data key rest : Bytes} (h : parseString data = .ok (key, rest)) :
    ∃ k, data = k ++ rest ∧ IsKey true k := by
  obtain ⟨sign, ds, hdata, hsign, hd, hv⟩ := parseString_ok h
  refine ⟨sign ++ ds ++ 58 :: key, ?_, sign, ds, key, rfl, ?_, hd, hv⟩
  · rw [hdata]
    simp
  · rcases hsign with rfl | rfl | rfl
    · exact Or.inl rfl
    · exact Or.inr ⟨rfl, Or.inl rfl⟩
    · exact Or.inr ⟨rfl, Or.inr rfl⟩

theorem integer_token {cs : Bytes} {stop : Nat} {num : Int}
    (hi : indexByte (105 :: cs) 101 = some stop)
    (hp : parseInt (((105 :: cs).take stop).drop 1) = .ok num) :
    ∃ tok, 105 :: cs = tok ++ (105 :: cs).drop (stop + 1) ∧ Element true tok := by
  obtain ⟨hdata, _⟩ := indexByte_some hi
  have hstop : ∃ j, stop = j + 1 := by
    simp only [indexByte] at hi
    rw [if_neg (by decide)] at hi
    simp only [Option.map_eq_some'] at hi
    obtain ⟨j, _, hj⟩ := hi
    exact ⟨j, hj.symm⟩
  obtain ⟨j, rfl⟩ := hstop
  have htake : (105 :: cs).take (j + 1) = 105 :: ((105 :: cs).take (j + 1)).drop 1 := by
    simp
  refine ⟨105 :: ((105 :: cs).take (j + 1)).drop 1 ++ [101], ?_,
    Element.integer _ (parseInt_ok_body hp)⟩
  rw [← htake]
  simpa using hdata

/-- Soundness of the nested decoder for the lenient grammar: what a decoder
function consumes is derivable. -/
theorem decoder_sound (fuel : Nat) :
    (∀ data v rest, parseElement fuel data = .ok (v, rest) →
        ∃ tok, data = tok ++ rest ∧ Element true tok)
      ∧ (∀ data v rest, parseList fuel data = .ok (v, rest) →
        ∃ c items, data = c :: items ++ 101 :: rest ∧ Elements true items)
      ∧ (∀ data acc v rest, parseListLoop fuel data acc = .ok (v, rest) →
        ∃ items, data = items ++ 101 :: rest ∧ Elements true items)
      ∧ (∀ data v rest, parseDict fuel data = .ok (v, rest) →
        ∃ c entries, data = c :: entries ++ 101 :: rest ∧ Entries true entries)
      ∧ (∀ data acc v rest, parseDictLoop fuel data acc = .ok (v, rest) →
        ∃ entries, data = entries ++ 101 :: rest ∧ Entries true entries) := by
  induction fuel with
  | zero =>
    refine ⟨?_, ?_, ?_, ?_, ?_⟩ <;> intros <;> rename_i h <;>
      simp [parseElement, parseList, parseListLoop, parseDict, parseDictLoop] at h
  | succ f ih =>
    obtain ⟨ihE, ihL, ihLL, ihD, ihDL⟩ := ih
    refine ⟨?_, ?_, ?_, ?_, ?_⟩
    · intro data v rest h
      cases data with
      | nil => simp [parseElement] at h
      | cons c cs =>
        simp only [parseElement] at h
        split at h
        · rename_i hc
          subst hc
          split at h
          · cases h
          · rename_i stop hi
            split at h
            · cases h
            · rename_i num hp
              injection h with h
              simp only [Prod.mk.injEq] at h
              rw [← h.2]
              exact integer_token hi hp
        · split at h
          · rename_i hc
            subst hc
            split at h
            · rename_i list rest' heq
              injection h with h
              simp only [Prod.mk.injEq] at h
              obtain ⟨c, items, hd, hel⟩ := ihL _ _ _ heq
              rw [← h.2]
              refine ⟨108 :: items ++ [101], ?_, Element.list items hel⟩
              rw [hd]
              simp only [List.cons_append, List.cons.injEq] at hd ⊢
              simp [hd.1]
            · cases h
            · cases h
            · cases h
          · split at h
            · rename_i hc
              subst hc
              split at h
              · rename_i dict rest' heq
                injection h with h
                simp only [Prod.mk.injEq] at h
                obtain ⟨c, entries, hd, hel⟩ := ihD _ _ _ heq
                rw [← h.2]
                refine ⟨100 :: entries ++ [101], ?_, Element.dict entries hel⟩
                rw [hd]
                simp only [List.cons_append, List.cons.injEq] at hd ⊢
                simp [hd.1]
              · cases h
              · cases h
              · cases h
            · split at h
              · rename_i hc
                split at h
                · rename_i str rest' heq
                  injection h with h
                  simp only [Prod.mk.injEq] at h
                  rw [← h.2]
                  exact string_token hc heq
                · cases h
                · cases h
                · cases h
              · cases h
    · intro data v rest h
      cases data with
      | nil => simp [parseList] at h
      | cons c cs =>
        simp only [parseList] at h
        obtain ⟨items, hd, hel⟩ := ihLL _ _ _ _ h
        exact ⟨c, items, by rw [hd]; simp, hel⟩
    · intro data acc v rest h
      cases data with
      | nil => simp [parseListLoop] at h
      | cons c cs =>
        simp only [parseListLoop] at h
        split at h
        · rename_i hc
          injection h with h
          simp only [Prod.mk.injEq] at h
          exact ⟨[], by simp [hc, h.2], Elements.nil⟩
        · split at h
          · rename_i item rest1 heq
            obtain ⟨tok, hd, hel⟩ := ihE _ _ _ heq
            obtain ⟨items, hd2, hels⟩ := ihLL _ _ _ _ h
            refine ⟨tok ++ items, ?_, Elements.cons tok items hel hels⟩
            rw [hd, hd2]
            simp
          · cases h
          · cases h
          · cases h
    · intro data v rest h
      cases data with
      | nil => simp [parseDict] at h
      | cons c cs =>
        simp only [parseDict] at h
        obtain ⟨entries, hd, hel⟩ := ihDL _ _ _ _ h
        exact ⟨c, entries, by rw [hd]; simp, hel⟩
    · intro data acc v rest h
      cases data with
      | nil => simp [parseDictLoop] at h
      | cons c cs =>
        simp only [parseDictLoop] at h
        split at h
        · rename_i hc
          injection h with h
          simp only [Prod.mk.injEq] at h
          exact ⟨[], by simp [hc, h.2], Entries.nil⟩
        · split at h
          · rename_i key rest0 heq0
            obtain ⟨k, hd0, hk⟩ := key_token heq0
            split at h
            · rename_i val rest1 heq
              obtain ⟨tok, hd, hel⟩ := ihE _ _ _ heq
              obtain ⟨entries, hd2, hels⟩ := ihDL _ _ _ _ h
              refine ⟨k ++ tok ++ entries, ?_, Entries.cons k tok entries hk hel hels⟩
              rw [hd0, hd, hd2]
              simp
            · cases h
            · cases h
            · cases h
          · cases h
          · cases h
          · cases h

theorem topList_sound (fuel : Nat) : ∀ (data : Bytes) (acc v : List Value),
    parseBencodeList fuel data acc = .ok v →
    (∃ items rest, data = items ++ 101 :: rest ∧ Elements true items) ∨ Elements true data := by
  induction fuel with
  | zero => intro data acc v h; simp [parseBencodeList] at h
  | succ f ih =>
    intro data acc v h
    cases data with
    | nil => exact Or.inr Elements.nil
    | cons c cs =>
      simp only [parseBencodeList] at h
      split at h
      · rename_i hc
        exact Or.inl ⟨[], cs, by simp [hc], Elements.nil⟩
      · split at h
        · rename_i item rest1 heq
          obtain ⟨tok, hd, hel⟩ := (decoder_sound f).1 _ _ _ heq
          rcases ih _ _ _ h with ⟨items, rest, hd2, hels⟩ | hels
          · refine Or.inl ⟨tok ++ items, rest, ?_, Elements.cons tok items hel hels⟩
            rw [hd, hd2]
            simp
          · right
            rw [hd]
            exact Elements.cons tok rest1 hel hels
        · cases h
        · cases h
        · cases h

theorem topDict_sound (fuel : Nat) : ∀ (data : Bytes) (acc v : List (Bytes × Value)),
    parseBencodeDict fuel data acc = .ok v →
    (∃ entries rest, data = entries ++ 101 :: rest ∧ Entries true entries)
      ∨ Entries true data := by
  induction fuel with
  | zero => intro data acc v h; simp [parseBencodeDict] at h
  | succ f ih =>
    intro data acc v h
    cases data with
    | nil => exact Or.inr Entries.nil
    | cons c cs =>
      simp only [parseBencodeDict] at h
      split at h
      · rename_i hc
        exact Or.inl ⟨[], cs, by simp [hc], Entries.nil⟩
      · split at h
        · rename_i key rest0 heq0
          obtain ⟨k, hd0, hk⟩ := key_token heq0
          split at h
          · rename_i val rest1 heq
            obtain ⟨tok, hd, hel⟩ := (decoder_sound f).1 _ _ _ heq
            rcases ih _ _ _ h with ⟨entries, rest, hd2, hels⟩ | hels
            · refine Or.inl ⟨k ++ tok ++ entries, rest, ?_,
                Entries.cons k tok entries hk hel hels⟩
              rw [hd0, hd, hd2]
              simp
            · right
              rw [hd0, hd, ← List.append_assoc]
              exact Entries.cons k tok rest1 hk hel hels
          · cases h
          · cases h
          · cases h
        · cases h
        · cases h
        · cases h

theorem element_length {lenient : Bool} {tok : Bytes} (h : Element lenient tok) :
    2 ≤ tok.length := by
  cases h with
  | integer body _ => simp
  | string ds s hd _ =>
    obtain ⟨d, cs, rfl, _⟩ := digits_head hd
    simp only [List.cons_append, List.length_cons, List.length_append]
    omega
  | list items _ => simp
  | dict entries _ => simp

/-- C12 as stated fails: the input `l`, a list that the end of the input leaves
open, is accepted although no byte string derivable from ELEMENT begins it, and
`i+5e` is accepted although `+5` is not an optional `-` followed by digits. -/
theorem grammar_counterexample :
    parseBencode (ascii "l") = .ok (.list [])
      ∧ ¬ BeginsWithElement false (ascii "l")
      ∧ parseBencode (ascii "i+5e") = .ok (.int 5)
      ∧ isIntBody false (ascii "+5") = false := by
  refine ⟨rfl, ?_, rfl, by decide⟩
  rintro (⟨tok, rest, hd, hel⟩ | ⟨hl, _⟩)
  · have h2 := element_length hel
    have hlen := congrArg List.length hd
    have h1 : (ascii "l").length = 1 := by decide
    rw [h1, List.length_append] at hlen
    omega
  · cases hl

/-- C12, amended. Grammar conformance: every input that the decoder accepts
begins with a byte string derivable from ELEMENT of the grammar in which an
integer body is an optional `-` or `+` followed by one or more decimal digits
and nothing else, the length of a dictionary key may carry such a sign, every
nested list and dictionary is closed by its terminating `e`, and every
dictionary entry is a STRING key followed by an ELEMENT; or the input is a
top-level list or dictionary of such elements and entries that ends with the
input instead of a closing `e`. -/
theorem decoder_accepts_grammar (data : Bytes) (v : Value)
    (h : parseBencode data = .ok v) : BeginsWithElement true data := by
  unfold parseBencode at h
  split at h
  · cases h
  · rename_i c cs
    split at h
    · rename_i hc
      subst hc
      split at h
      · cases h
      · rename_i stop hi
        split at h
        · cases h
        · rename_i num hp
          obtain ⟨tok, hd, hel⟩ := integer_token hi hp
          exact Or.inl ⟨tok, _, hd, hel⟩
    · split at h
      · rename_i hc
        subst hc
        split at h
        · rename_i list heq
          rcases topList_sound _ _ _ _ heq with ⟨items, rest, hd, hels⟩ | hels
          · refine Or.inl ⟨108 :: items ++ [101], rest, ?_, Element.list items hels⟩
            rw [hd]
            simp
          · exact Or.inr ⟨rfl, Or.inl ⟨cs, rfl, hels⟩⟩
        · cases h
        · cases h
        · cases h
      · split at h
        · rename_i hc
          subst hc
          split at h
          · rename_i dict heq
            rcases topDict_sound _ _ _ _ heq with ⟨entries, rest, hd, hels⟩ | hels
            · refine Or.inl ⟨100 :: entries ++ [101], rest, ?_, Element.dict entries hels⟩
              rw [hd]
              simp
            · exact Or.inr ⟨rfl, Or.inr ⟨cs, rfl, hels⟩⟩
          · cases h
          · cases h
          · cases h
        · split at h
          · rename_i hc
            split at h
            · rename_i str rest heq
              obtain ⟨tok, hd, hel⟩ := string_token hc heq
              exact Or.inl ⟨tok, rest, hd, hel⟩
            · cases h
            · cases h
            · cases h
          · cases h

/-- C12, amended, at the accepted input `li+5ed-0:lee`. -/
theorem decoder_accepts_grammar_witness :
    parseBencode (ascii "li+5ed-0:lee")
        = .ok (.list [.int 5, .dict [([], .list [])]])
      ∧ BeginsWithElement true (ascii "li+5ed-0:lee") :=
  ⟨rfl, decoder_accepts_grammar (ascii "li+5ed-0:lee") _ rfl⟩

/-! ## Unsupported shapes, with the key types of maps -/

theorem writeElemsTyped_returned (rs : List (Except GoError Bytes)) :
    writeElemsTyped (rs.map Outcome.returned) = some (writeElems rs) := by
  induction rs with
  | nil => rfl
  | cons r rs ih =>
    cases r with
    | ok b => simp [writeElemsTyped, writeElems, ih]
    | error e => simp [writeElemsTyped, writeElems, ih]

theorem writeEntriesTyped_returned (valueOf : Bytes → Option (Except GoError Bytes))
    (keys : List Bytes) :
    writeEntriesTyped (fun k => (valueOf k).map Outcome.returned) keys
      = some (writeEntries valueOf keys) := by
  induction keys with
  | nil => rfl
  | cons k keys ih =>
    simp only [writeEntriesTyped, writeEntries]
    cases h : valueOf k with
    | none => simpa using ih
    | some r =>
      cases r with
      | ok b => simp [ih]
      | error e => simpa using ih

theorem assocSet_map {α β : Type} (g : α → β) (m : List (Bytes × α)) (k : Bytes) (x : α) :
    assocSet (m.map (fun p => (p.1, g p.2))) k (g x)
      = (assocSet m k x).map (fun p => (p.1, g p.2)) := by
  induction m with
  | nil => rfl
  | cons p m ih =>
    obtain ⟨k', y⟩ := p
    simp only [List.map_cons, assocSet]
    split
    · simp
    · simp [ih]

theorem assocGet_map {α β : Type} (g : α → β) (m : List (Bytes × α)) (k : Bytes) :
    assocGet (m.map (fun p => (p.1, g p.2))) k = (assocGet m k).map g := by
  induction m with
  | nil => rfl
  | cons p m ih =>
    obtain ⟨k', y⟩ := p
    simp only [List.map_cons, assocGet]
    split
    · simp
    · simp [ih]

theorem collectFields_map {α β : Type} (g : α → β) (fs : List (StructField × α)) :
    ∀ acc : List (Bytes × α),
      collectFields (fs.map (fun p => (p.1, g p.2))) (acc.map (fun p => (p.1, g p.2)))
        = (collectFields fs acc).map (fun p => (p.1, g p.2)) := by
  induction fs with
  | nil => intro acc; rfl
  | cons p fs ih =>
    obtain ⟨f, x⟩ := p
    intro acc
    simp only [List.map_cons, collectFields]
    split
    · rw [assocSet_map, ih]
    · rw [ih]

mutual
theorem marshalValue_erase : ∀ v : TypedValue, v.plainKeys = true →
    v.marshalValue = .returned (marshalValue v.erase)
  | .int _, _ => rfl
  | .uint _, _ => rfl
  | .str _, _ => rfl
  | .other, _ => rfl
  | .ptr none, _ => rfl
  | .iface none, _ => rfl
  | .ptr (some x), h => by
    simp only [TypedValue.plainKeys] at h
    simp only [TypedValue.marshalValue, TypedValue.erase, marshalValue]
    exact marshalValue_erase x h
  | .iface (some x), h => by
    simp only [TypedValue.plainKeys] at h
    simp only [TypedValue.marshalValue, TypedValue.erase, marshalValue]
    exact marshalValue_erase x h
  | .seq xs, h => by
    simp only [TypedValue.plainKeys] at h
    simp only [TypedValue.marshalValue, TypedValue.erase, marshalValue,
      marshalElems_erase xs h, writeElemsTyped_returned]
  | .struct fs, h => by
    simp only [TypedValue.plainKeys] at h
    have hc := collectFields_map Outcome.returned (marshalFields (TypedValue.eraseFields fs)) []
    simp only [List.map_nil] at hc
    simp only [TypedValue.marshalValue, TypedValue.erase, marshalValue,
      marshalFields_erase fs h, hc]
    have hk : ((collectFields (marshalFields (TypedValue.eraseFields fs)) []).map
          (fun p => (p.1, Outcome.returned p.2))).map Prod.fst
        = (collectFields (marshalFields (TypedValue.eraseFields fs)) []).map Prod.fst := by
      simp [List.map_map, Function.comp_def]
    have hg : assocGet ((collectFields (marshalFields (TypedValue.eraseFields fs)) []).map
          (fun p => (p.1, Outcome.returned p.2)))
        = fun k => (assocGet (collectFields (marshalFields (TypedValue.eraseFields fs)) []) k).map
            Outcome.returned := by
      funext k
      exact assocGet_map _ _ _
    rw [hk, hg, writeEntriesTyped_returned]
  | .map namedKey entries, h => by
    simp only [TypedValue.plainKeys, Bool.and_eq_true, Bool.not_eq_true'] at h
    obtain ⟨hn, he⟩ := h
    subst hn
    have hg : mapIndexTyped false ((marshalEntries (TypedValue.eraseEntries entries)).map
          (fun p => (p.1, Outcome.returned p.2)))
        = fun k => (mapIndex (marshalEntries (TypedValue.eraseEntries entries)) k).map
            Outcome.returned := by
      funext k
      simp only [mapIndexTyped, Bool.false_eq_true, if_false]
      exact mapIndex_map _ _ _
    simp only [TypedValue.marshalValue, TypedValue.erase, marshalValue,
      marshalEntries_erase entries he, stringKeys_map, hg, writeEntriesTyped_returned]
theorem marshalElems_erase : ∀ xs : List TypedValue, TypedValue.plainList xs = true →
    TypedValue.marshalElems xs = (marshalElems (TypedValue.eraseList xs)).map Outcome.returned
  | [], _ => rfl
  | x :: xs, h => by
    simp only [TypedValue.plainList, Bool.and_eq_true] at h
    simp only [TypedValue.marshalElems, TypedValue.eraseList, marshalElems, List.map_cons,
      marshalValue_erase x h.1, marshalElems_erase xs h.2]
theorem marshalFields_erase : ∀ fs : List (StructField × TypedValue),
    TypedValue.plainFields fs = true →
    TypedValue.marshalFields fs
      = (marshalFields (TypedValue.eraseFields fs)).map (fun p => (p.1, Outcome.returned p.2))
  | [], _ => rfl
  | (f, x) :: rest, h => by
    simp only [TypedValue.plainFields, Bool.and_eq_true] at h
    simp only [TypedValue.marshalFields, TypedValue.eraseFields, marshalFields, List.map_cons,
      marshalValue_erase x h.1, marshalFields_erase rest h.2]
theorem marshalEntries_erase : ∀ es : List (GoValue × TypedValue),
    TypedValue.plainEntries es = true →
    TypedValue.marshalEntries es
      = (marshalEntries (TypedValue.eraseEntries es)).map (fun p => (p.1, Outcome.returned p.2))
  | [], _ => rfl
  | (k, x) :: rest, h => by
    simp only [TypedValue.plainEntries, Bool.and_eq_true] at h
    simp only [TypedValue.marshalEntries, TypedValue.eraseEntries, marshalEntries, List.map_cons,
      marshalValue_erase x h.1, marshalEntries_erase rest h.2]
end

/-- The outcome of `marshalValue` by the shape reached after following non-nil
pointers and wrappers: a supported shape never gives an error, a nil pointer or
wrapper gives zero bytes, every other shape gives "unsupported type". -/
theorem marshalValue_shape : ∀ v : TypedValue,
    (supportedShape (follow v.erase) = true
        ∧ (v.marshalValue = .panic ∨ ∃ out, v.marshalValue = .returned (.ok out)))
      ∨ (isNil (follow v.erase) = true ∧ v.marshalValue = .returned (.ok []))
      ∨ (follow v.erase = .other ∧ v.marshalValue = .returned (.error .unsupportedType))
  | .int _ => Or.inl ⟨rfl, Or.inr ⟨_, rfl⟩⟩
  | .uint _ => Or.inl ⟨rfl, Or.inr ⟨_, rfl⟩⟩
  | .str _ => Or.inl ⟨rfl, Or.inr ⟨_, rfl⟩⟩
  | .other => Or.inr (Or.inr ⟨rfl, rfl⟩)
  | .ptr none => Or.inr (Or.inl ⟨rfl, rfl⟩)
  | .iface none => Or.inr (Or.inl ⟨rfl, rfl⟩)
  | .ptr (some x) => by
    simp only [TypedValue.erase, follow, TypedValue.marshalValue]
    exact marshalValue_shape x
  | .iface (some x) => by
    simp only [TypedValue.erase, follow, TypedValue.marshalValue]
    exact marshalValue_shape x
  | .seq xs => by
    refine Or.inl ⟨rfl, ?_⟩
    simp only [TypedValue.marshalValue]
    cases writeElemsTyped (TypedValue.marshalElems xs) with
    | none => exact Or.inl rfl
    | some body => exact Or.inr ⟨_, rfl⟩
  | .struct fs => by
    refine Or.inl ⟨rfl, ?_⟩
    simp only [TypedValue.marshalValue]
    split
    · exact Or.inr ⟨_, rfl⟩
    · exact Or.inl rfl
  | .map namedKey entries => by
    refine Or.inl ⟨rfl, ?_⟩
    simp only [TypedValue.marshalValue]
    split
    · exact Or.inr ⟨_, rfl⟩
    · exact Or.inl rfl

/-- A map whose key type is a defined string type and that has a key makes
`marshalValue` panic: the first `v.MapIndex(reflect.ValueOf(sk))` does. -/
theorem marshalValue_named_key (entries : List (GoValue × TypedValue))
    (h : stringKeys entries ≠ []) :
    TypedValue.marshalValue (.map true entries) = .panic
      ∧ TypedValue.Marshal (some (.map true [(.str (ascii "a"), .int 1)])) = .panic := by
  refine ⟨?_, rfl⟩
  have hk : stringKeys (TypedValue.marshalEntries entries) = stringKeys entries := by
    clear h
    induction entries with
    | nil => rfl
    | cons p es ih => obtain ⟨k, x⟩ := p; cases k <;> simp [TypedValue.marshalEntries, stringKeys, ih]
  have hne : sortStrings (stringKeys (TypedValue.marshalEntries entries)) ≠ [] := by
    intro h0
    have hp := (sortStrings_perm (stringKeys (TypedValue.marshalEntries entries))).length_eq
    rw [h0, hk] at hp
    exact h (List.length_eq_zero.1 hp.symm)
  simp only [TypedValue.marshalValue]
  cases hs : sortStrings (stringKeys (TypedValue.marshalEntries entries)) with
  | nil => exact absurd hs hne
  | cons k ks => simp [writeEntriesTyped, mapIndexTyped]

/-- C8 as stated fails at a nil pointer: its shape is none of signed or unsigned
integer, string, sequence, record and mapping, and `Marshal` returns no error
(it returns zero bytes). -/
theorem marshal_error_counterexample :
    supportedShape (follow (TypedValue.erase (.ptr none))) = false
      ∧ TypedValue.Marshal (some (.ptr none)) = .returned (.ok [])
      ∧ ¬ ((∃ e, TypedValue.Marshal (some (.ptr none)) = .returned (.error e))
            ↔ supportedShape (follow (TypedValue.erase (.ptr none))) = false) := by
  refine ⟨rfl, rfl, ?_⟩
  intro h
  obtain ⟨e, he⟩ := h.2 rfl
  cases he

/-- C8, amended. Unsupported shapes: `Marshal` returns an error if and only if
its argument is the nil interface value or the value, after following non-nil
pointers and dynamically-typed wrappers, is neither a nil pointer or nil
wrapper nor of one of the shapes signed or unsigned integer, string, sequence,
record, mapping; the error is then "unsupported type" (an error result carries
no bytes). At a nil pointer or nil wrapper in that position `Marshal` returns
zero bytes and no error. A value of one of the listed shapes never makes
`Marshal` return an error, whatever it contains, and `Marshal` returns bytes
for it, those of `marshalValue` on the value without its key types, when no
map in it has a defined string type other than `string` as key type. -/
theorem marshal_error_iff (a : Option TypedValue) :
    ((∃ e, TypedValue.Marshal a = .returned (.error e))
        ↔ (a = none ∨ ∃ v, a = some v ∧ supportedShape (follow v.erase) = false
              ∧ isNil (follow v.erase) = false))
      ∧ (∀ e, TypedValue.Marshal a = .returned (.error e) → e = .unsupportedType)
      ∧ (∀ v, a = some v → isNil (follow v.erase) = true →
          TypedValue.Marshal a = .returned (.ok []))
      ∧ (∀ v, a = some v → supportedShape (follow v.erase) = true →
          (∀ e, TypedValue.Marshal a ≠ .returned (.error e))
            ∧ (v.plainKeys = true →
                ∃ out, TypedValue.Marshal a = .returned (.ok out) ∧ Marshal v.erase = .ok out)) := by
  cases a with
  | none =>
    refine ⟨⟨fun _ => Or.inl rfl, fun _ => ⟨.unsupportedType, rfl⟩⟩, ?_, ?_, ?_⟩
    · intro e he
      simp only [TypedValue.Marshal, TypedValue.marshalValue] at he
      cases he; rfl
    · intro v hv; cases hv
    · intro v hv; cases hv
  | some v =>
    have hM : TypedValue.Marshal (some v) = v.marshalValue := rfl
    rw [hM]
    rcases marshalValue_shape v with ⟨hs, hp | ⟨out, ho⟩⟩ | ⟨hn, ho⟩ | ⟨hoth, ho⟩
    · refine ⟨⟨?_, ?_⟩, ?_, ?_, ?_⟩
      · rintro ⟨e, he⟩; rw [hp] at he; cases he
      · rintro (h | ⟨w, hw, h1, _⟩)
        · cases h
        · cases hw; rw [hs] at h1; cases h1
      · intro e he; rw [hp] at he; cases he
      · intro w hw hnil
        cases hw
        cases hf : follow v.erase <;> rw [hf] at hs hnil <;> simp [supportedShape, isNil] at hs hnil
      · intro w hw _
        cases hw
        refine ⟨fun e he => (by rw [hp] at he; cases he), ?_⟩
        intro hplain
        rw [marshalValue_erase v hplain] at hp
        cases hp
    · refine ⟨⟨?_, ?_⟩, ?_, ?_, ?_⟩
      · rintro ⟨e, he⟩; rw [ho] at he; cases he
      · rintro (h | ⟨w, hw, h1, _⟩)
        · cases h
        · cases hw; rw [hs] at h1; cases h1
      · intro e he; rw [ho] at he; cases he
      · intro w hw hnil
        cases hw
        cases hf : follow v.erase <;> rw [hf] at hs hnil <;> simp [supportedShape, isNil] at hs hnil
      · intro w hw _
        cases hw
        refine ⟨fun e he => (by rw [ho] at he; cases he), ?_⟩
        intro hplain
        refine ⟨out, ho, ?_⟩
        rw [marshalValue_erase v hplain] at ho
        cases hm : marshalValue v.erase with
        | ok b => rw [hm] at ho; cases ho; exact hm
        | error e => rw [hm] at ho; cases ho
    · refine ⟨⟨?_, ?_⟩, ?_, ?_, ?_⟩
      · rintro ⟨e, he⟩; rw [ho] at he; cases he
      · rintro (h | ⟨w, hw, _, h2⟩)
        · cases h
        · cases hw; rw [hn] at h2; cases h2
      · intro e he; rw [ho] at he; cases he
      · intro w hw _; exact ho
      · intro w hw hsup
        cases hw
        cases hf : follow v.erase <;> rw [hf] at hsup hn <;> simp [supportedShape, isNil] at hsup hn
    · refine ⟨⟨fun _ => Or.inr ⟨v, rfl, by rw [hoth]; rfl, by rw [hoth]; rfl⟩,
        fun _ => ⟨_, ho⟩⟩, ?_, ?_, ?_⟩
      · intro e he; rw [ho] at he; cases he; rfl
      · intro w hw hnil
        cases hw
        rw [hoth] at hnil; cases hnil
      · intro w hw hsup
        cases hw
        rw [hoth] at hsup; cases hsup

/-- C8, amended, at a pointer to the mapping `{"a": 1, "b": 1.5}` with the key
type `string`, whose output is `d1:ai1ee`, and at the nil interface value. -/
theorem marshal_error_iff_witness :
    supportedShape (follow (TypedValue.erase
        (.ptr (some (.map false [(.str (ascii "a"), .int 1), (.str (ascii "b"), .other)])))))
        = true
      ∧ TypedValue.plainKeys
          (.ptr (some (.map false [(.str (ascii "a"), .int 1), (.str (ascii "b"), .other)])))
        = true
      ∧ TypedValue.Marshal
          (some (.ptr (some (.map false [(.str (ascii "a"), .int 1), (.str (ascii "b"), .other)]))))
        = .returned (.ok (ascii "d1:ai1ee"))
      ∧ TypedValue.Marshal none = .returned (.error .unsupportedType)
      ∧ ∃ out, TypedValue.Marshal
            (some (.ptr (some (.map false [(.str (ascii "a"), .int 1),
              (.str (ascii "b"), .other)])))) = .returned (.ok out)
          ∧ Marshal (TypedValue.erase
              (.ptr (some (.map false [(.str (ascii "a"), .int 1), (.str (ascii "b"), .other)]))))
            = .ok out :=
  ⟨rfl, rfl, rfl, rfl,
    ((marshal_error_iff (some (.ptr (some (.map false [(.str (ascii "a"), .int 1),
      (.str (ascii "b"), .other)]))))).2.2.2 _ rfl rfl).2 rfl⟩

end Bencode
